import Mathlib

/-!
The quadratic sieve `nsieve`.

A shallow embedding of the core of `nsieve` (`poly.c`, `nsieve.c`, `matrix.c`) and
machine-checked statements about it.

Conventions of the embedding

* `mpz_t` values are `Int`; `uint32_t` values are `Nat` with an explicit reduction
  modulo `2 ^ 32` where the C code can wrap around; `uint16_t` likewise modulo `2 ^ 16`.
* C arrays are lists; `xs.getD i d` reads `xs[i]`.
* `for` loops are folds over the list of values the loop variable takes; `while` loops are
  structural recursions on a bound of the number of iterations.
* Library routines of GMP whose result is undefined (`mpz_invert` without an inverse) make the
  embedding return `none`, and so does following a pointer that points to no object.
* Pointers between the C structures are indices into the lists of objects that `nsieve_t`
  holds.
* Finite `double` and `float` values are rational numbers; the floating-point operations, whose
  rounding depends on the platform, are parameters (`float_ops`).
-/

namespace NSieve

/-! ## GMP primitives -/

/-- GMP `mpz_invert (rop, op1, op2)`: the inverse of `op1` modulo `op2`, which GMP returns in the
range `0 ≤ rop < |op2|`; `none` when there is no inverse (GMP then returns zero and leaves `rop`
undefined).  The inverse in that range is unique, so a search finds the value GMP computes. -/
def mpz_invert (op1 op2 : Int) : Option Int :=
  ((List.range op2.natAbs).find? (fun (x : Nat) => decide ((op1 * (x : Int)) % op2 = 1 % op2))).map
    Int.ofNat

/-- GMP `mpz_divexact` and `mpz_divexact_ui`: the quotient `n / d`, specified by GMP only when
`d` divides `n`. -/
def mpz_divexact (n d : Int) : Int := n / d

/-- GMP `mpz_mod`: the non-negative remainder. -/
def mpz_mod (n d : Int) : Int := n % d

/-- Subtraction of two `uint32_t` values, as C computes it. -/
def sub_u32 (a b : Nat) : Nat := (((a : Int) - (b : Int)) % 4294967296).toNat

/-! ## Data model (`nsieve.h`, `poly.h`) -/

/-- The type `poly_group_t`: one value of `A` with its B-values. -/
structure poly_group_t where
  a : Int
  gvals : List Nat
  bvals : List Int
  ainverses : List Nat
  victim : Option Nat
deriving Repr, DecidableEq

/-- The type `poly_t`: a polynomial `(a, b, c)`, its sieve-window start and the index of its
group. -/
structure poly_t where
  a : Int
  b : Int
  c : Int
  istart : Int
  group : Nat
deriving Repr, DecidableEq

/-- The type `rel_t`: a relation.  `poly` is the index of its polynomial in `ns.polys`;
`factors` lists the field `fac` of the nodes of the linked list `rel->factors`, in order. -/
structure rel_t where
  x : Int
  poly : Nat
  factors : List Nat
  cofactor : Nat
deriving Repr, DecidableEq

/-- The type `matrel_t`: a matrix row and the relations it comes from.  `r1` and `r2` are
indices into `ns.rels`; `r2 = none` is the null pointer of a full relation. -/
structure matrel_t where
  r1 : Nat
  r2 : Option Nat
  row : List Nat
deriving Repr, DecidableEq

/-- The fields of `nsieve_t` that the embedded functions read and write.  The pointers of the C
structures are indices into the lists `rels`, `polys` and `groups`, which hold the relations,
polynomials and polynomial groups the engine owns.  `lp_bound` and `M` are 32-bit fields like
`fb_bound`, and `T` is a `float`, whose finite values are rational numbers. -/
structure nsieve_t where
  N : Int := 0
  multiplier : Nat := 1
  fb_bound : Nat := 0
  lp_bound : Nat := 0
  M : Nat := 0
  T : Rat := 0
  extra_rels : Nat := 0
  fb : List Nat := []
  fb_len : Nat := 0
  rels_needed : Nat := 0
  roots : List Nat := []
  fb_logs : List Nat := []
  row_len : Nat := 0
  k : Nat := 0
  bvals : Nat := 0
  relns : List matrel_t := []
  rels : List rel_t := []
  polys : List poly_t := []
  groups : List poly_group_t := []
deriving Repr, DecidableEq

/-! ## `poly.c` -/

/-- The first loop of `generate_polygroup`: `r[i][0] = find_root (N, gvals[i])` and
`r[i][1] = gvals[i] - r[i][0]` (a `uint32_t` subtraction), for `i < k`.  `find_root` lives in
`common.c` and is a parameter. -/
def polygroup_roots (find_root : Int → Nat → Nat) (N : Int) (gvals : List Nat) (k : Nat) :
    List (Nat × Nat) :=
  (List.range k).map fun i =>
    (find_root N (gvals.getD i 0), sub_u32 (gvals.getD i 0) (find_root N (gvals.getD i 0)))

/-- One pass of the inner loop of `generate_polygroup` (index `i`) on the running sum `b`. -/
def crt_step (a : Int) (gvals : List Nat) (r : List (Nat × Nat)) (z : Nat) (b : Option Int)
    (i : Nat) : Option Int :=
  match b with
  | none => none
  | some b =>
    let t1 := mpz_divexact a (gvals.getD i 0)
    match mpz_invert t1 (gvals.getD i 0) with
    | none => none
    | some j =>
      let t2 := j * t1
      let root := if z &&& (1 <<< i) = 0 then (r.getD i (0, 0)).1 else (r.getD i (0, 0)).2
      some (b + t2 * (root : Int))

/-- The body of the main loop of `generate_polygroup` for one `z`: the value stored in
`pg->bvals[z]`. -/
def crt_bval (a : Int) (gvals : List Nat) (r : List (Nat × Nat)) (k z : Nat) : Option Int :=
  ((List.range k).foldl (crt_step a gvals r z) (some 0)).map fun s => mpz_mod s a

/-- The main loop of `generate_polygroup`, `for (z = 0; z < (1 << k); z++)`: entry `z` of the
result is the value the loop stores through `pg->bvals[z]`.  `gpool_init` chooses `k ≤ 12`, so
the shifts `1 << k` and `1 << i` of the `int` arithmetic are exact. -/
def crt_loop (a : Int) (gvals : List Nat) (r : List (Nat × Nat)) (k : Nat) : Option (List Int) :=
  (List.range (1 <<< k)).foldl
    (fun acc z =>
      match acc with
      | none => none
      | some bs =>
        match crt_bval a gvals r k z with
        | none => none
        | some b => some (bs ++ [b]))
    (some [])

/-- The last loop of `generate_polygroup`: `ainverses[i] = A⁻¹ mod fb[i]` where the inverse
exists; the slot keeps its content otherwise. -/
def ainverses_loop (a : Int) (fb : List Nat) (fb_len : Nat) (ainverses : List Nat) : List Nat :=
  (List.range fb_len).foldl
    (fun ai i =>
      match mpz_invert a (fb.getD i 0) with
      | some t => ai.set i t.toNat
      | none => ai)
    ainverses

/-- The function `generate_polygroup` of `poly.c`.  `pg->a` and `pg->gvals` are inputs; `N`, `k`,
`fb`, `fb_len` are the fields of `ns` it reads. -/
def generate_polygroup (find_root : Int → Nat → Nat) (N : Int) (k : Nat) (fb : List Nat)
    (fb_len : Nat) (pg : poly_group_t) : Option poly_group_t :=
  match crt_loop pg.a pg.gvals (polygroup_roots find_root N pg.gvals k) k with
  | none => none
  | some bs =>
    some { pg with bvals := bs, ainverses := ainverses_loop pg.a fb fb_len pg.ainverses }

/-- The function `generate_poly` of `poly.c`: the polynomial for B-value number `i` of the
group `pg`. -/
def generate_poly (N : Int) (pg : poly_group_t) (p : poly_t) (i : Nat) : poly_t :=
  let a := pg.a
  let b := pg.bvals.getD i 0
  { p with a := a, b := b, c := mpz_divexact (b * b - N) a }

/-- The function `poly` of `poly.c`: `A x² + 2 B x + C` at `x = istart + offset`. -/
def poly (p : poly_t) (offset : Nat) : Int :=
  let x := p.istart + (offset : Int)
  (p.a * x + p.b + p.b) * x + p.c

/-- The entry `r[i][root]` the CRT loop of `generate_polygroup` reads for prime number `i` and
combination `z`. -/
def root_sel (find_root : Int → Nat → Nat) (N : Int) (l : List Nat) (z i : Nat) : Nat :=
  if z &&& (1 <<< i) = 0 then find_root N (l.getD i 0)
  else sub_u32 (l.getD i 0) (find_root N (l.getD i 0))

/-! ## `nsieve.c`: the factor base -/

/-- The inner loop of `era_sieve`, `for (pos = 2*skip; pos < fb_bound; pos += skip)
vals[pos-2] = 1`, started at `pos`; the first argument bounds the number of passes. -/
def era_mark (fb_bound skip : Nat) : Nat → Nat → List Nat → List Nat
  | 0, _, vals => vals
  | fuel + 1, pos, vals =>
    if pos < fb_bound then era_mark fb_bound skip fuel (pos + skip) (vals.set (pos - 2) 1)
    else vals

/-- The body of the outer loop of `era_sieve` for one value of `skip`.  The inner loop makes at
most `fb_bound` passes. -/
def era_step (fb_bound : Nat) (vals : List Nat) (skip : Nat) : List Nat :=
  if vals.getD (skip - 2) 0 = 1 then vals
  else era_mark fb_bound skip fb_bound (2 * skip) vals

/-- The function `era_sieve` of `nsieve.c`; `vals[i]` stands for the number `i + 2`, `0` is
prime and `1` is composite.  The loop bound `(int) (sqrt (fb_bound) + 1)` is `⌊√fb_bound⌋ + 1`,
so `skip` runs over `2, …, ⌊√fb_bound⌋`. -/
def era_sieve (fb_bound : Nat) (vals : List Nat) : List Nat :=
  (List.range' 2 (Nat.sqrt fb_bound + 1 - 2)).foldl (era_step fb_bound) vals

/-- The test `vals[i] == 0 && (i == 0 || mpz_kronecker_ui (N, i+2) == 1)` of `extract`; the
Kronecker symbol of GMP is the parameter `kron`. -/
def extract_keep (kron : Int → Nat → Int) (N : Int) (vals : List Nat) (i : Nat) : Bool :=
  vals.getD i 0 = 0 && (i = 0 || kron N (i + 2) = 1)

/-- The first loop of `extract`: the number of primes to keep. -/
def extract_count (kron : Int → Nat → Int) (N : Int) (fb_bound : Nat) (vals : List Nat) : Nat :=
  (List.range (fb_bound - 2)).foldl
    (fun count i =>
      if vals.getD i 0 = 0 then
        if i = 0 ∨ kron N (i + 2) = 1 then count + 1 else count
      else count)
    0

/-- The second loop of `extract`: it writes `fb[w] = i + 2` and advances `w`; the state is the
array `fb` and the write position `w`. -/
def extract_fill (kron : Int → Nat → Int) (N : Int) (fb_bound : Nat) (vals : List Nat)
    (fb : List Nat) : List Nat × Nat :=
  (List.range (fb_bound - 2)).foldl
    (fun st i => if extract_keep kron N vals i then (st.1.set st.2 (i + 2), st.2 + 1) else st)
    (fb, 0)

/-- The function `extract` of `nsieve.c`; `fb` is allocated with `count` entries. -/
def extract (kron : Int → Nat → Int) (ns : nsieve_t) (vals : List Nat) : nsieve_t :=
  let count := extract_count kron ns.N ns.fb_bound vals
  { ns with
    fb_len := count
    rels_needed := count + ns.extra_rels
    fb := (extract_fill kron ns.N ns.fb_bound vals (List.replicate count 0)).1 }

/-- The function `generate_fb` of `nsieve.c`.  `find_root` and `fast_log` live in `common.c` and
are parameters, like the Kronecker symbol. -/
def generate_fb (kron : Int → Nat → Int) (find_root : Int → Nat → Nat) (fast_log : Nat → Nat)
    (ns : nsieve_t) : nsieve_t :=
  let erasieve_vals := List.replicate ns.fb_bound 0
  let ns1 := extract kron ns (era_sieve ns.fb_bound erasieve_vals)
  { ns1 with
    roots := (List.range ns1.fb_len).map fun i => find_root ns1.N (ns1.fb.getD i 0)
    fb_logs := (List.range ns1.fb_len).map fun i => fast_log (ns1.fb.getD i 0) }

/-! ## Bit rows (`common.c`) -/

/-- Modelled from the spec: `get_bit (row, i)` of `common.c`, which is not in the sources at
hand; the spec calls it single-bit access in a packed bit row.  Bit `i` is bit `i % 64` of
the word `row[i / 64]`. -/
def get_bit (row : List Nat) (i : Nat) : Nat :=
  if (row.getD (i / 64) 0).testBit (i % 64) then 1 else 0

/-- Modelled from the spec: `flip_bit (row, i)` of `common.c`, which inverts the bit that
`get_bit` reads. -/
def flip_bit (row : List Nat) (i : Nat) : List Nat :=
  row.set (i / 64) (row.getD (i / 64) 0 ^^^ (1 <<< (i % 64)))

/-- Modelled from the spec: `xor_row (dst, src, words)` of `common.c`, the word-parallel XOR
over `words` machine words, `dst[i] ^= src[i]`. -/
def xor_row (dst src : List Nat) (words : Nat) : List Nat :=
  (List.range words).foldl (fun d i => d.set i (d.getD i 0 ^^^ src.getD i 0)) dst

/-- Modelled from the spec: `rightmost_1 (row, max_col)` of `common.c`, the index of the
highest-indexed 1-bit whose position is at most `max_col`, and the sentinel `-1` if there is
none. -/
def rightmost_1 (row : List Nat) : Nat → Int
  | 0 => if get_bit row 0 = 1 then 0 else -1
  | c + 1 => if get_bit row (c + 1) = 1 then ((c + 1 : Nat) : Int) else rightmost_1 row c

/-- Modelled from the spec: `is_zero_vec (row, words)` of `common.c`, true iff all `words` words
are zero. -/
def is_zero_vec (row : List Nat) (words : Nat) : Bool :=
  (List.range words).all fun i => row.getD i 0 = 0

/-- Modelled from the spec: `clear_row (row, ns)` of `common.c`, which is not in the sources at
hand: it zeroes the `ns->row_len` words of a row. -/
def clear_row (row_len : Nat) : List Nat := List.replicate row_len 0

/-- The conversion of an `int` to `uint32_t`, as in the assignment `rmos[i] = rightmost_1 (…)`. -/
def u32_of_int (v : Int) : Nat := (v % 4294967296).toNat

/-! ## `matrix.c`: the elimination -/

/-- The local arrays of `solve_matrix` during the elimination: `rows[i]` is `ns->relns[i].row`,
`history` the history matrix and `rmos` the cached rightmost-1 columns. -/
structure mat_state where
  rows : List (List Nat)
  history : List (List Nat)
  rmos : List Nat
deriving Repr, DecidableEq

/-- The constant `hmlen = (ns->rels_needed - 1)/64 + 1` of `solve_matrix`. -/
def hmlen (ns : nsieve_t) : Nat := (ns.rels_needed - 1) / 64 + 1

/-- The constant `expm_cols = ns->fb_len + 1` of `solve_matrix`. -/
def expm_cols (ns : nsieve_t) : Nat := ns.fb_len + 1

/-- The first loop of `solve_matrix`: `history[i]` is a zeroed row with bit `i` flipped, and
`rmos[i] = rightmost_1 (ns->relns[i].row, ns->fb_len)`. -/
def solve_init (ns : nsieve_t) : mat_state :=
  { rows := ns.relns.map fun m => m.row
    history := (List.range ns.rels_needed).map fun i =>
      flip_bit (List.replicate (hmlen ns) 0) i
    rmos := (List.range ns.rels_needed).map fun i =>
      u32_of_int (rightmost_1 ((ns.relns.map fun m => m.row).getD i []) ns.fb_len) }

/-- The `MAT_CHECK` copy `expm` of the exponent matrix that `solve_matrix` takes before the
elimination. -/
def expm_copy (ns : nsieve_t) : List (List Nat) :=
  (List.range ns.rels_needed).map fun i =>
    (List.range ns.row_len).map fun j => ((ns.relns.map fun m => m.row).getD i []).getD j 0

/-- The pivot search `while (pivot < expm_rows && rmos[pivot] != col) pivot++`; the first
argument bounds the number of passes. -/
def find_pivot (rmos : List Nat) (col expm_rows : Nat) : Nat → Nat → Nat
  | 0, pivot => pivot
  | fuel + 1, pivot =>
    if pivot < expm_rows ∧ rmos.getD pivot 0 ≠ col then
      find_pivot rmos col expm_rows fuel (pivot + 1)
    else pivot

/-- The body of the inner loop of the elimination for the row `yolanda`: if its rightmost 1 is
in column `col`, the pivot row is XORed into it, in the exponent matrix and in the history
matrix, and its rightmost 1 is recomputed. -/
def yolanda_step (ns : nsieve_t) (col pivot : Nat) (st : mat_state) (yolanda : Nat) :
    mat_state :=
  if st.rmos.getD yolanda 0 = col then
    let row := xor_row (st.rows.getD yolanda []) (st.rows.getD pivot []) ns.row_len
    { rows := st.rows.set yolanda row
      history := st.history.set yolanda
        (xor_row (st.history.getD yolanda []) (st.history.getD pivot []) (hmlen ns))
      rmos := st.rmos.set yolanda (u32_of_int (rightmost_1 row (expm_cols ns - 1))) }
  else st

/-- The body of the column loop of the elimination: the pivot search, which makes at most
`expm_rows` passes, and the loop over the rows `yolanda = pivot + 1, …, expm_rows - 1`. -/
def column_step (ns : nsieve_t) (st : mat_state) (col : Nat) : mat_state :=
  let pivot := find_pivot st.rmos col ns.rels_needed ns.rels_needed 0
  (List.range' (pivot + 1) (ns.rels_needed - (pivot + 1))).foldl (yolanda_step ns col pivot) st

/-- The elimination of `solve_matrix`: `for (col = expm_cols - 1; col >= 0; col--)`. -/
def solve_sweep (ns : nsieve_t) : mat_state :=
  (List.range (expm_cols ns)).reverse.foldl (column_step ns) (solve_init ns)

/-- The `MAT_CHECK` computation for one row of the history matrix: the XOR of the rows of `expm`
selected by its 1-bits, started from a cleared row. -/
def mat_check (ns : nsieve_t) (expm : List (List Nat)) (history_row : List Nat) : List Nat :=
  (List.range ns.rels_needed).foldl
    (fun check i =>
      if get_bit history_row i = 1 then xor_row check (expm.getD i []) ns.row_len else check)
    (clear_row ns.row_len)

/-! ## `matrix.c`: factor deduction -/

/-- The function `add_factors_to_table` of `matrix.c`: `table[factor->fac]++` for every node of
the factor list; the table entries are `uint16_t`. -/
def add_factors_to_table (table : List Nat) (rel : rel_t) : List Nat :=
  rel.factors.foldl (fun t fac => t.set fac ((t.getD fac 0 + 1) % 65536)) table

/-- The loop of `construct_rhs` over the indices `i = 1, …, fb_len`: the result is the return
value and the final `rhs`. -/
def construct_rhs_loop (table : List Nat) (ns : nsieve_t) : List Nat → Int → Nat × Int
  | [], rhs => (1, rhs)
  | i :: rest, rhs =>
    if table.getD i 0 % 2 ≠ 0 then (0, rhs)
    else if table.getD i 0 > 0 then
      construct_rhs_loop table ns rest
        (mpz_mod (rhs * ((ns.fb.getD (i - 1) 0 : Nat) : Int) ^ (table.getD i 0 / 2)) ns.N)
    else construct_rhs_loop table ns rest rhs

/-- The function `construct_rhs` of `matrix.c`: the return value (nonzero on success, zero on
failure) and the final `rhs`. -/
def construct_rhs (table : List Nat) (rhs : Int) (ns : nsieve_t) : Nat × Int :=
  if table.getD 0 0 % 2 ≠ 0 then (0, rhs)
  else
    construct_rhs_loop table ns (List.range' 1 ns.fb_len)
      (if (table.getD 0 0 / 2) % 2 = 1 then -rhs else rhs)

/-- The pointers `rel->poly`, `rel->poly->group->victim` and `victim->poly` that
`multiply_in_lhs` follows: the polynomial `q` of the relation, the victim of its group, and the
polynomial `p` of the victim; `none` if one of them does not point to an object. -/
def rel_context (ns : nsieve_t) (rel : rel_t) : Option (poly_t × rel_t × poly_t) :=
  match ns.polys[rel.poly]? with
  | none => none
  | some q =>
    match ns.groups[q.group]? with
    | none => none
    | some g =>
      match g.victim with
      | none => none
      | some vi =>
        match ns.rels[vi]? with
        | none => none
        | some victim =>
          match ns.polys[victim.poly]? with
          | none => none
          | some p => some (q, victim, p)

/-- The function `multiply_in_lhs` of `matrix.c` (its last parameter is not used):
`lhs * (p.a * victim.x + p.b) * (q.a * rel.x + q.b) * p.a⁻¹ mod N`. -/
def multiply_in_lhs (lhs : Int) (rel : rel_t) (ns : nsieve_t) : Option Int :=
  match rel_context ns rel with
  | none => none
  | some (q, victim, p) =>
    let lhs1 := lhs * (victim.x * p.a + p.b)
    let lhs2 := lhs1 * (rel.x * q.a + q.b)
    match mpz_invert p.a ns.N with
    | none => none
    | some temp => some (mpz_mod (lhs2 * temp) ns.N)

/-- A line that the factor deduction of `solve_matrix` prints: a factor with its mark `(prp)`
(`true`) or `(c)` (`false`), or one of the diagnostics `Check FAILED for row = …`,
`AAAH - cofactors disagree!` and `Squares are not congruent!!!`. -/
inductive out_line where
  | factor (d : Int) (is_prp : Bool)
  | check_failed (row : Nat)
  | cofactors_disagree (c1 c2 : Nat)
  | not_congruent
deriving Repr, DecidableEq

/-- The variables of the loop over `relnum` of the factor deduction. -/
structure dep_acc where
  lhs : Int
  rhs : Int
  table : List Nat
  diag : List out_line
deriving Repr, DecidableEq

/-- The body of the loop over `relnum` of the factor deduction, for one dependency.  The calls
of `rel_check`, which only print a diagnostic, and the counter `np`, which is never read, are
left out. -/
def dep_step (ns : nsieve_t) (history_row : List Nat) (acc : Option dep_acc) (relnum : Nat) :
    Option dep_acc :=
  match acc with
  | none => none
  | some acc =>
    if get_bit history_row relnum = 1 then
      match ns.relns[relnum]? with
      | none => none
      | some m =>
        match ns.rels[m.r1]? with
        | none => none
        | some r1 =>
          match multiply_in_lhs acc.lhs r1 ns with
          | none => none
          | some lhs1 =>
            let table1 := add_factors_to_table acc.table r1
            match m.r2 with
            | none => some { acc with lhs := lhs1, table := table1 }
            | some i2 =>
              match ns.rels[i2]? with
              | none => none
              | some r2 =>
                match multiply_in_lhs lhs1 r2 ns with
                | none => none
                | some lhs2 =>
                  some { lhs := lhs2
                         rhs := acc.rhs * (r1.cofactor : Int)
                         table := add_factors_to_table table1 r2
                         diag := acc.diag ++
                           (if r1.cofactor ≠ r2.cofactor then
                              [out_line.cofactors_disagree r1.cofactor r2.cofactor]
                            else []) }
    else some acc

/-- The loop over `relnum` of the factor deduction for the dependency `history_row`: it starts
from `lhs = rhs = 1` and a cleared table of `fb_len + 1` counts. -/
def dep_values (ns : nsieve_t) (history_row : List Nat) : Option dep_acc :=
  (List.range ns.rels_needed).foldl (dep_step ns history_row)
    (some { lhs := 1, rhs := 1, table := List.replicate (ns.fb_len + 1) 0, diag := [] })

/-- The variables of the factor deduction across the zero rows: the unfactored part `ncopy`,
the lines printed so far, and whether `return` was executed. -/
structure deduce_state where
  ncopy : Int
  out : List out_line
  finished : Bool
deriving Repr, DecidableEq

/-- The GCD probing of one dependency: `gcd (rhs - lhs, ncopy)` and the nested tests that
follow it.  `prp` stands for `mpz_probab_prime_p (·, 10)`. -/
def gcd_probe (ns : nsieve_t) (prp : Int → Bool) (ds : deduce_state) (lhs rhs : Int) :
    deduce_state :=
  let temp : Int := |((Int.gcd (rhs - lhs) ds.ncopy : Nat) : Int)|
  if 1 < temp then
    if temp ≠ ns.N then
      if temp ∣ ds.ncopy then
        if prp temp then
          let out1 := ds.out ++ [out_line.factor temp true]
          let ncopy1 := mpz_divexact ds.ncopy temp
          let out2 := if prp ncopy1 then out1 ++ [out_line.factor ncopy1 true] else out1
          let ncopy2 := if prp ncopy1 then 1 else ncopy1
          if ncopy2 = 1 then { ncopy := ncopy2, out := out2, finished := true }
          else { ncopy := ncopy2, out := out2, finished := false }
        else ds
      else ds
    else ds
  else ds

/-- The body of the loop over `row` of the factor deduction; `ns.N` is already divided by the
multiplier, `ms` is the matrix after the elimination and `expm` the copy of the original
rows. -/
def deduce_row (ns : nsieve_t) (prp : Int → Bool) (expm : List (List Nat)) (ms : mat_state)
    (ds : Option deduce_state) (row : Nat) : Option deduce_state :=
  match ds with
  | none => none
  | some ds =>
    if ds.finished then some ds
    else if is_zero_vec (ms.rows.getD row []) ns.row_len then
      let out1 := ds.out ++
        (if is_zero_vec (mat_check ns expm (ms.history.getD row [])) ns.row_len then []
         else [out_line.check_failed row])
      match dep_values ns (ms.history.getD row []) with
      | none => none
      | some acc =>
        let out2 := out1 ++ acc.diag
        match construct_rhs acc.table acc.rhs ns with
        | (0, _) => some { ds with out := out2 }
        | (_, rhs1) =>
          let lhs := mpz_mod acc.lhs ns.N
          let rhs := mpz_mod rhs1 ns.N
          let out3 := out2 ++
            (if mpz_mod (lhs * lhs) ns.N ≠ mpz_mod (rhs * rhs) ns.N then
               [out_line.not_congruent]
             else [])
          some (gcd_probe ns prp { ds with out := out3 } lhs rhs)
    else some ds

/-- The loop over the rows of the factor deduction, after `ns->N` is divided by the
multiplier. -/
def deduce_loop (ns : nsieve_t) (prp : Int → Bool) (expm : List (List Nat)) (ms : mat_state) :
    Option deduce_state :=
  (List.range ns.rels_needed).foldl
    (deduce_row { ns with N := mpz_divexact ns.N ns.multiplier } prp expm ms)
    (some { ncopy := mpz_divexact ns.N ns.multiplier, out := [], finished := false })

/-- The end of `solve_matrix`: unless `return` was executed, the remaining `ncopy` is printed if
it is not `1`. -/
def deduce_final (prp : Int → Bool) (ds : deduce_state) : List out_line :=
  if ds.finished then ds.out
  else if ds.ncopy ≠ 1 then ds.out ++ [out_line.factor ds.ncopy (prp ds.ncopy)]
  else ds.out

/-- The function `solve_matrix` of `matrix.c`: the lines it prints about factors and failed
checks; `none` if a step has no defined result. -/
def solve_matrix (ns : nsieve_t) (prp : Int → Bool) : Option (List out_line) :=
  (deduce_loop ns prp (expm_copy ns) (solve_sweep ns)).map (deduce_final prp)

/-- The factors among the printed lines, in the order they are printed. -/
def out_factors (out : List out_line) : List Int :=
  out.filterMap fun l =>
    match l with
    | out_line.factor d _ => some d
    | _ => none

/-- The state of the factor deduction after the first `n` rows. -/
def deduce_prefix (ns : nsieve_t) (prp : Int → Bool) (n : Nat) : Option deduce_state :=
  (List.range n).foldl
    (deduce_row { ns with N := mpz_divexact ns.N ns.multiplier } prp (expm_copy ns)
      (solve_sweep ns))
    (some { ncopy := mpz_divexact ns.N ns.multiplier, out := [], finished := false })

/-- The product invariant of the factor deduction: the printed factors times `ncopy` give the
number to factor, and `return` is only executed with `ncopy = 1`. -/
structure ProdInv (N : Int) (ds : deduce_state) : Prop where
  prod : (out_factors ds.out).prod * ds.ncopy = N
  fin : ds.finished = true → ds.ncopy = 1

/-- The factor invariant of the factor deduction: `ncopy` is a positive divisor of the number
to factor, equal to it as long as nothing is printed, and every printed factor is a proper
divisor larger than `1`. -/
structure FacInv (N : Int) (ds : deduce_state) : Prop where
  pos : 0 < ds.ncopy
  dvd : ds.ncopy ∣ N
  first : out_factors ds.out = [] → ds.ncopy = N
  later : out_factors ds.out ≠ [] → ds.ncopy < N
  fac : ∀ d ∈ out_factors ds.out, 1 < d ∧ d < N ∧ d ∣ N

/-- An instance of the primality test: trial division, which is exact. -/
def trial_prime (n : Int) : Bool :=
  decide (2 ≤ n.natAbs) && (List.range n.natAbs).all fun d => decide (d < 2) || n.natAbs % d != 0

/-- A run on `N = 15` in which every dependency gives the trivial GCD: the polynomial is
`Q(x) = x² + 8x + 1 = (x + 4)² - 15`, and each of the 49 rows is the relation `Q(0) = 1`. -/
def ns_trivial : nsieve_t :=
  { N := 15, multiplier := 1, fb := [2], fb_len := 1, extra_rels := 48, rels_needed := 49,
    row_len := 1,
    relns := List.replicate 49 ⟨0, none, [0]⟩,
    rels := [⟨0, 0, [], 1⟩],
    polys := [⟨1, 4, 1, 0, 0⟩],
    groups := [⟨1, [], [4], [0], some 0⟩] }

/-- A run on `N = 1649 = 17 · 97` with the polynomial `Q(x) = (x + 41)² - 1649` and the factor
base `2, 5, 7, 23`.  The victim is the relation `Q(0) = 32`; the four rows are the relations
at `x = -1`, `x = -2`, `x = 16` and `x = 2`, with `Q(0) Q(-1) = -2⁵ 7²`, `Q(0) Q(-2) = -2¹²`,
`Q(0) Q(16) = 2¹¹ 5²` and `Q(0) Q(2) = 2⁸ 5²`. -/
def ns_1649 : nsieve_t :=
  { N := 1649, multiplier := 1, fb := [2, 5, 7, 23], fb_len := 4, rels_needed := 4,
    row_len := 1,
    relns := [⟨1, none, [3]⟩, ⟨2, none, [1]⟩, ⟨3, none, [2]⟩, ⟨4, none, [0]⟩],
    rels := [⟨0, 0, [1, 1, 1, 1, 1, 1, 1, 1, 1, 1], 1⟩,
             ⟨-1, 0, [0, 1, 1, 1, 1, 1, 3, 3], 1⟩,
             ⟨-2, 0, [0, 1, 1, 1, 1, 1, 1, 1, 1, 1, 1, 1, 1], 1⟩,
             ⟨16, 0, [1, 1, 1, 1, 1, 1, 1, 1, 1, 1, 1, 2, 2], 1⟩,
             ⟨2, 0, [1, 1, 1, 1, 1, 1, 1, 1, 2, 2], 1⟩],
    polys := [⟨1, 41, 32, 0, 0⟩],
    groups := [⟨1, [], [41], [0, 0, 0, 0], some 0⟩] }

/-- The number a factor index stands for: `-1` for index `0` (the sign) and `fb[i - 1]` for
`i ≥ 1`. -/
def fac_value (ns : nsieve_t) (i : Nat) : Int :=
  if i = 0 then -1 else ((ns.fb.getD (i - 1) 0 : Nat) : Int)

/-- The value `Q(x) = a x² + 2 b x + c` of a polynomial at the sieve offset `x`. -/
def poly_at (p : poly_t) (x : Int) : Int := (p.a * x + p.b + p.b) * x + p.c

/-- A valid relation, as the factor deduction needs it: its pointers resolve; its polynomial and
the polynomial of its victim share the same `a`, which is invertible modulo `N`; both
polynomials satisfy `a c ≡ b² (mod N)` (from `a c = b² - k N` for the sieved multiple `k N`);
the product `Q(victim.x) Q(rel.x)` equals the product of the sign and the primes that its factor
list names, times its cofactor; and the factor list only names the indices `0, …, fb_len`. -/
def rel_valid (ns : nsieve_t) (rel : rel_t) : Prop :=
  ∃ q victim p, rel_context ns rel = some (q, victim, p) ∧
    q.a = p.a ∧ IsCoprime p.a ns.N ∧
    p.a * p.c ≡ p.b ^ 2 [ZMOD ns.N] ∧ q.a * q.c ≡ q.b ^ 2 [ZMOD ns.N] ∧
    poly_at p victim.x * poly_at q rel.x
      = (rel.factors.map (fac_value ns)).prod * (rel.cofactor : Int) ∧
    ∀ f ∈ rel.factors, f ≤ ns.fb_len

/-- Every relation that the dependency `history_row` includes is valid; a full relation has
cofactor `1`, and the two halves of a combined partial have equal cofactors. -/
def dep_valid (ns : nsieve_t) (history_row : List Nat) : Prop :=
  ∀ relnum, relnum < ns.rels_needed → get_bit history_row relnum = 1 →
    ∃ m r1, ns.relns[relnum]? = some m ∧ ns.rels[m.r1]? = some r1 ∧ rel_valid ns r1 ∧
      match m.r2 with
      | none => r1.cofactor = 1
      | some i2 => ∃ r2, ns.rels[i2]? = some r2 ∧ rel_valid ns r2 ∧ r1.cofactor = r2.cofactor

/-- The factor indices that row `relnum` of the matrix contributes to the table: the factor
list of `r1`, followed by the factor list of `r2` for a combined partial. -/
def matrel_factors (ns : nsieve_t) (relnum : Nat) : List Nat :=
  match ns.relns[relnum]? with
  | none => []
  | some m =>
    (match ns.rels[m.r1]? with
      | none => []
      | some r1 => r1.factors) ++
    (match m.r2 with
      | none => []
      | some i2 =>
        match ns.rels[i2]? with
        | none => []
        | some r2 => r2.factors)

/-- The factor indices, with repetition, that the relations with number below `n` of the
dependency `history_row` contribute to the table. -/
def dep_factors (ns : nsieve_t) (history_row : List Nat) : Nat → List Nat
  | 0 => []
  | n + 1 =>
    dep_factors ns history_row n ++
      (if get_bit history_row n = 1 then matrel_factors ns n else [])

/-- The invariant of the loop over `relnum` of the factor deduction, where `fl` lists the factor
indices added to the table so far: `lhs² ≡ rhs² · ∏ fl (mod N)`, and the table holds the number
of occurrences of each index in `fl`, reduced modulo `2 ^ 16`. -/
structure DepInv (ns : nsieve_t) (fl : List Nat) (acc : dep_acc) : Prop where
  sq : acc.lhs ^ 2 ≡ acc.rhs ^ 2 * (fl.map (fac_value ns)).prod [ZMOD ns.N]
  len : acc.table.length = ns.fb_len + 1
  tab : ∀ i, i ≤ ns.fb_len → acc.table.getD i 0 = fl.count i % 65536
  idx : ∀ f ∈ fl, f ≤ ns.fb_len

/-- The number `2 ^ 16384`. -/
def big_pow : Nat := 2 ^ 16384

/-- A run on `N = 2 · 2^16384 + 1` with the polynomial `Q(x) = x² + 2 b x + c`,
`b = 2^16384 + 1`, `c = b² - N = 2^32768`, and the factor base `2`.  The victim of the group
is the only relation, at `x = 0`, with `Q(0) Q(0) = 2^65536`: its factor list names the prime `2`
(index `1`) 65536 times.  All 49 rows are this relation, and its exponents are even. -/
def ns_overflow : nsieve_t :=
  { N := ((2 * big_pow + 1 : Nat) : Int), multiplier := 1, fb := [2], fb_len := 1,
    extra_rels := 48, rels_needed := 49, row_len := 1,
    relns := List.replicate 49 ⟨0, none, [0]⟩,
    rels := [⟨0, 0, List.replicate 65536 1, 1⟩],
    polys := [⟨1, ((big_pow + 1 : Nat) : Int), ((big_pow * big_pow : Nat) : Int), 0, 0⟩],
    groups := [⟨1, [], [((big_pow + 1 : Nat) : Int)], [0], some 0⟩] }

/-- The states the elimination goes through: the initial state, and every state that one pass
of the inner loop produces from such a state. -/
inductive sweep_reach (ns : nsieve_t) : mat_state → Prop
  | start : sweep_reach ns (solve_init ns)
  | xor_step (st : mat_state) (col pivot yolanda : Nat) :
      sweep_reach ns st → pivot < yolanda → yolanda < ns.rels_needed →
      sweep_reach ns (yolanda_step ns col pivot st yolanda)

/-- The history invariant: every exponent row is the XOR of the original rows that its history
row selects. -/
def history_inv (ns : nsieve_t) (st : mat_state) : Prop :=
  ∀ r, r < ns.rels_needed → st.rows.getD r [] = mat_check ns (expm_copy ns) (st.history.getD r [])

/-- Word `j` of the XOR of the rows of `expm` with index below `R` that `history_row`
selects. -/
def word_sum (expm : List (List Nat)) (history_row : List Nat) (j R : Nat) : Nat :=
  (List.range R).foldl
    (fun a i => if get_bit history_row i = 1 then a ^^^ (expm.getD i []).getD j 0 else a) 0

/-- The shape of the arrays of `solve_matrix`: `rels_needed` exponent rows and history rows,
each history row of `hmlen` words. -/
def mat_wf (ns : nsieve_t) (st : mat_state) : Prop :=
  st.rows.length = ns.rels_needed ∧ st.history.length = ns.rels_needed ∧
  ∀ r, r < ns.rels_needed → (st.history.getD r []).length = hmlen ns

/-- A small matrix: four rows over the sign and two primes. -/
def ns_small : nsieve_t :=
  { fb_len := 2, rels_needed := 4, row_len := 1,
    relns := [⟨0, none, [3]⟩, ⟨0, none, [5]⟩, ⟨0, none, [6]⟩, ⟨0, none, [5]⟩] }

/-- The numbers `i + 2` that `extract` keeps among the indices `i < n`, in increasing order. -/
def keep_list (kron : Int → Nat → Int) (N : Int) (vals : List Nat) (n : Nat) : List Nat :=
  ((List.range n).filter (extract_keep kron N vals)).map (· + 2)

/-! ## `poly.c`: the pool of primes and the allocation of a group -/

/-- The table `q` of `poly.c`: entry `k - 1` is the number of primes the pool holds when `A` is
the product of `k` primes. -/
def q : List Nat := [1000000, 1414, 182, 71, 44, 33, 28, 25, 24, 23, 23, 23]

/-- The last two assignments of `gpool_init`: `ns->k = k` and `ns->bvals = 1 << (k-1)`. -/
def gpool_set_k (ns : nsieve_t) (k : Nat) : nsieve_t :=
  { ns with k := k, bvals := 1 <<< (k - 1) }

/-- The function `polygroup_init` of `poly.c`: `a` is initialised to zero, `ainverses` is
allocated with `ns->fb_len` slots and `bvals` with `ns->bvals` slots, each initialised to
zero. -/
def polygroup_init (ns : nsieve_t) (pg : poly_group_t) : poly_group_t :=
  { pg with a := 0, ainverses := List.replicate ns.fb_len 0, bvals := List.replicate ns.bvals 0 }

/-- The indices `z` at which the main loop of `generate_polygroup` stores through
`pg->bvals[z]`: the values of the loop variable of `for (z = 0; z < (1 << k); z++)`. -/
def bvals_stores (k : Nat) : List Nat := List.range (1 <<< k)

/-- A run on `N = 15` with one row, a combined partial whose halves carry the cofactors `7` and
`11`; the polynomial is `Q(x) = x² + 4x - 11 = (x + 2)² - 15` and both halves are at `x = 0`. -/
def ns_diag : nsieve_t :=
  { N := 15, multiplier := 1, fb := [2], fb_len := 1, rels_needed := 1, row_len := 1,
    relns := [⟨0, some 1, [0]⟩],
    rels := [⟨0, 0, [], 7⟩, ⟨0, 0, [], 11⟩],
    polys := [⟨1, 2, -11, 0, 0⟩],
    groups := [⟨1, [], [2], [0], some 0⟩] }

/-- A run on `N = 15` with one row whose relation names the prime `2` once although its
exponent row is zero: a defective dependency. -/
def ns_defect : nsieve_t :=
  { N := 15, multiplier := 1, fb := [2], fb_len := 1, rels_needed := 1, row_len := 1,
    relns := [⟨0, none, [0]⟩],
    rels := [⟨0, 0, [1], 1⟩],
    polys := [⟨1, 2, -11, 0, 0⟩],
    groups := [⟨1, [], [2], [0], some 0⟩] }

/-! ## `poly.c`: `gpool_init` -/

/-- The type `poly_gpool_t`: the pool of primes, its length `ng`, the centre of the pool and the
indices `frogs` into it. -/
structure poly_gpool_t where
  gpool : List Nat
  ng : Nat
  center : Nat
  frogs : List Nat
deriving Repr, DecidableEq

/-- GMP `mpz_get_ui` followed by the conversion to `uint32_t`, as in the stores
`gp->gpool[pos] = mpz_get_ui (g)`: the least significant 32 bits of `|g|`. -/
def get_ui32 (g : Int) : Nat := g.natAbs % 4294967296

/-- GMP `mpz_root (rop, op, n)` for `op ≥ 0`: the truncated integer part of the `n`-th root of
`op`, that is the greatest `r` with `r ^ n ≤ op`. -/
def mpz_root (op : Int) (n : Nat) : Int :=
  ((Nat.findGreatest (fun r => r ^ n ≤ op.toNat) op.toNat : Nat) : Int)

/-- The first lines of `gpool_init`: `aopt = sqrt (2 N) / M`, with `mpz_sqrt` the truncated
square root and `mpz_tdiv_q_ui` the truncated quotient. -/
def gpool_aopt (ns : nsieve_t) : Int := Int.tdiv (Int.sqrt (ns.N * 2)) (ns.M : Int)

/-- The first loop of `gpool_init` that fills the pool, `while (pos < ng)`: `g` moves to the
next prime, and a prime with `mpz_kronecker (N, g) == 1` is stored at `pos`.  `nextprime` stands
for `mpz_nextprime` and `kron` for `mpz_kronecker`.  The first argument bounds the number of
passes; the result is `none` when the loop needs more. -/
def gpool_upper (nextprime : Int → Int) (kron : Int → Int → Int) (N : Int) (ng : Nat) :
    Nat → Int → Nat → List Nat → Option (List Nat)
  | 0, _, pos, gpool => if pos < ng then none else some gpool
  | fuel + 1, g, pos, gpool =>
    if pos < ng then
      if kron N (nextprime g) = 1 then
        gpool_upper nextprime kron N ng fuel (nextprime g) (pos + 1)
          (gpool.set pos (get_ui32 (nextprime g)))
      else gpool_upper nextprime kron N ng fuel (nextprime g) pos gpool
    else some gpool

/-- The loop `while (!mpz_probab_prime_p (res, 10)) mpz_sub_ui (res, res, 1)` of
`mpz_prevprime`; `prp` stands for `mpz_probab_prime_p (·, 10)`.  The first argument bounds the
number of passes; the result is `none` when the loop needs more. -/
def prevprime_loop (prp : Int → Bool) : Nat → Int → Option Int
  | 0, res => if prp res then some res else none
  | fuel + 1, res => if prp res then some res else prevprime_loop prp fuel (res - 1)

/-- The function `mpz_prevprime` of `poly.c`: it subtracts `1` and then goes down to the next
value that passes the primality test. -/
def mpz_prevprime (prp : Int → Bool) (fuel : Nat) (res : Int) : Option Int :=
  prevprime_loop prp fuel (res - 1)

/-- The second loop of `gpool_init` that fills the pool, `while (pos >= 0)`: `g` moves to the
previous prime, and a prime with `mpz_kronecker (N, g) == 1` is stored at `pos`.  `inner` bounds
the number of passes of each call of `mpz_prevprime` and the next argument the number of passes
of this loop. -/
def gpool_lower (prp : Int → Bool) (kron : Int → Int → Int) (N : Int) (inner : Nat) :
    Nat → Int → Int → List Nat → Option (List Nat)
  | 0, _, pos, gpool => if 0 ≤ pos then none else some gpool
  | fuel + 1, g, pos, gpool =>
    if 0 ≤ pos then
      match mpz_prevprime prp inner g with
      | none => none
      | some g1 =>
        if kron N g1 = 1 then
          gpool_lower prp kron N inner fuel g1 (pos - 1) (gpool.set pos.toNat (get_ui32 g1))
        else gpool_lower prp kron N inner fuel g1 pos gpool
    else some gpool

/-- The two loops of `gpool_init` that fill the pool of `ng` entries around the centre `temp`:
the upper half from `pos = ng/2` upwards, then the lower half from `pos = ng/2 - 1` downwards.
`fuel` bounds the number of passes of each loop. -/
def gpool_fill (nextprime : Int → Int) (prp : Int → Bool) (kron : Int → Int → Int) (N : Int)
    (temp : Int) (ng : Nat) (fuel : Nat) : Option (List Nat) :=
  match gpool_upper nextprime kron N ng fuel temp (ng / 2) (List.replicate ng 0) with
  | none => none
  | some gpool => gpool_lower prp kron N fuel fuel temp (((ng / 2 : Nat) : Int) - 1) gpool

/-- The function `gpool_init` of `poly.c` from the point where `k` is chosen.  The loop that
chooses `k` compares an estimate computed in floating point (`pi`) with `q[k-1]`; its result is
the argument `k`, between `1` and `12`, and `k = 0` is the fatal exit.  The result is the pool
and the updated `ns`. -/
def gpool_init (nextprime : Int → Int) (prp : Int → Bool) (kron : Int → Int → Int)
    (ns : nsieve_t) (k : Nat) (fuel : Nat) : Option (poly_gpool_t × nsieve_t) :=
  if k = 0 then none
  else
    let temp := mpz_root (gpool_aopt ns) k
    let ng := q.getD (k - 1) 0
    match gpool_fill nextprime prp kron ns.N temp ng fuel with
    | none => none
    | some gpool =>
      some ({ gpool := gpool, ng := ng, center := get_ui32 temp, frogs := List.range k },
        gpool_set_k ns k)

/-- An instance of `mpz_nextprime`: the least prime greater than `g`. -/
def next_prime (g : Int) : Int :=
  ((Nat.find (Nat.exists_infinite_primes (g.toNat + 1)) : Nat) : Int)

/-- An instance of the primality test that is exact; like GMP it tests `|n|`. -/
def exact_prime (n : Int) : Bool := decide (Nat.Prime n.natAbs)

/-- The primes `g` with `(N / g) = 1`, the candidates for the pool. -/
def pool_prime (kron : Int → Int → Int) (N : Int) (g : Nat) : Prop :=
  Nat.Prime g ∧ kron N (g : Int) = 1

/-- A 800-bit input: `N = 2^799` with `M = 65536`, for which `sqrt (2 N) / M = 2^384` and the
centre of the pool for `k = 12` is `2^32`. -/
def ns_wide : nsieve_t := { N := 2 ^ 799, M := 65536 }

/-- A 107-bit input: `N = 2^106` with `M = 1`, for which the centre of the pool for `k = 10` is
`40`. -/
def ns_pool : nsieve_t := { N := 2 ^ 106, M := 1 }

/-- An instance of `mpz_kronecker`: at an odd positive `g`, the Kronecker symbol is the Jacobi
symbol. -/
def kron_jacobi (a g : Int) : Int := jacobiSym a g.natAbs

instance pool_prime_decidable (kron : Int → Int → Int) (N : Int) :
    DecidablePred (pool_prime kron N) := fun g => by
  unfold pool_prime
  infer_instance

/-! ## `nsieve.c`: the parameters -/

/-- The double-precision operations that `select_parameters` and `set_params` use.  Their
results depend on how the platform evaluates floating-point expressions, so they are parameters
of the embedding; the finite floating-point values are rational numbers.  `div x y` is the
quotient `x / y`, `interp a fac b` the value of the expression `a * fac + b * (1 - fac)`, and
`to_float x` the conversion `(float) x`. -/
structure float_ops where
  div : Rat → Rat → Rat
  interp : Rat → Rat → Rat → Rat
  to_float : Rat → Rat

/-- The table `params` of `nsieve.c`, one row per level: the bit length, `fb_bound`, `lp_bound`,
`M` and `T`.  The constant `1.3` is the `double` nearest to it. -/
def params : List (List Rat) :=
  [[100, 5000, 5000, 1 * 32768, 5854679515581645 / 4503599627370496],
   [120, 11000, 11000, 2 * 32768, 5854679515581645 / 4503599627370496],
   [140, 25000, 25000, 2 * 32768, 5854679515581645 / 4503599627370496],
   [160, 55000, 55000, 2 * 32768, 5854679515581645 / 4503599627370496]]

/-- The entry `params[i][j]`. -/
def param (i j : Nat) : Rat := (params.getD i []).getD j 0

/-- The conversion `(uint32_t) x` of a `double`: the integer part of `x`, as a 32-bit value. -/
def u32_of_double (x : Rat) : Nat := (Int.toNat (Int.floor x)) % 4294967296

/-- The function `set_params` of `nsieve.c`.  The sentinel `-1` of the 32-bit fields
`fb_bound`, `lp_bound` and `M` is the value `4294967295`; the columns of the table are
`PARAM_FBBOUND = 1`, `PARAM_LPBOUND = 2`, `PARAM_M = 3` and `PARAM_T = 4`. -/
def set_params (fp : float_ops) (ns : nsieve_t) (p1 p2 : Nat) (fac : Rat) : nsieve_t :=
  let ns1 := if ns.fb_bound = 4294967295 then
      { ns with fb_bound := u32_of_double (fp.interp (param p1 1) fac (param p2 1)) }
    else ns
  let ns2 := if ns1.lp_bound = 0 then { ns1 with lp_bound := ns1.fb_bound } else ns1
  let ns3 := if ns2.lp_bound = 4294967295 then
      { ns2 with lp_bound := u32_of_double (fp.interp (param p1 2) fac (param p2 2)) }
    else ns2
  let ns4 := if ns3.M = 4294967295 then
      { ns3 with M := u32_of_double (fp.interp (param p1 3) fac (param p2 3)) }
    else ns3
  if ns4.T = -1 then
    { ns4 with T := fp.to_float (fp.interp (param p1 4) fac (param p2 4)) }
  else ns4

/-- GMP `mpz_sizeinbase (N, 2)`: the number of bits of `|N|`, and `1` for `N = 0`. -/
def mpz_sizeinbase2 (n : Int) : Nat := if n = 0 then 1 else Nat.size n.natAbs

/-- The loop `while (i < NPLEVELS && params[i][0] < bits) i++` of `select_parameters`, with
`NPLEVELS = 4`; the first argument bounds the number of passes. -/
def params_level (bits : Nat) : Nat → Nat → Nat
  | 0, i => i
  | fuel + 1, i =>
    if i < 4 ∧ param i 0 < (bits : Rat) then params_level bits fuel (i + 1) else i

/-- The function `select_parameters` of `nsieve.c`; the loop makes at most `NPLEVELS = 4`
passes. -/
def select_parameters (fp : float_ops) (ns : nsieve_t) : nsieve_t :=
  let bits := mpz_sizeinbase2 ns.N
  if (bits : Rat) ≤ param 0 0 then set_params fp ns 0 0 0
  else if (bits : Rat) ≥ param (4 - 1) 0 then set_params fp ns (4 - 1) (4 - 1) 0
  else
    let i := params_level bits 4 0
    set_params fp ns i (i - 1)
      (fp.div ((bits : Rat) - param (i - 1) 0) (param i 0 - param (i - 1) 0))

/-- An instance of the floating-point operations: exact arithmetic. -/
def fp_exact : float_ops :=
  { div := fun x y => x / y
    interp := fun a fac b => a * fac + b * (1 - fac)
    to_float := fun x => x }

/-- The fields of a run started with `-np` and no other option, on `N = 15347`. -/
def ns_np : nsieve_t :=
  { N := 15347, fb_bound := 4294967295, lp_bound := 0, M := 4294967295, T := -1 }

/-! ## `nsieve.c`: `nsieve_init` -/

/-- The function `nsieve_init` of `nsieve.c`, without the counters, the hash table of the
partials and the timing: the parameters are selected, `extra_rels` is `48`, the factor base is
generated, and the `rels_needed` matrix rows are allocated with
`row_len = fb_len / (8 * sizeof (uint64_t)) + 1` zeroed words each. -/
def nsieve_init (fp : float_ops) (kron : Int → Nat → Int) (find_root : Int → Nat → Nat)
    (fast_log : Nat → Nat) (ns : nsieve_t) (n : Int) : nsieve_t :=
  let ns1 := select_parameters fp { ns with N := n }
  let ns2 := generate_fb kron find_root fast_log { ns1 with extra_rels := 48 }
  { ns2 with
    row_len := ns2.fb_len / (8 * 8) + 1
    relns := (List.range ns2.rels_needed).map fun _ =>
      { r1 := 0, r2 := none, row := List.replicate (ns2.fb_len / (8 * 8) + 1) 0 } }

/-! ## Invariants of the elimination -/

/-- The history matrix is unit lower-triangular: bit `r` of row `r` is set and no bit with a
larger index is. -/
def history_lower (ns : nsieve_t) (st : mat_state) : Prop :=
  ∀ r, r < ns.rels_needed →
    get_bit (st.history.getD r []) r = 1 ∧ ∀ c, r < c → get_bit (st.history.getD r []) c = 0

/-- The shape of the history matrix: `rels_needed` rows of `hmlen` words. -/
def history_wf (ns : nsieve_t) (st : mat_state) : Prop :=
  st.history.length = ns.rels_needed ∧
  ∀ r, r < ns.rels_needed → (st.history.getD r []).length = hmlen ns

/-- The exponent rows are well formed during the elimination: `rels_needed` rows of `row_len`
words of 64 bits each, with no bit set beyond column `fb_len`. -/
def rows_ok (ns : nsieve_t) (st : mat_state) : Prop :=
  st.rows.length = ns.rels_needed ∧
  ∀ i, i < ns.rels_needed →
    (st.rows.getD i []).length = ns.row_len ∧
    (∀ j, (st.rows.getD i []).getD j 0 < 2 ^ 64) ∧
    ∀ c, ns.fb_len < c → get_bit (st.rows.getD i []) c = 0

/-- The cache `rmos` is right: `rmos[i]` holds the value of `rightmost_1` on the current
exponent row `i`, converted to `uint32_t`. -/
def rmos_ok (ns : nsieve_t) (st : mat_state) : Prop :=
  st.rmos.length = ns.rels_needed ∧
  ∀ i, i < ns.rels_needed →
    st.rmos.getD i 0 = u32_of_int (rightmost_1 (st.rows.getD i []) ns.fb_len)

/-- The value `v` is the rightmost-1 column of `row`: either `v = -1` and no bit of the row is
set, or bit `v` is set and no bit with a larger index is. -/
def is_rightmost (row : List Nat) (v : Int) : Prop :=
  (v = -1 ∧ ∀ c, get_bit row c = 0) ∨
  (0 ≤ v ∧ get_bit row v.toNat = 1 ∧ ∀ c : Nat, v < (c : Int) → get_bit row c = 0)

/-- The states the elimination goes through, with the conditions under which the inner loop
runs: `col` is a column of the matrix, `pivot` is the lowest-index row whose cached rightmost 1
is `col`, and `yolanda` is a later row. -/
inductive sweep_trace (ns : nsieve_t) : mat_state → Prop
  | start : sweep_trace ns (solve_init ns)
  | xor_step (st : mat_state) (col pivot yolanda : Nat) :
      sweep_trace ns st → col < expm_cols ns → pivot < yolanda → yolanda < ns.rels_needed →
      st.rmos.getD pivot 0 = col → (∀ j, j < pivot → st.rmos.getD j 0 ≠ col) →
      sweep_trace ns (yolanda_step ns col pivot st yolanda)

/-- At most one row has its cached rightmost 1 in column `c`. -/
def col_unique (ns : nsieve_t) (st : mat_state) (c : Nat) : Prop :=
  ∀ i j, i < ns.rels_needed → j < ns.rels_needed →
    st.rmos.getD i 0 = c → st.rmos.getD j 0 = c → i = j

/-- The input of `solve_matrix` is well formed: `rels_needed` rows of `row_len` words of 64 bits
each, no bit set beyond column `fb_len`, all `fb_len + 1` columns inside the rows, and `fb_len`
in the range of `int`. -/
def matrix_input_ok (ns : nsieve_t) : Prop :=
  ns.relns.length = ns.rels_needed ∧
  (∀ m ∈ ns.relns, m.row.length = ns.row_len ∧ (∀ j, m.row.getD j 0 < 2 ^ 64) ∧
    ∀ c, ns.fb_len < c → get_bit m.row c = 0) ∧
  ns.fb_len < 64 * ns.row_len ∧ ns.fb_len < 2147483648

/-- A matrix as `nsieve_init` shapes it, for a factor base of `2` primes: `50` rows of one
word over the columns `0, 1, 2`. -/
def ns_fifty : nsieve_t :=
  { fb_len := 2, extra_rels := 48, rels_needed := 50, row_len := 1,
    relns := (List.range 50).map fun i => ⟨0, none, [i % 8]⟩ }

/-- The invariant of the inner loop of the elimination for the column `col` with pivot `p`,
before the pass for the row `y`: the state is one the elimination goes through, row `p` is
the lowest-index row whose cached rightmost 1 is `col`, no row between `p` and `y` has its
cached rightmost 1 in `col`, and the columns after `col` are settled. -/
def column_inv (ns : nsieve_t) (col p : Nat) (st : mat_state) (y : Nat) : Prop :=
  sweep_trace ns st ∧ st.rmos.getD p 0 = col ∧ (∀ j, j < p → st.rmos.getD j 0 ≠ col) ∧
  (∀ j, p < j → j < y → st.rmos.getD j 0 ≠ col) ∧
  ∀ c, col < c → c < expm_cols ns → col_unique ns st c

/-- The invariant of the column loop of the elimination when the columns `m, …, fb_len` are
done: the state is one the elimination goes through and each of these columns is the cached
rightmost 1 of at most one row. -/
def sweep_inv (ns : nsieve_t) (st : mat_state) (m : Nat) : Prop :=
  sweep_trace ns st ∧ ∀ c, m ≤ c → c < expm_cols ns → col_unique ns st c

/-- The state of the elimination after the first `m` passes of its column loop, which are the
passes for the columns `fb_len, fb_len - 1, …, fb_len - m + 1`. -/
def sweep_cols (ns : nsieve_t) (m : Nat) : mat_state :=
  ((List.range (expm_cols ns)).reverse.take m).foldl (column_step ns) (solve_init ns)

/-- The pivot that the pass number `m` of the column loop finds: the result of the pivot search
for the column `fb_len - m` in the state after the first `m` passes. -/
def sweep_pivot (ns : nsieve_t) (m : Nat) : Nat :=
  find_pivot (sweep_cols ns m).rmos (expm_cols ns - 1 - m) ns.rels_needed ns.rels_needed 0

/-- The state of the elimination inside the pass number `m` of its column loop, after the
first `n` passes of the inner loop, which are the passes for the rows
`pivot + 1, …, pivot + n`. -/
def sweep_inner (ns : nsieve_t) (m n : Nat) : mat_state :=
  (List.range' (sweep_pivot ns m + 1) n).foldl
    (yolanda_step ns (expm_cols ns - 1 - m) (sweep_pivot ns m)) (sweep_cols ns m)

/-- The fields of a run started without any option, on the 126-bit number `N = 2^125`: every
parameter is at its sentinel. -/
def ns_auto : nsieve_t :=
  { N := 2 ^ 125, fb_bound := 4294967295, lp_bound := 4294967295, M := 4294967295, T := -1 }

/-! ## Facts about the GMP primitives -/

theorem mpz_invert_spec {a m j : Int} (h : mpz_invert a m = some j) :
    (a * j) % m = 1 % m ∧ 0 ≤ j ∧ j < m.natAbs := by
  unfold mpz_invert at h
  rw [Option.map_eq_some'] at h
  obtain ⟨x, hx, rfl⟩ := h
  have h1 := List.find?_some hx
  have h2 := List.mem_of_find?_eq_some hx
  rw [List.mem_range] at h2
  simp only [decide_eq_true_eq] at h1
  exact ⟨h1, Int.ofNat_nonneg x, Int.ofNat_lt.mpr h2⟩

theorem mpz_invert_exists (a : Int) (m : Nat) (hm : 0 < m) (hc : IsCoprime a (m : Int)) :
    ∃ j, mpz_invert a m = some j := by
  obtain ⟨u, v, huv⟩ := hc
  have hm' : (0 : Int) < m := by exact_mod_cast hm
  have hx0 : 0 ≤ u % (m : Int) := Int.emod_nonneg _ hm'.ne'
  have hx1 : u % (m : Int) < m := Int.emod_lt_of_pos _ hm'
  have hfind : ((List.range (m : Int).natAbs).find?
      (fun (x : Nat) => decide ((a * (x : Int)) % (m : Int) = 1 % (m : Int)))).isSome := by
    rw [List.find?_isSome]
    refine ⟨(u % (m : Int)).toNat, ?_, ?_⟩
    · rw [List.mem_range, Int.natAbs_ofNat]
      have : ((u % (m : Int)).toNat : Int) < m := by rwa [Int.toNat_of_nonneg hx0]
      exact_mod_cast this
    · simp only [decide_eq_true_eq]
      rw [Int.toNat_of_nonneg hx0]
      have : a * (u % (m : Int)) ≡ 1 [ZMOD (m : Int)] := by
        have h1 : a * (u % (m : Int)) ≡ a * u [ZMOD (m : Int)] :=
          Int.ModEq.mul_left _ (Int.mod_modEq _ _)
        have h2 : a * u ≡ 1 [ZMOD (m : Int)] := by
          rw [Int.modEq_iff_dvd]
          exact ⟨v, by linarith⟩
        exact h1.trans h2
      exact this
  obtain ⟨x, hx⟩ := Option.isSome_iff_exists.mp hfind
  exact ⟨Int.ofNat x, by unfold mpz_invert; rw [hx]; rfl⟩

theorem sub_u32_eq {g r : Nat} (hr : r ≤ g) (hg : g < 4294967296) : sub_u32 g r = g - r := by
  unfold sub_u32
  have h0 : (0 : Int) ≤ (g : Int) - (r : Int) := by omega
  have h1 : (g : Int) - (r : Int) < 4294967296 := by omega
  rw [Int.emod_eq_of_lt h0 h1]
  omega

/-! ## The CRT loop of `generate_polygroup` -/

theorem polygroup_roots_getD (find_root : Int → Nat → Nat) (N : Int) (l : List Nat) {k i : Nat}
    (hi : i < k) :
    (polygroup_roots find_root N l k).getD i (0, 0)
      = (find_root N (l.getD i 0), sub_u32 (l.getD i 0) (find_root N (l.getD i 0))) := by
  unfold polygroup_roots
  rw [List.getD_eq_getElem _ _ (by simpa using hi)]
  simp

theorem getD_mem {l : List Nat} {i : Nat} (hi : i < l.length) : l.getD i 0 ∈ l := by
  rw [List.getD_eq_getElem _ _ hi]
  exact List.getElem_mem hi

theorem getD_ne_of_nodup {l : List Nat} (hn : l.Nodup) {i j : Nat} (hi : i < l.length)
    (hj : j < l.length) (hij : i ≠ j) : l.getD i 0 ≠ l.getD j 0 := by
  rw [List.getD_eq_getElem _ _ hi, List.getD_eq_getElem _ _ hj]
  intro h
  exact hij ((hn.getElem_inj_iff).mp h)

theorem divexact_prod_eq {l : List Nat} (hp : ∀ g ∈ l, Nat.Prime g) {g : Nat} (hg : g ∈ l) :
    mpz_divexact ((l.prod : Nat) : Int) (g : Int) = (((l.erase g).prod : Nat) : Int) := by
  unfold mpz_divexact
  have h := List.prod_erase hg
  rw [← h, Nat.cast_mul]
  exact Int.mul_ediv_cancel_left _ (by exact_mod_cast (hp g hg).pos.ne')

theorem not_dvd_prod_erase {l : List Nat} (hp : ∀ g ∈ l, Nat.Prime g) (hn : l.Nodup) {g : Nat}
    (hg : g ∈ l) : ¬ g ∣ (l.erase g).prod := by
  intro h
  obtain ⟨b, hb, hgb⟩ := (Prime.dvd_prod_iff (hp g hg).prime).mp h
  have hb' : b ∈ l := List.mem_of_mem_erase hb
  have : g = b := (Nat.prime_dvd_prime_iff_eq (hp g hg) (hp b hb')).mp hgb
  subst this
  exact (hn.mem_erase_iff.mp hb).1 rfl

theorem prod_dvd_of_forall_dvd : ∀ (l : List Nat), (∀ g ∈ l, Nat.Prime g) → l.Nodup →
    ∀ x : Int, (∀ g ∈ l, (g : Int) ∣ x) → ((l.prod : Nat) : Int) ∣ x
  | [], _, _, x, _ => by simp
  | g :: t, hp, hn, x, hx => by
    have hg : (g : Int) ∣ x := hx g (List.mem_cons_self _ _)
    have ht : ((t.prod : Nat) : Int) ∣ x :=
      prod_dvd_of_forall_dvd t (fun b hb => hp b (List.mem_cons_of_mem _ hb))
        (List.nodup_cons.mp hn).2 x (fun b hb => hx b (List.mem_cons_of_mem _ hb))
    have hnd : ¬ g ∣ t.prod := by
      have := not_dvd_prod_erase hp hn (List.mem_cons_self g t)
      simpa using this
    have hc : Nat.Coprime g t.prod :=
      (Nat.Prime.coprime_iff_not_dvd (hp g (List.mem_cons_self _ _))).mpr hnd
    rw [List.prod_cons]
    rw [Int.natCast_dvd] at hg ht ⊢
    exact Nat.Coprime.mul_dvd_of_dvd_of_dvd hc hg ht

theorem crt_fold (find_root : Int → Nat → Nat) (N : Int) (l : List Nat)
    (hp : ∀ g ∈ l, Nat.Prime g) (hn : l.Nodup) (z : Nat) :
    ∀ n, n ≤ l.length →
      ∃ s, (List.range n).foldl
          (crt_step ((l.prod : Nat) : Int) l (polygroup_roots find_root N l l.length) z) (some 0)
            = some s ∧
        ∀ i, i < l.length →
          s ≡ (if i < n then (root_sel find_root N l z i : Int) else 0) [ZMOD (l.getD i 0 : Int)]
  | 0, _ => ⟨0, by simp, fun i _ => by simp⟩
  | n + 1, hle => by
    have hnk : n < l.length := hle
    obtain ⟨s, hs, hcong⟩ := crt_fold find_root N l hp hn z n (Nat.le_of_lt hnk)
    have hgn : l.getD n 0 ∈ l := getD_mem hnk
    have hdiv := divexact_prod_eq hp hgn
    have hcop : IsCoprime ((((l.erase (l.getD n 0)).prod : Nat) : Int)) ((l.getD n 0 : Nat) : Int) := by
      rw [Nat.isCoprime_iff_coprime]
      exact ((Nat.Prime.coprime_iff_not_dvd (hp _ hgn)).mpr (not_dvd_prod_erase hp hn hgn)).symm
    obtain ⟨j, hj⟩ := mpz_invert_exists _ _ (hp _ hgn).pos hcop
    have hjs := (mpz_invert_spec hj).1
    refine ⟨s + j * (((l.erase (l.getD n 0)).prod : Nat) : Int) * (root_sel find_root N l z n : Int),
      ?_, ?_⟩
    · rw [List.range_succ, List.foldl_append, hs]
      simp only [List.foldl_cons, List.foldl_nil, crt_step, hdiv, hj,
        polygroup_roots_getD find_root N l hnk, root_sel]
    · intro i hi
      have hci := hcong i hi
      by_cases hin : i = n
      · subst hin
        simp only [lt_irrefl, if_false, Nat.lt_succ_self, if_true] at hci ⊢
        have h1 : j * (((l.erase (l.getD i 0)).prod : Nat) : Int) ≡ 1 [ZMOD (l.getD i 0 : Int)] := by
          rw [mul_comm]; exact hjs
        have := (hci.add (h1.mul_right (root_sel find_root N l z i : Int)))
        simpa using this
      · have hgoal : (if i < n + 1 then (root_sel find_root N l z i : Int) else 0)
            = (if i < n then (root_sel find_root N l z i : Int) else 0) := by
          by_cases h : i < n
          · rw [if_pos h, if_pos (by omega)]
          · rw [if_neg h, if_neg (by omega)]
        rw [hgoal]
        have hd : (l.getD i 0 : Int) ∣ (((l.erase (l.getD n 0)).prod : Nat) : Int) := by
          rw [Int.natCast_dvd_natCast]
          exact List.dvd_prod
            ((List.mem_erase_of_ne (getD_ne_of_nodup hn hi hnk hin)).mpr (getD_mem hi))
        have h0 : j * (((l.erase (l.getD n 0)).prod : Nat) : Int) * (root_sel find_root N l z n : Int)
            ≡ 0 [ZMOD (l.getD i 0 : Int)] := by
          rw [Int.modEq_zero_iff_dvd]
          exact Dvd.dvd.mul_right (Dvd.dvd.mul_left hd _) _
        have := hci.add h0
        simpa using this

theorem root_sel_sq (find_root : Int → Nat → Nat) (N : Int) (l : List Nat)
    (hu : ∀ g ∈ l, g < 4294967296)
    (hroot : ∀ g ∈ l, find_root N g < g ∧ ((find_root N g : Nat) : Int) ^ 2 ≡ N [ZMOD (g : Int)])
    (z : Nat) {i : Nat} (hi : i < l.length) :
    ((root_sel find_root N l z i : Nat) : Int) ^ 2 ≡ N [ZMOD (l.getD i 0 : Int)] := by
  have hg := getD_mem hi
  obtain ⟨hlt, hsq⟩ := hroot _ hg
  unfold root_sel
  split
  · exact hsq
  · rw [sub_u32_eq hlt.le (hu _ hg), Nat.cast_sub hlt.le]
    refine Int.ModEq.trans ?_ hsq
    rw [Int.modEq_iff_dvd]
    exact ⟨2 * (find_root N (l.getD i 0) : Int) - (l.getD i 0 : Int), by ring⟩

theorem crt_bval_spec (find_root : Int → Nat → Nat) (N : Int) (l : List Nat)
    (hp : ∀ g ∈ l, Nat.Prime g) (hn : l.Nodup) (hu : ∀ g ∈ l, g < 4294967296)
    (hroot : ∀ g ∈ l, find_root N g < g ∧ ((find_root N g : Nat) : Int) ^ 2 ≡ N [ZMOD (g : Int)])
    (z : Nat) :
    ∃ b, crt_bval ((l.prod : Nat) : Int) l (polygroup_roots find_root N l l.length) l.length z
        = some b ∧ b ^ 2 ≡ N [ZMOD ((l.prod : Nat) : Int)] := by
  obtain ⟨s, hs, hcong⟩ := crt_fold find_root N l hp hn z l.length le_rfl
  refine ⟨mpz_mod s ((l.prod : Nat) : Int), by unfold crt_bval; rw [hs]; rfl, ?_⟩
  rw [Int.modEq_iff_dvd]
  apply prod_dvd_of_forall_dvd l hp hn
  intro g hg
  obtain ⟨i, hi, rfl⟩ := List.getElem_of_mem hg
  have hgi : l[i] = l.getD i 0 := (List.getD_eq_getElem _ _ hi).symm
  rw [hgi, ← Int.modEq_iff_dvd]
  have h1 := hcong i hi
  rw [if_pos hi] at h1
  have h2 : mpz_mod s ((l.prod : Nat) : Int) ≡ s [ZMOD (l.getD i 0 : Int)] := by
    unfold mpz_mod
    apply Int.ModEq.of_mul_left (((l.erase (l.getD i 0)).prod : Nat) : Int)
    have : (((l.erase (l.getD i 0)).prod : Nat) : Int) * (l.getD i 0 : Int)
        = ((l.prod : Nat) : Int) := by
      rw [← List.prod_erase (getD_mem hi)]; push_cast; ring
    rw [this]
    exact Int.mod_modEq _ _
  exact ((h2.trans h1).pow 2).trans (root_sel_sq find_root N l hu hroot z hi)

theorem crt_loop_fold (a : Int) (gvals : List Nat) (r : List (Nat × Nat)) (k : Nat)
    (hf : ∀ z, ∃ b, crt_bval a gvals r k z = some b) :
    ∀ n, ∃ bs, (List.range n).foldl
        (fun acc z =>
          match acc with
          | none => none
          | some bs =>
            match crt_bval a gvals r k z with
            | none => none
            | some b => some (bs ++ [b]))
        (some []) = some bs ∧ bs.length = n ∧
          ∀ z, z < n → crt_bval a gvals r k z = some (bs.getD z 0)
  | 0 => ⟨[], by simp, rfl, fun z hz => absurd hz (Nat.not_lt_zero z)⟩
  | n + 1 => by
    obtain ⟨bs, hbs, hlen, hall⟩ := crt_loop_fold a gvals r k hf n
    obtain ⟨b, hb⟩ := hf n
    refine ⟨bs ++ [b], ?_, by simp [hlen], ?_⟩
    · rw [List.range_succ, List.foldl_append, hbs]
      simp [hb]
    · intro z hz
      by_cases hzn : z < n
      · rw [hall z hzn, List.getD_append _ _ _ _ (by omega)]
      · have hzn' : z = n := by omega
        subst hzn'
        rw [hb, List.getD_append_right _ _ _ _ (by omega)]
        simp [hlen]

/-! ## Claims about `poly.c` -/

/-- C1: when `A` is the product of `k` pairwise distinct primes `gvals[i]` and `find_root` meets
its contract on them (it returns a residue `r < g` with `r² ≡ N (mod g)`), `generate_polygroup`
returns, and each of the `2^k` values `bvals[z]` its CRT loop stores satisfies
`bvals[z]² ≡ N (mod A)`. -/
theorem generate_polygroup_bvals_sq (find_root : Int → Nat → Nat) (N : Int) (k : Nat)
    (fb : List Nat) (fb_len : Nat) (pg : poly_group_t)
    (hk : pg.gvals.length = k)
    (hp : ∀ g ∈ pg.gvals, Nat.Prime g) (hn : pg.gvals.Nodup)
    (hu : ∀ g ∈ pg.gvals, g < 4294967296)
    (ha : pg.a = ((pg.gvals.prod : Nat) : Int))
    (hroot : ∀ g ∈ pg.gvals,
      find_root N g < g ∧ ((find_root N g : Nat) : Int) ^ 2 ≡ N [ZMOD (g : Int)]) :
    ∃ pg2, generate_polygroup find_root N k fb fb_len pg = some pg2 ∧ pg2.a = pg.a ∧
      pg2.bvals.length = 2 ^ k ∧
      ∀ z, z < 2 ^ k → (pg2.bvals.getD z 0) ^ 2 ≡ N [ZMOD pg.a] := by
  subst hk
  have hspec := crt_bval_spec find_root N pg.gvals hp hn hu hroot
  obtain ⟨bs, hbs, hlen, hall⟩ :=
    crt_loop_fold ((pg.gvals.prod : Nat) : Int) pg.gvals
      (polygroup_roots find_root N pg.gvals pg.gvals.length) pg.gvals.length
      (fun z => (hspec z).imp fun _ h => h.1) (1 <<< pg.gvals.length)
  refine ⟨{ pg with bvals := bs,
                    ainverses := ainverses_loop pg.a fb fb_len pg.ainverses }, ?_, rfl, ?_, ?_⟩
  · unfold generate_polygroup crt_loop
    rw [ha, hbs]
  · rw [hlen, Nat.one_shiftLeft]
  · intro z hz
    obtain ⟨b, hb, hsq⟩ := hspec z
    have := hall z (by rwa [Nat.one_shiftLeft])
    rw [hb, Option.some_inj] at this
    show (bs.getD z 0) ^ 2 ≡ N [ZMOD pg.a]
    rw [← this, ha]
    exact hsq

theorem generate_polygroup_bvals_sq_witness :
    ∃ pg2, generate_polygroup (fun _ g => if g = 7 then 3 else 5) 2 2 [] 0
        ⟨161, [7, 23], [], [], none⟩ = some pg2 ∧ pg2.a = 161 ∧
      pg2.bvals.length = 2 ^ 2 ∧
      ∀ z, z < 2 ^ 2 → (pg2.bvals.getD z 0) ^ 2 ≡ 2 [ZMOD 161] :=
  generate_polygroup_bvals_sq (fun _ g => if g = 7 then 3 else 5) 2 2 [] 0
    ⟨161, [7, 23], [], [], none⟩ rfl
    (by intro g hg; simp at hg; rcases hg with rfl | rfl <;> norm_num)
    (by decide)
    (by intro g hg; simp at hg; rcases hg with rfl | rfl <;> norm_num)
    (by decide)
    (by intro g hg; simp at hg; rcases hg with rfl | rfl <;> decide)

/-- C2: for a B-value `bvals[i]` of the group with `bvals[i]² ≡ N (mod A)`, `generate_poly` sets
`p.a = A`, `p.b = bvals[i]`, and stores a `C` with `A * C = B² - N` exactly. -/
theorem generate_poly_exact (N : Int) (pg : poly_group_t) (p : poly_t) (i : Nat)
    (hi : i < pg.bvals.length) (hsq : (pg.bvals.getD i 0) ^ 2 ≡ N [ZMOD pg.a]) :
    (generate_poly N pg p i).a = pg.a ∧
    (generate_poly N pg p i).b = pg.bvals[i] ∧
    (generate_poly N pg p i).a * (generate_poly N pg p i).c
      = (generate_poly N pg p i).b ^ 2 - N := by
  refine ⟨rfl, List.getD_eq_getElem _ _ hi, ?_⟩
  show pg.a * mpz_divexact (pg.bvals.getD i 0 * pg.bvals.getD i 0 - N) pg.a
    = (pg.bvals.getD i 0) ^ 2 - N
  unfold mpz_divexact
  rw [← pow_two]
  exact Int.mul_ediv_cancel' (Int.modEq_iff_dvd.mp hsq.symm)

theorem generate_poly_exact_witness :
    (generate_poly 2 ⟨161, [7, 23], [143, 74, 87, 18], [], none⟩ ⟨0, 0, 0, 0, 0⟩ 1).a = 161 ∧
    (generate_poly 2 ⟨161, [7, 23], [143, 74, 87, 18], [], none⟩ ⟨0, 0, 0, 0, 0⟩ 1).b = 74 ∧
    (generate_poly 2 ⟨161, [7, 23], [143, 74, 87, 18], [], none⟩ ⟨0, 0, 0, 0, 0⟩ 1).a *
      (generate_poly 2 ⟨161, [7, 23], [143, 74, 87, 18], [], none⟩ ⟨0, 0, 0, 0, 0⟩ 1).c
      = (generate_poly 2 ⟨161, [7, 23], [143, 74, 87, 18], [], none⟩ ⟨0, 0, 0, 0, 0⟩ 1).b ^ 2
        - 2 :=
  generate_poly_exact 2 ⟨161, [7, 23], [143, 74, 87, 18], [], none⟩ ⟨0, 0, 0, 0, 0⟩ 1
    (by decide) (by decide)

/-- C10: the code at `N = 2`, `k = 2`, `gvals = [7, 23]`, `A = 161`: whichever roots `find_root`
returns, one of the first `2^(k-1) = 2` stored B-values is larger than `A / 2`; the loop stores
every residue `0 ≤ B < A` and drops none. -/
theorem generate_polygroup_bval_above_half (find_root : Int → Nat → Nat)
    (hroot : ∀ g ∈ [7, 23],
      find_root 2 g < g ∧ ((find_root 2 g : Nat) : Int) ^ 2 ≡ 2 [ZMOD (g : Int)]) :
    ∃ pg2, generate_polygroup find_root 2 2 [] 0 ⟨161, [7, 23], [], [], none⟩ = some pg2 ∧
      ∃ j, j < 2 ^ (2 - 1) ∧ pg2.a / 2 < |pg2.bvals.getD j 0| := by
  obtain ⟨h7, h7s⟩ := hroot 7 (by simp)
  obtain ⟨h23, h23s⟩ := hroot 23 (by simp)
  have e7 : find_root 2 7 = 3 ∨ find_root 2 7 = 4 := by
    generalize find_root 2 7 = r at h7 h7s
    interval_cases r <;> revert h7s <;> decide
  have e23 : find_root 2 23 = 5 ∨ find_root 2 23 = 18 := by
    generalize find_root 2 23 = r at h23 h23s
    interval_cases r <;> revert h23s <;> decide
  have hr : polygroup_roots find_root 2 [7, 23] 2
      = [(find_root 2 7, sub_u32 7 (find_root 2 7)),
         (find_root 2 23, sub_u32 23 (find_root 2 23))] := by
    simp [polygroup_roots, List.range, List.range.loop]
  unfold generate_polygroup
  simp only [hr]
  rcases e7 with e | e <;> rcases e23 with f | f <;> rw [e, f]
  · exact ⟨⟨161, [7, 23], [143, 74, 87, 18], [], none⟩, by decide, 0, by decide, by decide⟩
  · exact ⟨⟨161, [7, 23], [87, 18, 143, 74], [], none⟩, by decide, 0, by decide, by decide⟩
  · exact ⟨⟨161, [7, 23], [74, 143, 18, 87], [], none⟩, by decide, 1, by decide, by decide⟩
  · exact ⟨⟨161, [7, 23], [18, 87, 74, 143], [], none⟩, by decide, 1, by decide, by decide⟩

/-! ## The sieve of Eratosthenes -/

theorem getD_set_nat (l : List Nat) (j i v : Nat) (hj : j < l.length) :
    (l.set j v).getD i 0 = if i = j then v else l.getD i 0 := by
  simp only [List.getD_eq_getElem?_getD, List.getElem?_set]
  by_cases h : j = i
  · subst h; simp [hj]
  · rw [if_neg h, if_neg (fun h2 => h h2.symm)]

theorem getD_replicate_zero (n i : Nat) : (List.replicate n 0).getD i 0 = 0 := by
  simp only [List.getD_eq_getElem?_getD, List.getElem?_replicate]
  split <;> rfl

theorem keep_list_succ (kron : Int → Nat → Int) (N : Int) (vals : List Nat) (n : Nat) :
    keep_list kron N vals (n + 1)
      = if extract_keep kron N vals n then keep_list kron N vals n ++ [n + 2]
        else keep_list kron N vals n := by
  unfold keep_list
  rw [List.range_succ, List.filter_append]
  by_cases h : extract_keep kron N vals n = true
  · simp [h]
  · simp [h]

theorem keep_list_length_mono (kron : Int → Nat → Int) (N : Int) (vals : List Nat) (n : Nat) :
    (keep_list kron N vals n).length ≤ (keep_list kron N vals (n + 1)).length := by
  rw [keep_list_succ]
  split <;> simp

theorem keep_list_length_le (kron : Int → Nat → Int) (N : Int) (vals : List Nat) :
    ∀ n m, n ≤ m → (keep_list kron N vals n).length ≤ (keep_list kron N vals m).length := by
  intro n m h
  induction h with
  | refl => exact le_rfl
  | step _ ih => exact le_trans ih (keep_list_length_mono kron N vals _)

theorem generate_polygroup_bval_above_half_witness :
    ∃ pg2, generate_polygroup (fun _ g => if g = 7 then 3 else 5) 2 2 [] 0
        ⟨161, [7, 23], [], [], none⟩ = some pg2 ∧
      ∃ j, j < 2 ^ (2 - 1) ∧ pg2.a / 2 < |pg2.bvals.getD j 0| :=
  generate_polygroup_bval_above_half (fun _ g => if g = 7 then 3 else 5)
    (by intro g hg; simp at hg; rcases hg with rfl | rfl <;> decide)

/-! ## Claims about the factor base -/

theorem ext_getD {a b : List Nat} (hl : a.length = b.length)
    (h : ∀ j, j < a.length → a.getD j 0 = b.getD j 0) : a = b := by
  apply List.ext_getElem hl
  intro j h1 h2
  have := h j h1
  rwa [List.getD_eq_getElem _ _ h1, List.getD_eq_getElem _ _ h2] at this

theorem getD_of_le {a : List Nat} {j : Nat} (h : a.length ≤ j) : a.getD j 0 = 0 := by
  simp [List.getD_eq_getElem?_getD, List.getElem?_eq_none h]

theorem xor_row_fold (src : List Nat) :
    ∀ (n : Nat) (dst : List Nat), n ≤ dst.length →
      ((List.range n).foldl (fun d i => d.set i (d.getD i 0 ^^^ src.getD i 0)) dst).length
        = dst.length ∧
      ∀ j, ((List.range n).foldl (fun d i => d.set i (d.getD i 0 ^^^ src.getD i 0)) dst).getD j 0
        = if j < n then dst.getD j 0 ^^^ src.getD j 0 else dst.getD j 0
  | 0, dst, _ => by simp
  | n + 1, dst, hn => by
    obtain ⟨hl, hg⟩ := xor_row_fold src n dst (by omega)
    rw [List.range_succ, List.foldl_append]
    simp only [List.foldl_cons, List.foldl_nil]
    refine ⟨by rw [List.length_set, hl], fun j => ?_⟩
    rw [getD_set_nat _ _ _ _ (by omega), hg j, hg n]
    by_cases hj : j = n
    · subst hj
      rw [if_pos rfl, if_neg (lt_irrefl j), if_pos (Nat.lt_succ_self j)]
    · rw [if_neg hj]
      by_cases hjn : j < n
      · rw [if_pos hjn, if_pos (by omega)]
      · rw [if_neg hjn, if_neg (by omega)]

theorem xor_row_length (dst src : List Nat) (n : Nat) (hn : n ≤ dst.length) :
    (xor_row dst src n).length = dst.length :=
  (xor_row_fold src n dst hn).1

theorem xor_row_getD (dst src : List Nat) (n : Nat) (hn : n ≤ dst.length) (j : Nat) :
    (xor_row dst src n).getD j 0
      = if j < n then dst.getD j 0 ^^^ src.getD j 0 else dst.getD j 0 :=
  (xor_row_fold src n dst hn).2 j

theorem get_bit_eq_one (row : List Nat) (i : Nat) :
    get_bit row i = 1 ↔ (row.getD (i / 64) 0).testBit (i % 64) = true := by
  unfold get_bit
  split <;> simp_all

theorem get_bit_xor_row (h1 h2 : List Nat) (n i : Nat) (hn : n ≤ h1.length) (hi : i / 64 < n) :
    (get_bit (xor_row h1 h2 n) i = 1) ↔ ¬ ((get_bit h1 i = 1) ↔ (get_bit h2 i = 1)) := by
  rw [get_bit_eq_one, get_bit_eq_one, get_bit_eq_one, xor_row_getD _ _ _ hn, if_pos hi,
    Nat.testBit_xor]
  cases (h1.getD (i / 64) 0).testBit (i % 64) <;>
    cases (h2.getD (i / 64) 0).testBit (i % 64) <;> simp

theorem get_bit_flip_zero (hm r i : Nat) (hr : r / 64 < hm) :
    get_bit (flip_bit (List.replicate hm 0) r) i = if i = r then 1 else 0 := by
  unfold get_bit flip_bit
  rw [getD_set_nat _ _ _ _ (by simpa using hr), getD_replicate_zero, getD_replicate_zero,
    Nat.zero_xor, Nat.one_shiftLeft]
  by_cases hw : i / 64 = r / 64
  · rw [if_pos hw, Nat.testBit_two_pow]
    by_cases hb : r % 64 = i % 64
    · have : i = r := by omega
      simp [hb, this]
    · have : i ≠ r := by rintro rfl; exact hb rfl
      simp [hb, this]
  · have : i ≠ r := by rintro rfl; exact hw rfl
    simp [hw, this]

/-! ## The history invariant of the elimination -/

theorem word_sum_succ (expm : List (List Nat)) (h : List Nat) (j R : Nat) :
    word_sum expm h j (R + 1)
      = if get_bit h R = 1 then word_sum expm h j R ^^^ (expm.getD R []).getD j 0
        else word_sum expm h j R := by
  unfold word_sum
  rw [List.range_succ, List.foldl_append]
  rfl

theorem mat_check_fold (row_len : Nat) (expm : List (List Nat)) (h : List Nat) :
    ∀ R, ((List.range R).foldl
        (fun check i =>
          if get_bit h i = 1 then xor_row check (expm.getD i []) row_len else check)
        (clear_row row_len)).length = row_len ∧
      ∀ j, j < row_len → ((List.range R).foldl
        (fun check i =>
          if get_bit h i = 1 then xor_row check (expm.getD i []) row_len else check)
        (clear_row row_len)).getD j 0 = word_sum expm h j R
  | 0 => by
    refine ⟨by simp [clear_row], fun j _ => ?_⟩
    simp only [List.range_zero, List.foldl_nil, clear_row, getD_replicate_zero]
    rfl
  | R + 1 => by
    obtain ⟨hl, hg⟩ := mat_check_fold row_len expm h R
    rw [List.range_succ, List.foldl_append]
    simp only [List.foldl_cons, List.foldl_nil]
    by_cases hb : get_bit h R = 1
    · simp only [if_pos hb]
      refine ⟨by rw [xor_row_length _ _ _ (le_of_eq hl.symm), hl], fun j hj => ?_⟩
      rw [xor_row_getD _ _ _ (le_of_eq hl.symm), if_pos hj, hg j hj, word_sum_succ, if_pos hb]
    · simp only [if_neg hb]
      refine ⟨hl, fun j hj => ?_⟩
      rw [hg j hj, word_sum_succ, if_neg hb]

theorem mat_check_length (ns : nsieve_t) (expm : List (List Nat)) (h : List Nat) :
    (mat_check ns expm h).length = ns.row_len :=
  (mat_check_fold ns.row_len expm h ns.rels_needed).1

theorem mat_check_getD (ns : nsieve_t) (expm : List (List Nat)) (h : List Nat) (j : Nat)
    (hj : j < ns.row_len) :
    (mat_check ns expm h).getD j 0 = word_sum expm h j ns.rels_needed :=
  (mat_check_fold ns.row_len expm h ns.rels_needed).2 j hj

theorem word_sum_xor (expm : List (List Nat)) (h1 h2 : List Nat) (n j : Nat)
    (hn : n ≤ h1.length) :
    ∀ R, R ≤ 64 * n →
      word_sum expm (xor_row h1 h2 n) j R = word_sum expm h1 j R ^^^ word_sum expm h2 j R
  | 0, _ => by simp [word_sum]
  | R + 1, hR => by
    have ih := word_sum_xor expm h1 h2 n j hn R (by omega)
    have hb := get_bit_xor_row h1 h2 n R hn (by omega)
    rw [word_sum_succ, word_sum_succ, word_sum_succ, ih]
    by_cases b1 : get_bit h1 R = 1 <;> by_cases b2 : get_bit h2 R = 1
    · have hx : ¬ get_bit (xor_row h1 h2 n) R = 1 := by rw [hb]; simp [b1, b2]
      rw [if_neg hx, if_pos b1, if_pos b2]
      generalize word_sum expm h1 j R = a
      generalize word_sum expm h2 j R = b
      generalize (expm.getD R []).getD j 0 = e
      rw [Nat.xor_assoc a e, ← Nat.xor_assoc e b e, Nat.xor_comm e b, Nat.xor_assoc b e e,
        Nat.xor_self, Nat.xor_zero]
    · have hx : get_bit (xor_row h1 h2 n) R = 1 := by rw [hb]; simp [b1, b2]
      rw [if_pos hx, if_pos b1, if_neg b2]
      generalize word_sum expm h1 j R = a
      generalize word_sum expm h2 j R = b
      generalize (expm.getD R []).getD j 0 = e
      rw [Nat.xor_assoc a b e, Nat.xor_assoc a e b, Nat.xor_comm b e]
    · have hx : get_bit (xor_row h1 h2 n) R = 1 := by rw [hb]; simp [b1, b2]
      rw [if_pos hx, if_neg b1, if_pos b2, Nat.xor_assoc]
    · have hx : ¬ get_bit (xor_row h1 h2 n) R = 1 := by rw [hb]; simp [b1, b2]
      rw [if_neg hx, if_neg b1, if_neg b2]

theorem word_sum_unit (expm : List (List Nat)) (hm r j : Nat) (hr : r / 64 < hm) :
    ∀ R, word_sum expm (flip_bit (List.replicate hm 0) r) j R
      = if r < R then (expm.getD r []).getD j 0 else 0
  | 0 => by simp [word_sum]
  | R + 1 => by
    rw [word_sum_succ, word_sum_unit expm hm r j hr R, get_bit_flip_zero hm r R hr]
    by_cases h : R = r
    · subst h
      simp
    · rw [if_neg h]
      simp only [if_neg (show ¬ (0 = 1) by decide)]
      by_cases h2 : r < R
      · rw [if_pos h2, if_pos (by omega)]
      · rw [if_neg h2, if_neg (by omega)]

theorem hmlen_bound (ns : nsieve_t) : ns.rels_needed ≤ 64 * hmlen ns := by
  unfold hmlen
  omega

theorem getD_set_eq {α : Type} (l : List α) (j i : Nat) (v d : α) (hj : j < l.length) :
    (l.set j v).getD i d = if i = j then v else l.getD i d := by
  simp only [List.getD_eq_getElem?_getD, List.getElem?_set]
  by_cases h : j = i
  · subst h; simp [hj]
  · rw [if_neg h, if_neg (fun h2 => h h2.symm)]

theorem getD_range_map {α : Type} (f : Nat → α) (n i : Nat) (d : α) (hi : i < n) :
    ((List.range n).map f).getD i d = f i := by
  rw [List.getD_eq_getElem _ _ (by simpa using hi)]
  simp

theorem getD_map_row (relns : List matrel_t) (r : Nat) (hr : r < relns.length) :
    (relns.map fun m => m.row).getD r [] = relns[r].row := by
  rw [List.getD_eq_getElem _ _ (by simpa using hr)]
  simp

theorem solve_init_wf (ns : nsieve_t) (hlen : ns.relns.length = ns.rels_needed) :
    mat_wf ns (solve_init ns) := by
  refine ⟨by simp [solve_init, hlen], by simp [solve_init], fun r hr => ?_⟩
  show (((List.range ns.rels_needed).map fun i =>
    flip_bit (List.replicate (hmlen ns) 0) i).getD r []).length = hmlen ns
  rw [getD_range_map _ _ _ _ hr]
  simp [flip_bit]

theorem solve_init_inv (ns : nsieve_t) (hlen : ns.relns.length = ns.rels_needed)
    (hrow : ∀ m ∈ ns.relns, m.row.length = ns.row_len) :
    history_inv ns (solve_init ns) := by
  intro r hr
  have hr' : r < ns.relns.length := by omega
  have hb := hmlen_bound ns
  show (ns.relns.map fun m => m.row).getD r []
    = mat_check ns (expm_copy ns)
        (((List.range ns.rels_needed).map fun i =>
          flip_bit (List.replicate (hmlen ns) 0) i).getD r [])
  rw [getD_range_map _ _ _ _ hr]
  have hrl : ((ns.relns.map fun m => m.row).getD r []).length = ns.row_len := by
    rw [getD_map_row _ _ hr']
    exact hrow _ (List.getElem_mem hr')
  apply ext_getD (by rw [hrl, mat_check_length])
  intro j hj
  rw [hrl] at hj
  rw [mat_check_getD _ _ _ _ hj, word_sum_unit _ _ _ _ (by omega), if_pos hr]
  unfold expm_copy
  rw [getD_range_map _ _ _ _ hr, getD_range_map _ _ _ _ hj]

theorem yolanda_step_inv (ns : nsieve_t) (col pivot yolanda : Nat) (st : mat_state)
    (hwf : mat_wf ns st) (hinv : history_inv ns st) (hp : pivot < yolanda)
    (hy : yolanda < ns.rels_needed) :
    mat_wf ns (yolanda_step ns col pivot st yolanda) ∧
    history_inv ns (yolanda_step ns col pivot st yolanda) := by
  unfold yolanda_step
  split
  · obtain ⟨hr, hh, hhl⟩ := hwf
    have hyl : (st.history.getD yolanda []).length = hmlen ns := hhl _ hy
    refine ⟨⟨by simp [hr], by simp [hh], fun r hrR => ?_⟩, fun r hrR => ?_⟩
    · show ((st.history.set yolanda _).getD r []).length = hmlen ns
      rw [getD_set_eq _ _ _ _ _ (by omega)]
      split
      · rw [xor_row_length _ _ _ (le_of_eq hyl.symm), hyl]
      · exact hhl r hrR
    · show (st.rows.set yolanda _).getD r []
        = mat_check ns (expm_copy ns) ((st.history.set yolanda _).getD r [])
      rw [getD_set_eq _ _ _ _ _ (by omega), getD_set_eq _ _ _ _ _ (by omega)]
      by_cases hry : r = yolanda
      · rw [if_pos hry, if_pos hry]
        have hly : (st.rows.getD yolanda []).length = ns.row_len := by
          rw [hinv _ hy, mat_check_length]
        apply ext_getD
        · rw [xor_row_length _ _ _ (le_of_eq hly.symm), hly, mat_check_length]
        · intro j hj
          rw [xor_row_length _ _ _ (le_of_eq hly.symm), hly] at hj
          rw [xor_row_getD _ _ _ (le_of_eq hly.symm), if_pos hj, mat_check_getD _ _ _ _ hj,
            word_sum_xor _ _ _ _ _ (le_of_eq hyl.symm) _ (hmlen_bound ns),
            hinv _ hy, hinv _ (lt_trans hp hy), mat_check_getD _ _ _ _ hj,
            mat_check_getD _ _ _ _ hj]
      · rw [if_neg hry, if_neg hry]
        exact hinv r hrR
  · exact ⟨hwf, hinv⟩

theorem sweep_reach_inv (ns : nsieve_t) (hlen : ns.relns.length = ns.rels_needed)
    (hrow : ∀ m ∈ ns.relns, m.row.length = ns.row_len) (st : mat_state)
    (h : sweep_reach ns st) : mat_wf ns st ∧ history_inv ns st := by
  induction h with
  | start => exact ⟨solve_init_wf ns hlen, solve_init_inv ns hlen hrow⟩
  | xor_step st col pivot yolanda _ hp hy ih =>
    exact yolanda_step_inv ns col pivot yolanda st ih.1 ih.2 hp hy

/-- The pivot search ends because its loop test fails, not because the bound on the number of
passes is reached: the result is the first row at or after `pivot` whose cached rightmost 1 is
`col`, or `expm_rows` if there is none. -/
theorem find_pivot_exit (rmos : List Nat) (col expm_rows : Nat) :
    ∀ fuel pivot, expm_rows ≤ pivot + fuel →
      pivot ≤ find_pivot rmos col expm_rows fuel pivot ∧
      ¬ (find_pivot rmos col expm_rows fuel pivot < expm_rows ∧
          rmos.getD (find_pivot rmos col expm_rows fuel pivot) 0 ≠ col) ∧
      ∀ q, pivot ≤ q → q < find_pivot rmos col expm_rows fuel pivot →
        q < expm_rows ∧ rmos.getD q 0 ≠ col
  | 0, pivot, h => by
    unfold find_pivot
    exact ⟨le_rfl, fun hc => by omega, fun q h1 h2 => by omega⟩
  | fuel + 1, pivot, h => by
    unfold find_pivot
    by_cases hc : pivot < expm_rows ∧ rmos.getD pivot 0 ≠ col
    · rw [if_pos hc]
      obtain ⟨h1, h2, h3⟩ := find_pivot_exit rmos col expm_rows fuel (pivot + 1) (by omega)
      refine ⟨by omega, h2, fun q hq1 hq2 => ?_⟩
      by_cases hqp : q = pivot
      · subst hqp; exact hc
      · exact h3 q (by omega) hq2
    · rw [if_neg hc]
      exact ⟨le_rfl, hc, fun q h1 h2 => by omega⟩

theorem foldl_preserves {α β : Type} (P : α → Prop) (f : α → β → α) :
    ∀ (l : List β) (init : α), (∀ a x, x ∈ l → P a → P (f a x)) → P init → P (l.foldl f init)
  | [], _, _, h0 => h0
  | x :: l, init, hstep, h0 =>
    foldl_preserves P f l (f init x)
      (fun a y hy => hstep a y (List.mem_cons_of_mem _ hy))
      (hstep init x (List.mem_cons_self _ _) h0)

theorem column_step_reach (ns : nsieve_t) (st : mat_state) (col : Nat)
    (h : sweep_reach ns st) : sweep_reach ns (column_step ns st col) := by
  unfold column_step
  apply foldl_preserves (sweep_reach ns) _ _ _ _ h
  intro a y hy ha
  rw [List.mem_range'_1] at hy
  exact sweep_reach.xor_step a col _ y ha (by omega) (by omega)

theorem solve_sweep_reach (ns : nsieve_t) : sweep_reach ns (solve_sweep ns) := by
  unfold solve_sweep
  exact foldl_preserves (sweep_reach ns) _ _ _
    (fun a col _ ha => column_step_reach ns a col ha) sweep_reach.start

/-! ## The GCD probing of the factor deduction -/

theorem out_factors_append (a b : List out_line) :
    out_factors (a ++ b) = out_factors a ++ out_factors b := by
  unfold out_factors
  rw [List.filterMap_append]

theorem out_factors_factor (d : Int) (b : Bool) : out_factors [out_line.factor d b] = [d] := rfl

theorem dep_step_diag (ns : nsieve_t) (h : List Nat) (acc : Option dep_acc) (relnum : Nat)
    (hacc : ∀ a, acc = some a → out_factors a.diag = []) :
    ∀ a, dep_step ns h acc relnum = some a → out_factors a.diag = [] := by
  intro a ha
  unfold dep_step at ha
  split at ha
  · exact absurd ha (by simp)
  · rename_i acc0
    have h0 := hacc acc0 rfl
    split at ha
    · split at ha
      · exact absurd ha (by simp)
      · split at ha
        · exact absurd ha (by simp)
        · split at ha
          · exact absurd ha (by simp)
          · split at ha
            · rw [Option.some_inj] at ha
              subst ha
              exact h0
            · split at ha
              · exact absurd ha (by simp)
              · split at ha
                · exact absurd ha (by simp)
                · rw [Option.some_inj] at ha
                  subst ha
                  show out_factors (acc0.diag ++ _) = []
                  rw [out_factors_append, h0]
                  split <;> rfl
    · rw [Option.some_inj] at ha
      subst ha
      exact h0

theorem dep_values_diag (ns : nsieve_t) (h : List Nat) (a : dep_acc)
    (ha : dep_values ns h = some a) : out_factors a.diag = [] := by
  unfold dep_values at ha
  refine foldl_preserves (fun acc : Option dep_acc => ∀ a, acc = some a → out_factors a.diag = [])
    (dep_step ns h) _ _ (fun acc x _ hacc => dep_step_diag ns h acc x hacc) ?_ a ha
  intro a0 h0
  rw [Option.some_inj] at h0
  subst h0
  rfl

theorem deduce_row_cases (ns : nsieve_t) (prp : Int → Bool) (expm : List (List Nat))
    (ms : mat_state) (ds ds2 : deduce_state) (row : Nat)
    (h : deduce_row ns prp expm ms (some ds) row = some ds2) :
    ds2 = ds ∨ ∃ diags : List out_line, out_factors diags = [] ∧
      (ds2 = { ds with out := ds.out ++ diags } ∨
        ∃ lhs rhs, ds2 = gcd_probe ns prp { ds with out := ds.out ++ diags } lhs rhs) := by
  unfold deduce_row at h
  simp only [] at h
  split at h
  · left; exact (Option.some_inj.mp h).symm
  · split at h
    · split at h
      · exact absurd h (by simp)
      · rename_i acc hacc
        have hd := dep_values_diag ns _ acc hacc
        have hcheck : out_factors
            (if is_zero_vec (mat_check ns expm (ms.history.getD row [])) ns.row_len = true
              then [] else [out_line.check_failed row]) = [] := by
          split <;> rfl
        generalize (if is_zero_vec (mat_check ns expm (ms.history.getD row [])) ns.row_len = true
              then [] else [out_line.check_failed row]) = chk at h hcheck
        split at h
        · right
          refine ⟨chk ++ acc.diag, ?_, Or.inl ?_⟩
          · rw [out_factors_append, hd, hcheck]; rfl
          · rw [← Option.some_inj.mp h, List.append_assoc]
        · right
          rename_i c rhs1 hc heq
          generalize hncd : (if mpz_mod (mpz_mod acc.lhs ns.N * mpz_mod acc.lhs ns.N) ns.N ≠
              mpz_mod (mpz_mod rhs1 ns.N * mpz_mod rhs1 ns.N) ns.N
              then [out_line.not_congruent] else []) = nc at h
          have hnc : out_factors nc = [] := by
            rw [← hncd]
            split <;> rfl
          refine ⟨chk ++ acc.diag ++ nc, ?_,
            Or.inr ⟨mpz_mod acc.lhs ns.N, mpz_mod rhs1 ns.N, ?_⟩⟩
          · rw [out_factors_append, out_factors_append, hd, hcheck, hnc]; rfl
          · rw [← Option.some_inj.mp h, List.append_assoc, List.append_assoc,
              List.append_assoc]
    · left; exact (Option.some_inj.mp h).symm

theorem gcd_probe_prod (ns : nsieve_t) (prp : Int → Bool) (N : Int) (ds : deduce_state)
    (lhs rhs : Int) (h : ProdInv N ds) : ProdInv N (gcd_probe ns prp ds lhs rhs) := by
  unfold gcd_probe
  simp only []
  generalize |((Int.gcd (rhs - lhs) ds.ncopy : Nat) : Int)| = t
  split_ifs with h1 h2 h3 h4 h5 h6 h7
  all_goals first
    | exact h
    | (have hmul : t * mpz_divexact ds.ncopy t = ds.ncopy := Int.mul_ediv_cancel' h3
       constructor
       · simp only [out_factors_append, out_factors_factor, List.prod_append, List.prod_cons,
           List.prod_nil, mul_one]
         rw [mul_assoc, hmul]
         exact h.prod
       · intro _
         first
           | rfl
           | assumption
           | simp_all)

theorem gcd_probe_fac (ns : nsieve_t) (prp : Int → Bool) (ds : deduce_state) (lhs rhs : Int)
    (hN : 0 < ns.N) (hprp : prp 1 = false) (h : FacInv ns.N ds) :
    FacInv ns.N (gcd_probe ns prp ds lhs rhs) := by
  unfold gcd_probe
  simp only []
  generalize |((Int.gcd (rhs - lhs) ds.ncopy : Nat) : Int)| = t
  by_cases h1 : 1 < t
  swap
  · rw [if_neg h1]; exact h
  rw [if_pos h1]
  by_cases h2 : t ≠ ns.N
  swap
  · rw [if_neg h2]; exact h
  rw [if_pos h2]
  by_cases h3 : t ∣ ds.ncopy
  swap
  · rw [if_neg h3]; exact h
  rw [if_pos h3]
  by_cases h4 : prp t = true
  swap
  · rw [if_neg h4]; exact h
  rw [if_pos h4]
  have ht0 : 0 < t := by omega
  have htN : t ∣ ns.N := dvd_trans h3 h.dvd
  have htlt : t < ns.N := lt_of_le_of_ne (Int.le_of_dvd hN htN) h2
  have hmul : t * mpz_divexact ds.ncopy t = ds.ncopy := Int.mul_ediv_cancel' h3
  have hq0 : 0 < mpz_divexact ds.ncopy t := by
    by_contra hq
    have : t * mpz_divexact ds.ncopy t ≤ 0 :=
      Int.mul_nonpos_of_nonneg_of_nonpos ht0.le (not_lt.mp hq)
    have := h.pos
    omega
  have hqd : mpz_divexact ds.ncopy t ∣ ns.N := dvd_trans ⟨t, by rw [mul_comm]; exact hmul.symm⟩ h.dvd
  have hqlt : mpz_divexact ds.ncopy t < ds.ncopy := by
    have : 2 * mpz_divexact ds.ncopy t ≤ t * mpz_divexact ds.ncopy t :=
      Int.mul_le_mul_of_nonneg_right (by omega) hq0.le
    omega
  have hnle : ds.ncopy ≤ ns.N := Int.le_of_dvd hN h.dvd
  have hfac_t : ∀ d ∈ out_factors (ds.out ++ [out_line.factor t true]),
      1 < d ∧ d < ns.N ∧ d ∣ ns.N := by
    intro d hd
    rw [out_factors_append, out_factors_factor, List.mem_append, List.mem_singleton] at hd
    rcases hd with hd | rfl
    · exact h.fac d hd
    · exact ⟨h1, htlt, htN⟩
  have hne_t : out_factors (ds.out ++ [out_line.factor t true]) ≠ [] := by
    rw [out_factors_append, out_factors_factor]; simp
  by_cases h5 : prp (mpz_divexact ds.ncopy t) = true
  · simp only [if_pos h5, if_true]
    have hq1 : mpz_divexact ds.ncopy t ≠ 1 := by
      intro he
      rw [he, hprp] at h5
      exact absurd h5 (by simp)
    refine ⟨by norm_num, one_dvd _, fun he => ?_,
      fun _ => by show (1 : Int) < ns.N; omega, fun d hd => ?_⟩
    · rw [out_factors_append, out_factors_factor] at he
      simp at he
    · rw [out_factors_append, out_factors_factor, List.mem_append, List.mem_singleton] at hd
      rcases hd with hd | rfl
      · exact hfac_t d hd
      · exact ⟨by omega, by omega, hqd⟩
  · simp only [if_neg h5]
    have hql : mpz_divexact ds.ncopy t < ns.N := by omega
    split
    · exact ⟨hq0, hqd, fun he => absurd he hne_t, fun _ => hql, hfac_t⟩
    · exact ⟨hq0, hqd, fun he => absurd he hne_t, fun _ => hql, hfac_t⟩

theorem deduce_row_prod (ns : nsieve_t) (prp : Int → Bool) (expm : List (List Nat))
    (ms : mat_state) (N : Int) (acc : Option deduce_state) (row : Nat)
    (hacc : ∀ ds, acc = some ds → ProdInv N ds) :
    ∀ ds, deduce_row ns prp expm ms acc row = some ds → ProdInv N ds := by
  intro ds2 h
  cases acc with
  | none => exact absurd h (by simp [deduce_row])
  | some ds =>
    have h0 := hacc ds rfl
    rcases deduce_row_cases ns prp expm ms ds ds2 row h with rfl | ⟨diags, hd, rfl | ⟨l, r, rfl⟩⟩
    · exact h0
    · exact ⟨by simpa [out_factors_append, hd] using h0.prod, h0.fin⟩
    · exact gcd_probe_prod ns prp N _ l r
        ⟨by simpa [out_factors_append, hd] using h0.prod, h0.fin⟩

theorem deduce_row_fac (ns : nsieve_t) (prp : Int → Bool) (expm : List (List Nat))
    (ms : mat_state) (hN : 0 < ns.N) (hprp : prp 1 = false) (acc : Option deduce_state)
    (row : Nat) (hacc : ∀ ds, acc = some ds → FacInv ns.N ds) :
    ∀ ds, deduce_row ns prp expm ms acc row = some ds → FacInv ns.N ds := by
  intro ds2 h
  cases acc with
  | none => exact absurd h (by simp [deduce_row])
  | some ds =>
    have h0 := hacc ds rfl
    have happ : ∀ diags : List out_line, out_factors diags = [] →
        FacInv ns.N { ds with out := ds.out ++ diags } := by
      intro diags hd
      have he : out_factors (ds.out ++ diags) = out_factors ds.out := by
        rw [out_factors_append, hd, List.append_nil]
      exact ⟨h0.pos, h0.dvd, fun h1 => h0.first (he ▸ h1), fun h1 => h0.later (he ▸ h1),
        fun d hd1 => h0.fac d (he ▸ hd1)⟩
    rcases deduce_row_cases ns prp expm ms ds ds2 row h with rfl | ⟨diags, hd, rfl | ⟨l, r, rfl⟩⟩
    · exact h0
    · exact happ diags hd
    · exact gcd_probe_fac ns prp _ l r hN hprp (happ diags hd)

theorem deduce_prefix_prod (ns : nsieve_t) (prp : Int → Bool) (n : Nat) (ds : deduce_state)
    (h : deduce_prefix ns prp n = some ds) : ProdInv (mpz_divexact ns.N ns.multiplier) ds := by
  unfold deduce_prefix at h
  refine foldl_preserves
    (fun acc : Option deduce_state =>
      ∀ ds, acc = some ds → ProdInv (mpz_divexact ns.N ns.multiplier) ds)
    _ _ _ (fun acc x _ hacc => deduce_row_prod _ prp _ _ _ acc x hacc) ?_ ds h
  intro d0 h0
  rw [← Option.some_inj.mp h0]
  exact ⟨by simp [out_factors], fun hf => absurd hf (by simp)⟩

theorem deduce_prefix_fac (ns : nsieve_t) (prp : Int → Bool)
    (hN : 0 < mpz_divexact ns.N ns.multiplier) (hprp : prp 1 = false) (n : Nat)
    (ds : deduce_state) (h : deduce_prefix ns prp n = some ds) :
    FacInv (mpz_divexact ns.N ns.multiplier) ds := by
  unfold deduce_prefix at h
  refine foldl_preserves
    (fun acc : Option deduce_state =>
      ∀ ds, acc = some ds → FacInv (mpz_divexact ns.N ns.multiplier) ds)
    _ _ _
    (fun acc x _ hacc =>
      deduce_row_fac { ns with N := mpz_divexact ns.N ns.multiplier } prp _ _ hN hprp acc x hacc)
    ?_ ds h
  intro d0 h0
  rw [← Option.some_inj.mp h0]
  exact ⟨hN, dvd_refl _, fun _ => rfl, fun hne => absurd rfl hne, fun d hd => by
    simp [out_factors] at hd⟩

theorem foldl_none {α : Type} (f : Option deduce_state → α → Option deduce_state)
    (hf : ∀ x, f none x = none) : ∀ l : List α, l.foldl f none = none
  | [] => rfl
  | x :: l => by rw [List.foldl_cons, hf, foldl_none f hf l]

theorem foldl_some_prefix {α : Type} (f : Option deduce_state → α → Option deduce_state)
    (hf : ∀ x, f none x = none) (init : Option deduce_state) (l1 l2 : List α)
    (ds : deduce_state) (h : (l1 ++ l2).foldl f init = some ds) :
    ∃ d, l1.foldl f init = some d := by
  cases hp : l1.foldl f init with
  | some d => exact ⟨d, rfl⟩
  | none =>
    rw [List.foldl_append, hp, foldl_none f hf] at h
    exact absurd h (by simp)

theorem deduce_prefix_defined (ns : nsieve_t) (prp : Int → Bool) (ds : deduce_state)
    (h : deduce_prefix ns prp ns.rels_needed = some ds) (n : Nat) (hn : n ≤ ns.rels_needed) :
    ∃ d, deduce_prefix ns prp n = some d := by
  unfold deduce_prefix at h ⊢
  have e : List.range ns.rels_needed
      = List.range n ++ List.range' n (ns.rels_needed - n) := by
    have h1 := List.range'_append_1 0 n (ns.rels_needed - n)
    rw [Nat.zero_add] at h1
    rw [List.range_eq_range', List.range_eq_range', h1]
    congr 1
    omega
  rw [e] at h
  exact foldl_some_prefix _ (fun x => rfl) _ _ _ ds h

theorem solve_matrix_some (ns : nsieve_t) (prp : Int → Bool) (out : List out_line)
    (h : solve_matrix ns prp = some out) :
    ∃ ds, deduce_prefix ns prp ns.rels_needed = some ds ∧ out = deduce_final prp ds := by
  unfold solve_matrix at h
  rw [Option.map_eq_some'] at h
  obtain ⟨ds, hds, hout⟩ := h
  exact ⟨ds, hds, hout.symm⟩

/-! ## Claims about the reported factors -/

/-- C6 as stated fails: on `N = 15` with 49 rows that all give the trivial GCD, the run prints
the single line `15 (c)`, and `15 < N` is false. -/
theorem factor_deduction_prints_whole_N :
    solve_matrix ns_trivial trial_prime = some [out_line.factor 15 false] ∧
    ¬ ∀ d ∈ out_factors [out_line.factor 15 false],
        1 < d ∧ d < mpz_divexact ns_trivial.N ns_trivial.multiplier ∧
          d ∣ mpz_divexact ns_trivial.N ns_trivial.multiplier := by
  refine ⟨by set_option maxRecDepth 100000 in decide, fun h => ?_⟩
  have := (h 15 (by decide)).2.1
  exact absurd this (by decide)

/-- C6, amended: with `N` the input divided by the multiplier, every factor `d` that the factor
deduction prints satisfies `1 < d ≤ N` and `d ∣ N`; every factor printed in the loop over the
zero rows satisfies `d < N`, and so does the remaining cofactor printed after the last row when
the loop printed a factor; when the loop printed none, the remaining cofactor is `N` itself. -/
theorem factor_deduction_factors (ns : nsieve_t) (prp : Int → Bool) (out : List out_line)
    (hN : 0 < mpz_divexact ns.N ns.multiplier) (hprp : prp 1 = false)
    (h : solve_matrix ns prp = some out) :
    (∀ d ∈ out_factors out,
      1 < d ∧ d ≤ mpz_divexact ns.N ns.multiplier ∧ d ∣ mpz_divexact ns.N ns.multiplier) ∧
    ∃ ds, deduce_prefix ns prp ns.rels_needed = some ds ∧ out = deduce_final prp ds ∧
      (∀ d ∈ out_factors ds.out, d < mpz_divexact ns.N ns.multiplier) ∧
      (out_factors ds.out ≠ [] → ∀ d ∈ out_factors out, d < mpz_divexact ns.N ns.multiplier) ∧
      (out_factors ds.out = [] → ∀ d ∈ out_factors out, d = mpz_divexact ns.N ns.multiplier) := by
  obtain ⟨ds, hds, rfl⟩ := solve_matrix_some ns prp out h
  have hinv := deduce_prefix_fac ns prp hN hprp _ ds hds
  have hle : ds.ncopy ≤ mpz_divexact ns.N ns.multiplier := Int.le_of_dvd hN hinv.dvd
  have hmem : ∀ d ∈ out_factors (deduce_final prp ds),
      d ∈ out_factors ds.out ∨ (d = ds.ncopy ∧ ds.ncopy ≠ 1) := by
    intro d hd
    unfold deduce_final at hd
    split at hd
    · exact Or.inl hd
    · split at hd
      · rename_i hne
        rw [out_factors_append, out_factors_factor, List.mem_append, List.mem_singleton] at hd
        exact hd.imp id fun he => ⟨he, hne⟩
      · exact Or.inl hd
  refine ⟨fun d hd => ?_, ds, hds, rfl, fun d hd => (hinv.fac d hd).2.1, fun hne d hd => ?_,
    fun he d hd => ?_⟩
  · rcases hmem d hd with h1 | ⟨rfl, hne⟩
    · exact ⟨(hinv.fac d h1).1, (hinv.fac d h1).2.1.le, (hinv.fac d h1).2.2⟩
    · have := hinv.pos
      exact ⟨by omega, hle, hinv.dvd⟩
  · rcases hmem d hd with h1 | ⟨rfl, _⟩
    · exact (hinv.fac d h1).2.1
    · exact hinv.later hne
  · rcases hmem d hd with h1 | ⟨rfl, _⟩
    · rw [he] at h1
      exact absurd h1 (List.not_mem_nil d)
    · exact hinv.first he

set_option maxRecDepth 100000 in
theorem factor_deduction_factors_witness :
    solve_matrix ns_1649 trial_prime
      = some [out_line.factor 17 true, out_line.factor 97 true] ∧
    ∀ d ∈ out_factors [out_line.factor 17 true, out_line.factor 97 true],
      1 < d ∧ d ≤ mpz_divexact ns_1649.N ns_1649.multiplier ∧
        d ∣ mpz_divexact ns_1649.N ns_1649.multiplier :=
  ⟨by decide,
   (factor_deduction_factors ns_1649 trial_prime
      [out_line.factor 17 true, out_line.factor 97 true] (by decide) (by decide)
      (by decide)).1⟩

/-- C7: in every run of the factor deduction, the product of all printed factors equals
`N / multiplier`; the product of the factors printed so far times `ncopy` equals
`N / multiplier` before and after every row is processed; and the phase ends with `ncopy = 1`
or with `ncopy` printed. -/
theorem factor_deduction_product (ns : nsieve_t) (prp : Int → Bool) (out : List out_line)
    (h : solve_matrix ns prp = some out) :
    (out_factors out).prod = mpz_divexact ns.N ns.multiplier ∧
    (∀ n, n ≤ ns.rels_needed → ∃ ds, deduce_prefix ns prp n = some ds ∧
      (out_factors ds.out).prod * ds.ncopy = mpz_divexact ns.N ns.multiplier) ∧
    ∃ ds, deduce_prefix ns prp ns.rels_needed = some ds ∧ out = deduce_final prp ds ∧
      (ds.ncopy = 1 ∨ ds.ncopy ∈ out_factors out) := by
  obtain ⟨ds, hds, rfl⟩ := solve_matrix_some ns prp out h
  have hinv := deduce_prefix_prod ns prp _ ds hds
  refine ⟨?_, fun n hn => ?_, ds, hds, rfl, ?_⟩
  · unfold deduce_final
    split
    · rename_i hf
      have := hinv.prod
      rwa [hinv.fin hf, mul_one] at this
    · split
      · rw [out_factors_append, out_factors_factor, List.prod_append, List.prod_singleton]
        exact hinv.prod
      · rename_i h1
        have := hinv.prod
        rwa [not_not.mp h1, mul_one] at this
  · obtain ⟨d, hd⟩ := deduce_prefix_defined ns prp ds hds n hn
    exact ⟨d, hd, (deduce_prefix_prod ns prp n d hd).prod⟩
  · unfold deduce_final
    split
    · rename_i hf
      exact Or.inl (hinv.fin hf)
    · split
      · right
        rw [out_factors_append, out_factors_factor]
        simp
      · rename_i h1
        exact Or.inl (not_not.mp h1)

set_option maxRecDepth 100000 in
theorem factor_deduction_product_witness :
    solve_matrix ns_1649 trial_prime
      = some [out_line.factor 17 true, out_line.factor 97 true] ∧
    (out_factors [out_line.factor 17 true, out_line.factor 97 true]).prod
      = mpz_divexact ns_1649.N ns_1649.multiplier :=
  ⟨by decide,
   (factor_deduction_product ns_1649 trial_prime
      [out_line.factor 17 true, out_line.factor 97 true] (by decide)).1⟩

/-! ## The congruence of squares -/

theorem multiply_in_lhs_valid (ns : nsieve_t) (hN : 0 < ns.N) (lhs : Int) (rel : rel_t)
    (hv : rel_valid ns rel) :
    ∃ l, multiply_in_lhs lhs rel ns = some l ∧
      l ^ 2 ≡ lhs ^ 2 * ((rel.factors.map (fac_value ns)).prod * (rel.cofactor : Int))
        [ZMOD ns.N] := by
  obtain ⟨q, v, p, hctx, hqa, hcop, hp, hq, hprod, _⟩ := hv
  have hNn : ns.N = ((ns.N.toNat : Nat) : Int) := (Int.toNat_of_nonneg hN.le).symm
  obtain ⟨t, ht⟩ := mpz_invert_exists p.a ns.N.toNat (by omega) (by rw [← hNn]; exact hcop)
  rw [← hNn] at ht
  have hts : p.a * t ≡ 1 [ZMOD ns.N] := (mpz_invert_spec ht).1
  refine ⟨mpz_mod (lhs * (v.x * p.a + p.b) * (rel.x * q.a + q.b) * t) ns.N, ?_, ?_⟩
  · unfold multiply_in_lhs
    rw [hctx]
    simp only [ht]
  · have h1 : (v.x * p.a + p.b) ^ 2 ≡ p.a * poly_at p v.x [ZMOD ns.N] := by
      have := (Int.modEq_iff_dvd.mp hp)
      apply Int.ModEq.symm
      rw [Int.modEq_iff_dvd]
      have e : (v.x * p.a + p.b) ^ 2 - p.a * poly_at p v.x = p.b ^ 2 - p.a * p.c := by
        unfold poly_at; ring
      rw [e]; exact this
    have h2 : (rel.x * q.a + q.b) ^ 2 ≡ p.a * poly_at q rel.x [ZMOD ns.N] := by
      have := (Int.modEq_iff_dvd.mp hq)
      apply Int.ModEq.symm
      rw [Int.modEq_iff_dvd]
      have e : (rel.x * q.a + q.b) ^ 2 - p.a * poly_at q rel.x = q.b ^ 2 - q.a * q.c := by
        unfold poly_at; rw [← hqa]; ring
      rw [e]; exact this
    have h3 : mpz_mod (lhs * (v.x * p.a + p.b) * (rel.x * q.a + q.b) * t) ns.N
        ≡ lhs * (v.x * p.a + p.b) * (rel.x * q.a + q.b) * t [ZMOD ns.N] := Int.mod_modEq _ _
    calc mpz_mod (lhs * (v.x * p.a + p.b) * (rel.x * q.a + q.b) * t) ns.N ^ 2
        ≡ (lhs * (v.x * p.a + p.b) * (rel.x * q.a + q.b) * t) ^ 2 [ZMOD ns.N] := h3.pow 2
      _ = lhs ^ 2 * ((v.x * p.a + p.b) ^ 2 * (rel.x * q.a + q.b) ^ 2) * t ^ 2 := by ring
      _ ≡ lhs ^ 2 * ((p.a * poly_at p v.x) * (p.a * poly_at q rel.x)) * t ^ 2 [ZMOD ns.N] :=
          ((h1.mul h2).mul_left _).mul_right _
      _ = lhs ^ 2 * (poly_at p v.x * poly_at q rel.x) * (p.a * t) ^ 2 := by ring
      _ ≡ lhs ^ 2 * (poly_at p v.x * poly_at q rel.x) * 1 ^ 2 [ZMOD ns.N] :=
          (hts.pow 2).mul_left _
      _ = lhs ^ 2 * ((rel.factors.map (fac_value ns)).prod * (rel.cofactor : Int)) := by
          rw [hprod]; ring

theorem add_factors_fold (L : Nat) :
    ∀ (factors : List Nat) (table fl : List Nat), table.length = L + 1 →
      (∀ f ∈ factors, f ≤ L) →
      (∀ i, i ≤ L → table.getD i 0 = fl.count i % 65536) →
      (factors.foldl (fun t fac => t.set fac ((t.getD fac 0 + 1) % 65536)) table).length
        = L + 1 ∧
      ∀ i, i ≤ L →
        (factors.foldl (fun t fac => t.set fac ((t.getD fac 0 + 1) % 65536)) table).getD i 0
          = (fl ++ factors).count i % 65536
  | [], table, fl, hl, _, ht => by
    rw [List.append_nil]
    exact ⟨hl, ht⟩
  | f :: rest, table, fl, hl, hf, ht => by
    have hfL : f ≤ L := hf f (List.mem_cons_self _ _)
    have := add_factors_fold L rest (table.set f ((table.getD f 0 + 1) % 65536)) (fl ++ [f])
      (by simpa using hl) (fun g hg => hf g (List.mem_cons_of_mem _ hg))
      (fun i hi => by
        rw [getD_set_nat _ _ _ _ (by omega), List.count_append]
        by_cases hif : i = f
        · subst hif
          rw [if_pos rfl, ht i hi]
          simp [Nat.add_mod]
        · rw [if_neg hif, ht i hi]
          have : List.count i [f] = 0 := by
            rw [List.count_eq_zero]
            simpa using hif
          rw [this, Nat.add_zero])
    rw [List.append_assoc] at this
    exact this

theorem add_factors_inv (ns : nsieve_t) (fl : List Nat) (table : List Nat) (rel : rel_t)
    (hl : table.length = ns.fb_len + 1) (hf : ∀ f ∈ rel.factors, f ≤ ns.fb_len)
    (ht : ∀ i, i ≤ ns.fb_len → table.getD i 0 = fl.count i % 65536) :
    (add_factors_to_table table rel).length = ns.fb_len + 1 ∧
    ∀ i, i ≤ ns.fb_len →
      (add_factors_to_table table rel).getD i 0 = (fl ++ rel.factors).count i % 65536 :=
  add_factors_fold ns.fb_len rel.factors table fl hl hf ht

theorem dep_step_inv (ns : nsieve_t) (hN : 0 < ns.N) (h : List Nat) (hv : dep_valid ns h)
    (relnum : Nat) (hr : relnum < ns.rels_needed) (acc : dep_acc)
    (hinv : DepInv ns (dep_factors ns h relnum) acc) :
    ∃ acc2, dep_step ns h (some acc) relnum = some acc2 ∧
      DepInv ns (dep_factors ns h (relnum + 1)) acc2 := by
  unfold dep_step
  simp only [dep_factors]
  by_cases hb : get_bit h relnum = 1
  swap
  · simp only [if_neg hb, List.append_nil]
    exact ⟨acc, rfl, hinv⟩
  simp only [if_pos hb]
  obtain ⟨m, r1, hm, hr1, hv1, hr2⟩ := hv relnum hr hb
  obtain ⟨l1, hl1, hsq1⟩ := multiply_in_lhs_valid ns hN acc.lhs r1 hv1
  have hidx1 : ∀ f ∈ r1.factors, f ≤ ns.fb_len := by
    obtain ⟨_, _, _, _, _, _, _, _, _, hf⟩ := hv1
    exact hf
  obtain ⟨hlen1, htab1⟩ := add_factors_inv ns _ acc.table r1 hinv.len hidx1 hinv.tab
  have hmf : matrel_factors ns relnum = r1.factors ++
      (match m.r2 with
        | none => []
        | some i2 =>
          match ns.rels[i2]? with
          | none => []
          | some r2 => r2.factors) := by
    unfold matrel_factors
    rw [hm]
    simp only [hr1]
  rw [hmf]
  simp only [hm, hr1, hl1]
  cases hm2 : m.r2 with
  | none =>
    rw [hm2] at hr2
    simp only [] at hr2
    simp only [List.append_nil]
    refine ⟨_, rfl, ?_, hlen1, htab1, ?_⟩
    · show l1 ^ 2 ≡ acc.rhs ^ 2 * _ [ZMOD ns.N]
      rw [List.map_append, List.prod_append]
      rw [hr2, Nat.cast_one, mul_one] at hsq1
      calc l1 ^ 2 ≡ acc.lhs ^ 2 * (r1.factors.map (fac_value ns)).prod [ZMOD ns.N] := hsq1
        _ ≡ acc.rhs ^ 2 * ((dep_factors ns h relnum).map (fac_value ns)).prod *
              (r1.factors.map (fac_value ns)).prod [ZMOD ns.N] := hinv.sq.mul_right _
        _ = _ := by ring
    · intro f hf
      rw [List.mem_append] at hf
      rcases hf with hf | hf
      · exact hinv.idx f hf
      · exact hidx1 f hf
  | some i2 =>
    rw [hm2] at hr2
    simp only [] at hr2
    obtain ⟨r2, hr2l, hv2, hcof⟩ := hr2
    obtain ⟨l2, hl2, hsq2⟩ := multiply_in_lhs_valid ns hN l1 r2 hv2
    have hidx2 : ∀ f ∈ r2.factors, f ≤ ns.fb_len := by
      obtain ⟨_, _, _, _, _, _, _, _, _, hf⟩ := hv2
      exact hf
    obtain ⟨hlen2, htab2⟩ := add_factors_inv ns _ _ r2 hlen1 hidx2 htab1
    simp only [hr2l, hl2]
    refine ⟨_, rfl, ?_, hlen2, ?_, ?_⟩
    · show l2 ^ 2 ≡ (acc.rhs * (r1.cofactor : Int)) ^ 2 * _ [ZMOD ns.N]
      rw [List.map_append, List.map_append, List.prod_append, List.prod_append]
      calc l2 ^ 2 ≡ l1 ^ 2 * ((r2.factors.map (fac_value ns)).prod * (r2.cofactor : Int))
              [ZMOD ns.N] := hsq2
        _ ≡ acc.lhs ^ 2 * ((r1.factors.map (fac_value ns)).prod * (r1.cofactor : Int)) *
              ((r2.factors.map (fac_value ns)).prod * (r2.cofactor : Int)) [ZMOD ns.N] :=
            hsq1.mul_right _
        _ ≡ acc.rhs ^ 2 * ((dep_factors ns h relnum).map (fac_value ns)).prod *
              ((r1.factors.map (fac_value ns)).prod * (r1.cofactor : Int)) *
              ((r2.factors.map (fac_value ns)).prod * (r2.cofactor : Int)) [ZMOD ns.N] :=
            (hinv.sq.mul_right _).mul_right _
        _ = _ := by rw [← hcof]; ring
    · intro i hi
      rw [htab2 i hi, List.append_assoc]
    · intro f hf
      rw [List.mem_append, List.mem_append] at hf
      rcases hf with hf | hf | hf
      · exact hinv.idx f hf
      · exact hidx1 f hf
      · exact hidx2 f hf

theorem dep_fold_inv (ns : nsieve_t) (hN : 0 < ns.N) (h : List Nat) (hv : dep_valid ns h) :
    ∀ n, n ≤ ns.rels_needed →
      ∃ acc, (List.range n).foldl (dep_step ns h)
          (some { lhs := 1, rhs := 1, table := List.replicate (ns.fb_len + 1) 0, diag := [] })
            = some acc ∧ DepInv ns (dep_factors ns h n) acc
  | 0, _ => by
    refine ⟨_, rfl, ?_, by simp, fun i _ => ?_, fun f hf => by simp [dep_factors] at hf⟩
    · simp [dep_factors]
    · show (List.replicate (ns.fb_len + 1) 0).getD i 0 = _
      rw [getD_replicate_zero]
      simp [dep_factors]
  | n + 1, hn => by
    obtain ⟨acc, hacc, hinv⟩ := dep_fold_inv ns hN h hv n (by omega)
    obtain ⟨acc2, h2, hinv2⟩ := dep_step_inv ns hN h hv n (by omega) acc hinv
    exact ⟨acc2, by rw [List.range_succ, List.foldl_append, hacc]; exact h2, hinv2⟩

theorem construct_rhs_loop_sq (table : List Nat) (ns : nsieve_t) :
    ∀ (l : List Nat) (rhs : Int) (c : Nat) (rhs1 : Int),
      construct_rhs_loop table ns l rhs = (c, rhs1) → c ≠ 0 →
      (∀ i ∈ l, table.getD i 0 % 2 = 0) ∧
      rhs1 ^ 2 ≡ rhs ^ 2 *
        (l.map fun i => (((ns.fb.getD (i - 1) 0 : Nat) : Int)) ^ (table.getD i 0)).prod
        [ZMOD ns.N]
  | [], rhs, c, rhs1, h, _ => by
    unfold construct_rhs_loop at h
    rw [Prod.mk.injEq] at h
    refine ⟨fun i hi => absurd hi (List.not_mem_nil i), ?_⟩
    rw [← h.2]
    simp
  | i :: rest, rhs, c, rhs1, h, hc => by
    unfold construct_rhs_loop at h
    by_cases hodd : table.getD i 0 % 2 ≠ 0
    · rw [if_pos hodd, Prod.mk.injEq] at h
      exact absurd h.1.symm hc
    rw [if_neg hodd] at h
    have heven : table.getD i 0 % 2 = 0 := not_not.mp hodd
    have h2t : 2 * (table.getD i 0 / 2) = table.getD i 0 := by omega
    by_cases hpos : table.getD i 0 > 0
    · rw [if_pos hpos] at h
      obtain ⟨hall, hsq⟩ := construct_rhs_loop_sq table ns rest _ c rhs1 h hc
      refine ⟨fun j hj => ?_, ?_⟩
      · rcases List.mem_cons.mp hj with rfl | hj
        · exact heven
        · exact hall j hj
      · rw [List.map_cons, List.prod_cons]
        have hm : mpz_mod (rhs * ((ns.fb.getD (i - 1) 0 : Nat) : Int) ^ (table.getD i 0 / 2))
            ns.N ≡ rhs * ((ns.fb.getD (i - 1) 0 : Nat) : Int) ^ (table.getD i 0 / 2)
              [ZMOD ns.N] := Int.mod_modEq _ _
        calc rhs1 ^ 2 ≡ _ [ZMOD ns.N] := hsq
          _ ≡ (rhs * ((ns.fb.getD (i - 1) 0 : Nat) : Int) ^ (table.getD i 0 / 2)) ^ 2 *
                (rest.map fun i =>
                  (((ns.fb.getD (i - 1) 0 : Nat) : Int)) ^ (table.getD i 0)).prod
                [ZMOD ns.N] := (hm.pow 2).mul_right _
          _ = _ := by
            rw [mul_pow, ← pow_mul, Nat.mul_comm, h2t]
            ring
    · rw [if_neg hpos] at h
      obtain ⟨hall, hsq⟩ := construct_rhs_loop_sq table ns rest _ c rhs1 h hc
      have h0 : table.getD i 0 = 0 := by omega
      refine ⟨fun j hj => ?_, ?_⟩
      · rcases List.mem_cons.mp hj with rfl | hj
        · exact heven
        · exact hall j hj
      · rw [List.map_cons, List.prod_cons, h0, pow_zero, one_mul]
        exact hsq

theorem construct_rhs_sq (table : List Nat) (rhs : Int) (ns : nsieve_t) (c : Nat) (rhs1 : Int)
    (h : construct_rhs table rhs ns = (c, rhs1)) (hc : c ≠ 0) :
    table.getD 0 0 % 2 = 0 ∧ (∀ i ∈ List.range' 1 ns.fb_len, table.getD i 0 % 2 = 0) ∧
    rhs1 ^ 2 ≡ rhs ^ 2 *
      ((List.range' 1 ns.fb_len).map fun i =>
        (((ns.fb.getD (i - 1) 0 : Nat) : Int)) ^ (table.getD i 0)).prod [ZMOD ns.N] := by
  unfold construct_rhs at h
  by_cases hodd : table.getD 0 0 % 2 ≠ 0
  · rw [if_pos hodd, Prod.mk.injEq] at h
    exact absurd h.1.symm hc
  rw [if_neg hodd] at h
  obtain ⟨hall, hsq⟩ := construct_rhs_loop_sq table ns _ _ c rhs1 h hc
  refine ⟨not_not.mp hodd, hall, ?_⟩
  have e : (if table.getD 0 0 / 2 % 2 = 1 then -rhs else rhs) ^ 2 = rhs ^ 2 := by
    split
    · ring
    · rfl
  rwa [e] at hsq

theorem prod_pow_indicator (g : Nat → Int) (f : Nat) :
    ∀ idx : List Nat, idx.Nodup → f ∈ idx →
      (idx.map fun i => g i ^ (if i = f then 1 else 0)).prod = g f
  | [], _, hf => absurd hf (List.not_mem_nil f)
  | i :: rest, hn, hf => by
    rw [List.map_cons, List.prod_cons]
    have hn' := List.nodup_cons.mp hn
    by_cases hif : i = f
    · subst hif
      have hz : (rest.map fun j => g j ^ (if j = i then 1 else 0)).prod = 1 := by
        apply List.prod_eq_one
        intro x hx
        obtain ⟨j, hj, rfl⟩ := List.mem_map.mp hx
        have : j ≠ i := fun e => hn'.1 (e ▸ hj)
        rw [if_neg this, pow_zero]
      rw [hz, if_pos rfl, pow_one, mul_one]
    · have hf' : f ∈ rest := by
        rcases List.mem_cons.mp hf with e | e
        · exact absurd e.symm hif
        · exact e
      rw [if_neg hif, pow_zero, one_mul]
      exact prod_pow_indicator g f rest hn'.2 hf'

theorem prod_map_eq_prod_count (g : Nat → Int) (idx : List Nat) (hn : idx.Nodup) :
    ∀ fl : List Nat, (∀ f ∈ fl, f ∈ idx) →
      (fl.map g).prod = (idx.map fun i => g i ^ fl.count i).prod
  | [], _ => by
    simp
  | f :: rest, hf => by
    rw [List.map_cons, List.prod_cons,
      prod_map_eq_prod_count g idx hn rest (fun x hx => hf x (List.mem_cons_of_mem _ hx)),
      ← prod_pow_indicator g f idx hn (hf f (List.mem_cons_self _ _)), ← List.prod_map_mul]
    congr 1
    apply List.map_congr_left
    intro i _
    rw [List.count_cons, ← pow_add, Nat.add_comm]
    congr 2
    by_cases h : f = i
    · simp [h]
    · have h2 : ¬ i = f := fun e => h e.symm
      simp [h, h2]

theorem dep_values_inv (ns : nsieve_t) (hN : 0 < ns.N) (h : List Nat) (hv : dep_valid ns h) :
    ∃ acc, dep_values ns h = some acc ∧ DepInv ns (dep_factors ns h ns.rels_needed) acc :=
  dep_fold_inv ns hN h hv ns.rels_needed le_rfl

theorem squares_of_inv (ns : nsieve_t) (fl : List Nat) (acc : dep_acc) (hinv : DepInv ns fl acc)
    (hcount : ∀ i, fl.count i < 65536) (c : Nat) (rhs1 : Int)
    (hc : construct_rhs acc.table acc.rhs ns = (c, rhs1)) (hc0 : c ≠ 0) :
    mpz_mod (mpz_mod acc.lhs ns.N * mpz_mod acc.lhs ns.N) ns.N
      = mpz_mod (mpz_mod rhs1 ns.N * mpz_mod rhs1 ns.N) ns.N := by
  obtain ⟨h0, hall, hsq⟩ := construct_rhs_sq acc.table acc.rhs ns c rhs1 hc hc0
  have htab : ∀ i, i ≤ ns.fb_len → acc.table.getD i 0 = fl.count i := by
    intro i hi
    rw [hinv.tab i hi, Nat.mod_eq_of_lt (hcount i)]
  have hnd : (0 :: List.range' 1 ns.fb_len).Nodup := by
    rw [List.nodup_cons]
    refine ⟨fun hm => ?_, List.nodup_range' 1 ns.fb_len⟩
    rw [List.mem_range'_1] at hm
    omega
  have hmem : ∀ f ∈ fl, f ∈ 0 :: List.range' 1 ns.fb_len := by
    intro f hf
    have := hinv.idx f hf
    rw [List.mem_cons, List.mem_range'_1]
    omega
  have hprod := prod_map_eq_prod_count (fac_value ns) _ hnd fl hmem
  rw [List.map_cons, List.prod_cons] at hprod
  have hsign : fac_value ns 0 ^ fl.count 0 = 1 := by
    have he : Even (fl.count 0) := by
      rw [← htab 0 (Nat.zero_le _)]
      exact Nat.even_iff.mpr h0
    show (if (0 : Nat) = 0 then (-1 : Int) else _) ^ fl.count 0 = 1
    rw [if_pos rfl]
    exact he.neg_one_pow
  have hrest : ((List.range' 1 ns.fb_len).map fun i => fac_value ns i ^ fl.count i)
      = ((List.range' 1 ns.fb_len).map fun i =>
          (((ns.fb.getD (i - 1) 0 : Nat) : Int)) ^ (acc.table.getD i 0)) := by
    apply List.map_congr_left
    intro i hi
    rw [List.mem_range'_1] at hi
    rw [htab i (by omega)]
    unfold fac_value
    rw [if_neg (by omega)]
  rw [hsign, one_mul, hrest] at hprod
  have hfinal : acc.lhs ^ 2 ≡ rhs1 ^ 2 [ZMOD ns.N] := by
    have := hinv.sq
    rw [hprod] at this
    exact this.trans hsq.symm
  have e1 : mpz_mod acc.lhs ns.N * mpz_mod acc.lhs ns.N ≡ acc.lhs ^ 2 [ZMOD ns.N] := by
    rw [pow_two]
    exact Int.ModEq.mul (Int.mod_modEq _ _) (Int.mod_modEq _ _)
  have e2 : mpz_mod rhs1 ns.N * mpz_mod rhs1 ns.N ≡ rhs1 ^ 2 [ZMOD ns.N] := by
    rw [pow_two]
    exact Int.ModEq.mul (Int.mod_modEq _ _) (Int.mod_modEq _ _)
  exact (e1.trans hfinal).trans e2.symm

/-! ## The diagnostics among the printed lines -/

theorem dep_step_diag_lines (ns : nsieve_t) (h : List Nat) (acc : Option dep_acc) (relnum : Nat)
    (L : out_line) (hL : ∀ c1 c2, L ≠ out_line.cofactors_disagree c1 c2)
    (hacc : ∀ a, acc = some a → L ∉ a.diag) :
    ∀ a, dep_step ns h acc relnum = some a → L ∉ a.diag := by
  intro a ha
  unfold dep_step at ha
  split at ha
  · exact absurd ha (by simp)
  · rename_i acc0
    have h0 := hacc acc0 rfl
    split at ha
    · split at ha
      · exact absurd ha (by simp)
      · split at ha
        · exact absurd ha (by simp)
        · split at ha
          · exact absurd ha (by simp)
          · split at ha
            · rw [Option.some_inj] at ha
              subst ha
              exact h0
            · split at ha
              · exact absurd ha (by simp)
              · split at ha
                · exact absurd ha (by simp)
                · rw [Option.some_inj] at ha
                  subst ha
                  show L ∉ acc0.diag ++ _
                  rw [List.mem_append]
                  rintro (hm | hm)
                  · exact h0 hm
                  · split at hm
                    · rw [List.mem_singleton] at hm
                      exact hL _ _ hm
                    · exact absurd hm (List.not_mem_nil _)
    · rw [Option.some_inj] at ha
      subst ha
      exact h0

theorem dep_values_diag_lines (ns : nsieve_t) (h : List Nat) (a : dep_acc)
    (L : out_line) (hL : ∀ c1 c2, L ≠ out_line.cofactors_disagree c1 c2)
    (ha : dep_values ns h = some a) : L ∉ a.diag := by
  unfold dep_values at ha
  refine foldl_preserves
    (fun acc : Option dep_acc => ∀ a, acc = some a → L ∉ a.diag)
    (dep_step ns h) _ _ (fun acc x _ hacc => dep_step_diag_lines ns h acc x L hL hacc) ?_ a ha
  intro a0 h0
  rw [Option.some_inj] at h0
  subst h0
  exact List.not_mem_nil _

theorem gcd_probe_out (ns : nsieve_t) (prp : Int → Bool) (ds : deduce_state) (lhs rhs : Int)
    (L : out_line) (hL : ∀ d b, L ≠ out_line.factor d b) (hq : L ∉ ds.out) :
    L ∉ (gcd_probe ns prp ds lhs rhs).out := by
  unfold gcd_probe
  simp only []
  generalize |((Int.gcd (rhs - lhs) ds.ncopy : Nat) : Int)| = t
  split_ifs <;> simp [hq, hL]

theorem deduce_row_quiet (ns : nsieve_t) (prp : Int → Bool) (expm : List (List Nat))
    (ms : mat_state) (ds ds2 : deduce_state) (row : Nat) (acc : dep_acc)
    (hacc : dep_values ns (ms.history.getD row []) = some acc)
    (hsq : ∀ c rhs1, construct_rhs acc.table acc.rhs ns = (c, rhs1) → c ≠ 0 →
      mpz_mod (mpz_mod acc.lhs ns.N * mpz_mod acc.lhs ns.N) ns.N
        = mpz_mod (mpz_mod rhs1 ns.N * mpz_mod rhs1 ns.N) ns.N)
    (hq : out_line.not_congruent ∉ ds.out)
    (h : deduce_row ns prp expm ms (some ds) row = some ds2) :
    out_line.not_congruent ∉ ds2.out := by
  have hd := dep_values_diag_lines ns _ acc out_line.not_congruent (by simp) hacc
  unfold deduce_row at h
  simp only [hacc] at h
  split at h
  · rw [← Option.some_inj.mp h]; exact hq
  · split at h
    · have hchk : out_line.not_congruent ∉
          (if is_zero_vec (mat_check ns expm (ms.history.getD row [])) ns.row_len = true
            then [] else [out_line.check_failed row]) := by
        split
        · exact List.not_mem_nil _
        · rw [List.mem_singleton]; simp
      split at h
      · rw [← Option.some_inj.mp h]
        show out_line.not_congruent ∉ ds.out ++ _ ++ acc.diag
        simp only [List.mem_append, not_or]
        exact ⟨⟨hq, hchk⟩, hd⟩
      · rename_i c rhs1 hc0 hc
        rw [← Option.some_inj.mp h]
        apply gcd_probe_out _ _ _ _ _ _ (by simp)
        show out_line.not_congruent ∉ ds.out ++ _ ++ acc.diag ++ _
        rw [if_neg (not_not.mpr (hsq c rhs1 hc hc0))]
        simp only [List.mem_append, not_or]
        exact ⟨⟨⟨hq, hchk⟩, hd⟩, List.not_mem_nil _⟩
    · rw [← Option.some_inj.mp h]; exact hq

theorem deduce_row_check (ns : nsieve_t) (prp : Int → Bool) (expm : List (List Nat))
    (ms : mat_state) (acc : Option deduce_state) (row r : Nat)
    (hchk : is_zero_vec (ms.rows.getD row []) ns.row_len = true →
      is_zero_vec (mat_check ns expm (ms.history.getD row [])) ns.row_len = true)
    (hq : ∀ ds, acc = some ds → out_line.check_failed r ∉ ds.out) :
    ∀ ds2, deduce_row ns prp expm ms acc row = some ds2 →
      out_line.check_failed r ∉ ds2.out := by
  intro ds2 h
  unfold deduce_row at h
  split at h
  · exact absurd h (by simp)
  rename_i ds
  have hq0 := hq ds rfl
  simp only [] at h
  split at h
  · rw [← Option.some_inj.mp h]; exact hq0
  · split at h
    · rename_i hz
      rw [if_pos (hchk hz), List.append_nil] at h
      split at h
      · exact absurd h (by simp)
      · rename_i a ha
        have hd := dep_values_diag_lines ns _ a (out_line.check_failed r) (by simp) ha
        split at h
        · rw [← Option.some_inj.mp h]
          show out_line.check_failed r ∉ ds.out ++ a.diag
          simp only [List.mem_append, not_or]
          exact ⟨hq0, hd⟩
        · rw [← Option.some_inj.mp h]
          apply gcd_probe_out _ _ _ _ _ _ (by simp)
          show out_line.check_failed r ∉ ds.out ++ a.diag ++ _
          simp only [List.mem_append, not_or]
          refine ⟨⟨hq0, hd⟩, ?_⟩
          split
          · rw [List.mem_singleton]; simp
          · exact List.not_mem_nil _
    · rw [← Option.some_inj.mp h]; exact hq0

/-! ## Runs with defined behaviour -/

theorem deduce_row_defined (ns : nsieve_t) (prp : Int → Bool) (expm : List (List Nat))
    (ms : mat_state) (hN : 0 < ns.N) (hv : ∀ h, dep_valid ns h) (ds : deduce_state)
    (row : Nat) : ∃ ds2, deduce_row ns prp expm ms (some ds) row = some ds2 := by
  obtain ⟨acc, hacc, _⟩ := dep_values_inv ns hN (ms.history.getD row []) (hv _)
  unfold deduce_row
  simp only [hacc]
  split
  · exact ⟨_, rfl⟩
  · split
    · split
      · exact ⟨_, rfl⟩
      · exact ⟨_, rfl⟩
    · exact ⟨_, rfl⟩

theorem foldl_defined {α : Type} (f : Option deduce_state → α → Option deduce_state)
    (hf : ∀ ds x, ∃ ds2, f (some ds) x = some ds2) :
    ∀ (l : List α) (ds : deduce_state), ∃ d, l.foldl f (some ds) = some d
  | [], ds => ⟨ds, rfl⟩
  | x :: l, ds => by
    obtain ⟨ds2, h2⟩ := hf ds x
    rw [List.foldl_cons, h2]
    exact foldl_defined f hf l ds2

/-- When every relation of the matrix is valid, `solve_matrix` runs to its end and prints its
lines. -/
theorem solve_matrix_defined (ns : nsieve_t) (prp : Int → Bool)
    (hN : 0 < mpz_divexact ns.N ns.multiplier)
    (hv : ∀ h, dep_valid { ns with N := mpz_divexact ns.N ns.multiplier } h) :
    ∃ out, solve_matrix ns prp = some out := by
  obtain ⟨d, hd⟩ := foldl_defined
    (deduce_row { ns with N := mpz_divexact ns.N ns.multiplier } prp (expm_copy ns)
      (solve_sweep ns))
    (fun ds x => deduce_row_defined _ prp _ _ hN hv ds x) (List.range ns.rels_needed)
    { ncopy := mpz_divexact ns.N ns.multiplier, out := [], finished := false }
  exact ⟨deduce_final prp d, by unfold solve_matrix deduce_loop; rw [hd]; rfl⟩

/-! ## Claims about the congruence of squares -/

/-- C5, amended: for every dependency whose relations are valid (same `A` for the relation and
its victim, `A` invertible modulo `N`, `Q(victim.x) Q(rel.x)` equal to the product named by the
factor list times the cofactor, cofactor `1` for a full relation and equal cofactors for the
two halves of a combined partial), and in which no factor index occurs `2^16 = 65536` times or
more, the loop over the relations returns values, and whenever `construct_rhs` succeeds on them
the test `lhs² mod N = rhs² mod N` of `solve_matrix` holds; so processing a row with this
history row prints no line `Squares are not congruent`. -/
theorem deduced_squares_congruent (ns : nsieve_t) (hN : 0 < ns.N) (history_row : List Nat)
    (hv : dep_valid ns history_row)
    (hcount : ∀ i, (dep_factors ns history_row ns.rels_needed).count i < 65536) :
    (∃ acc, dep_values ns history_row = some acc ∧
      ∀ c rhs1, construct_rhs acc.table acc.rhs ns = (c, rhs1) → c ≠ 0 →
        mpz_mod (mpz_mod acc.lhs ns.N * mpz_mod acc.lhs ns.N) ns.N
          = mpz_mod (mpz_mod rhs1 ns.N * mpz_mod rhs1 ns.N) ns.N) ∧
    ∀ (prp : Int → Bool) (expm : List (List Nat)) (ms : mat_state) (ds ds2 : deduce_state)
      (row : Nat), ms.history.getD row [] = history_row →
      out_line.not_congruent ∉ ds.out →
      deduce_row ns prp expm ms (some ds) row = some ds2 →
      out_line.not_congruent ∉ ds2.out := by
  obtain ⟨acc, hacc, hinv⟩ := dep_values_inv ns hN history_row hv
  have hsq := fun c rhs1 hc hc0 => squares_of_inv ns _ acc hinv hcount c rhs1 hc hc0
  refine ⟨⟨acc, hacc, hsq⟩, fun prp expm ms ds ds2 row hrow hq h => ?_⟩
  subst hrow
  exact deduce_row_quiet ns prp expm ms ds ds2 row acc hacc hsq hq h

theorem ns_1649_rel_valid (x : Int) (factors : List Nat)
    (hprod : poly_at ⟨1, 41, 32, 0, 0⟩ 0 * poly_at ⟨1, 41, 32, 0, 0⟩ x
      = (factors.map (fac_value ns_1649)).prod * ((1 : Nat) : Int))
    (hf : ∀ f ∈ factors, f ≤ ns_1649.fb_len) :
    rel_valid ns_1649 ⟨x, 0, factors, 1⟩ :=
  ⟨⟨1, 41, 32, 0, 0⟩, ⟨0, 0, [1, 1, 1, 1, 1, 1, 1, 1, 1, 1], 1⟩, ⟨1, 41, 32, 0, 0⟩, rfl, rfl,
    isCoprime_one_left, by decide, by decide, hprod, hf⟩

theorem ns_1649_dep_valid : dep_valid ns_1649 [7] := by
  intro relnum hr hb
  have hr4 : relnum < 4 := hr
  interval_cases relnum
  · exact ⟨⟨1, none, [3]⟩, _, rfl, rfl,
      ns_1649_rel_valid (-1) [0, 1, 1, 1, 1, 1, 3, 3] (by decide) (by decide), rfl⟩
  · exact ⟨⟨2, none, [1]⟩, _, rfl, rfl,
      ns_1649_rel_valid (-2) [0, 1, 1, 1, 1, 1, 1, 1, 1, 1, 1, 1, 1] (by decide) (by decide),
      rfl⟩
  · exact ⟨⟨3, none, [2]⟩, _, rfl, rfl,
      ns_1649_rel_valid 16 [1, 1, 1, 1, 1, 1, 1, 1, 1, 1, 1, 2, 2] (by decide) (by decide),
      rfl⟩
  · exact absurd hb (by decide)

theorem deduced_squares_congruent_witness :
    ∃ acc, dep_values ns_1649 [7] = some acc ∧
      ∀ c rhs1, construct_rhs acc.table acc.rhs ns_1649 = (c, rhs1) → c ≠ 0 →
        mpz_mod (mpz_mod acc.lhs ns_1649.N * mpz_mod acc.lhs ns_1649.N) ns_1649.N
          = mpz_mod (mpz_mod rhs1 ns_1649.N * mpz_mod rhs1 ns_1649.N) ns_1649.N :=
  (deduced_squares_congruent ns_1649 (by decide) [7] ns_1649_dep_valid
    (fun i => lt_of_le_of_lt (List.count_le_length i _)
      (show (dep_factors ns_1649 [7] ns_1649.rels_needed).length < 65536 by decide))).1

theorem two_pow_ge_eight (n : Nat) (h : 3 ≤ n) : 8 ≤ 2 ^ n :=
  calc 8 = 2 ^ 3 := by norm_num
    _ ≤ 2 ^ n := Nat.pow_le_pow_right (by norm_num) h

theorem two_pow_fourth (n m : Nat) (h : n * 4 = m) : (((2 ^ n : Nat)) : Int) ^ 4 = 2 ^ m := by
  subst h
  push_cast
  rw [← pow_mul]

theorem big_pow_ge : 8 ≤ big_pow := two_pow_ge_eight 16384 (by norm_num)

theorem big_pow_fourth : ((big_pow : Nat) : Int) ^ 4 = 2 ^ 65536 :=
  two_pow_fourth 16384 65536 (by norm_num)

theorem ns_overflow_N : ns_overflow.N = 2 * (big_pow : Int) + 1 := by
  show ((2 * big_pow + 1 : Nat) : Int) = _
  push_cast
  rfl

theorem ns_overflow_rel_valid :
    rel_valid ns_overflow ⟨0, 0, List.replicate 65536 1, 1⟩ := by
  refine ⟨⟨1, ((big_pow + 1 : Nat) : Int), ((big_pow * big_pow : Nat) : Int), 0, 0⟩,
    ⟨0, 0, List.replicate 65536 1, 1⟩,
    ⟨1, ((big_pow + 1 : Nat) : Int), ((big_pow * big_pow : Nat) : Int), 0, 0⟩,
    rfl, rfl, isCoprime_one_left, ?_, ?_, ?_, ?_⟩
  · rw [Int.modEq_iff_dvd, ns_overflow_N]
    exact ⟨1, by push_cast; ring⟩
  · rw [Int.modEq_iff_dvd, ns_overflow_N]
    exact ⟨1, by push_cast; ring⟩
  · have hfv : fac_value ns_overflow 1 = 2 := rfl
    rw [List.map_replicate, List.prod_replicate, hfv, ← big_pow_fourth]
    unfold poly_at
    push_cast
    ring
  · intro f hf
    rw [List.eq_of_mem_replicate hf]
    exact le_rfl

theorem get_bit_one_high : ∀ n ∈ List.range' 1 48, get_bit [1] n ≠ 1 := by decide

theorem ns_overflow_dep_valid : dep_valid ns_overflow [1] := by
  intro relnum hr hb
  have hr49 : relnum < 49 := hr
  by_cases h0 : relnum = 0
  · subst h0
    exact ⟨⟨0, none, [0]⟩, ⟨0, 0, List.replicate 65536 1, 1⟩, rfl, rfl,
      ns_overflow_rel_valid, rfl⟩
  · exact absurd hb (get_bit_one_high relnum (by rw [List.mem_range'_1]; omega))

theorem dep_step_skip (ns : nsieve_t) (h : List Nat) (acc : dep_acc) :
    ∀ l : List Nat, (∀ n ∈ l, get_bit h n ≠ 1) →
      l.foldl (dep_step ns h) (some acc) = some acc
  | [], _ => rfl
  | n :: rest, hl => by
    have hn : get_bit h n ≠ 1 := hl n (List.mem_cons_self _ _)
    have hs : dep_step ns h (some acc) n = some acc := by
      unfold dep_step
      simp only [if_neg hn]
    rw [List.foldl_cons, hs]
    exact dep_step_skip ns h acc rest (fun m hm => hl m (List.mem_cons_of_mem _ hm))

theorem ns_overflow_table :
    add_factors_to_table (List.replicate (ns_overflow.fb_len + 1) 0)
      ⟨0, 0, List.replicate 65536 1, 1⟩ = [0, 0] := by
  obtain ⟨hl, hg⟩ := add_factors_fold 1 (List.replicate 65536 1)
    (List.replicate (ns_overflow.fb_len + 1) 0) []
    rfl (fun f hf => by rw [List.eq_of_mem_replicate hf])
    (fun i _ => by rw [getD_replicate_zero]; rfl)
  unfold add_factors_to_table
  apply ext_getD (by rw [hl]; rfl)
  intro j hj
  rw [hl] at hj
  rw [hg j (by omega), List.nil_append, List.count_replicate]
  interval_cases j
  · rfl
  · rfl

theorem dep_step_full (ns : nsieve_t) (h : List Nat) (acc : dep_acc) (relnum : Nat)
    (m : matrel_t) (r1 : rel_t) (l1 : Int) (hb : get_bit h relnum = 1)
    (hm : ns.relns[relnum]? = some m) (hr1 : ns.rels[m.r1]? = some r1)
    (hl : multiply_in_lhs acc.lhs r1 ns = some l1) (hr2 : m.r2 = none) :
    dep_step ns h (some acc) relnum
      = some { acc with lhs := l1, table := add_factors_to_table acc.table r1 } := by
  unfold dep_step
  simp only [if_pos hb, hm, hr1, hl, hr2]

theorem ns_overflow_dep_values :
    ∃ l : Int, l ^ 2 ≡ 2 ^ 65536 [ZMOD ns_overflow.N] ∧
      dep_values ns_overflow [1] = some { lhs := l, rhs := 1, table := [0, 0], diag := [] } := by
  have hN : 0 < ns_overflow.N := by
    rw [ns_overflow_N]
    have := big_pow_ge
    omega
  obtain ⟨l, hl, hsq⟩ := multiply_in_lhs_valid ns_overflow hN 1
    ⟨0, 0, List.replicate 65536 1, 1⟩ ns_overflow_rel_valid
  have hfv : fac_value ns_overflow 1 = 2 := rfl
  rw [List.map_replicate, List.prod_replicate, hfv, one_pow, one_mul, Nat.cast_one,
    mul_one] at hsq
  refine ⟨l, hsq, ?_⟩
  have hrange : List.range ns_overflow.rels_needed = 0 :: List.range' 1 48 := by decide
  have hstep := dep_step_full ns_overflow [1]
    { lhs := 1, rhs := 1, table := List.replicate (ns_overflow.fb_len + 1) 0, diag := [] } 0
    ⟨0, none, [0]⟩ ⟨0, 0, List.replicate 65536 1, 1⟩ l (by decide) rfl rfl hl rfl
  rw [ns_overflow_table] at hstep
  unfold dep_values
  rw [hrange, List.foldl_cons, hstep]
  exact dep_step_skip ns_overflow [1] _ _ get_bit_one_high

/-- C5 as stated fails: on `ns_overflow` every row of the matrix is zero and the elimination
leaves `history[0]` with the single bit `0`; the one relation of this dependency is valid, but
its `65536` factors `2` wrap the `uint16_t` count to `0`, so `construct_rhs` succeeds with
`rhs = 1` while `lhs² ≡ 2^65536`, and the test `lhs² mod N = rhs² mod N` fails. -/
theorem squares_not_congruent_on_overflow :
    0 < ns_overflow.N ∧ dep_valid ns_overflow [1] ∧
    is_zero_vec ((solve_sweep ns_overflow).rows.getD 0 []) ns_overflow.row_len = true ∧
    (solve_sweep ns_overflow).history.getD 0 [] = [1] ∧
    ∃ acc, dep_values ns_overflow [1] = some acc ∧
      ∃ c rhs1, construct_rhs acc.table acc.rhs ns_overflow = (c, rhs1) ∧ c ≠ 0 ∧
        mpz_mod (mpz_mod acc.lhs ns_overflow.N * mpz_mod acc.lhs ns_overflow.N) ns_overflow.N
          ≠ mpz_mod (mpz_mod rhs1 ns_overflow.N * mpz_mod rhs1 ns_overflow.N)
              ns_overflow.N := by
  have hX := big_pow_ge
  have hN : 0 < ns_overflow.N := by
    rw [ns_overflow_N]
    omega
  obtain ⟨l, hsq, hdep⟩ := ns_overflow_dep_values
  refine ⟨hN, ns_overflow_dep_valid, by set_option maxRecDepth 100000 in decide,
    by set_option maxRecDepth 100000 in decide, _, hdep, 1, 1,
    (show construct_rhs [0, 0] 1 ns_overflow = (1, 1) from rfl), by decide, ?_⟩
  intro heq
  have e1 : mpz_mod l ns_overflow.N * mpz_mod l ns_overflow.N ≡ l ^ 2 [ZMOD ns_overflow.N] := by
    rw [pow_two]
    exact Int.ModEq.mul (Int.mod_modEq _ _) (Int.mod_modEq _ _)
  have e2 : mpz_mod 1 ns_overflow.N * mpz_mod 1 ns_overflow.N ≡ 1 [ZMOD ns_overflow.N] := by
    have := Int.ModEq.mul (Int.mod_modEq 1 ns_overflow.N) (Int.mod_modEq 1 ns_overflow.N)
    simpa [mpz_mod] using this
  have h1 : (2 : Int) ^ 65536 ≡ 1 [ZMOD ns_overflow.N] :=
    hsq.symm.trans (e1.symm.trans ((show _ ≡ _ [ZMOD ns_overflow.N] from heq).trans e2))
  rw [← big_pow_fourth] at h1
  have h2 : (2 * (big_pow : Int)) ^ 2 ≡ 1 [ZMOD ns_overflow.N] := by
    rw [Int.modEq_iff_dvd, ns_overflow_N]
    exact ⟨-(2 * (big_pow : Int) - 1), by ring⟩
  have h3 : (16 : Int) ≡ 1 [ZMOD ns_overflow.N] := by
    have h4 := (h1.mul_left 16)
    have h5 : 16 * (big_pow : Int) ^ 4 = ((2 * (big_pow : Int)) ^ 2) ^ 2 := by ring
    rw [h5, mul_one] at h4
    exact h4.symm.trans (by simpa using h2.pow 2)
  have h6 : ns_overflow.N ∣ 15 := by
    have := Int.modEq_iff_dvd.mp h3.symm
    simpa using this
  have h7 := Int.le_of_dvd (by norm_num) h6
  rw [ns_overflow_N] at h7
  omega

/-! ## Claims about the elimination -/

/-- C3: after the elimination sweep of `solve_matrix`, for every row `r` whose exponent row is
the zero vector, the `MAT_CHECK` XOR of the original rows selected by the 1-bits of `history[r]`
is the zero vector; so no run of `solve_matrix` prints a line `Check FAILED`.  This holds for
every input matrix of `rels_needed` rows of `row_len` words. -/
theorem solve_matrix_check_passes (ns : nsieve_t) (hlen : ns.relns.length = ns.rels_needed)
    (hrow : ∀ m ∈ ns.relns, m.row.length = ns.row_len) :
    (∀ row, row < ns.rels_needed →
      is_zero_vec ((solve_sweep ns).rows.getD row []) ns.row_len = true →
      is_zero_vec (mat_check ns (expm_copy ns) ((solve_sweep ns).history.getD row []))
        ns.row_len = true) ∧
    ∀ (prp : Int → Bool) (out : List out_line), solve_matrix ns prp = some out →
      ∀ row, out_line.check_failed row ∉ out := by
  have h1 : ∀ row, row < ns.rels_needed →
      is_zero_vec ((solve_sweep ns).rows.getD row []) ns.row_len = true →
      is_zero_vec (mat_check ns (expm_copy ns) ((solve_sweep ns).history.getD row []))
        ns.row_len = true := by
    intro row hr hz
    rw [← (sweep_reach_inv ns hlen hrow _ (solve_sweep_reach ns)).2 row hr]
    exact hz
  refine ⟨h1, fun prp out hout r => ?_⟩
  obtain ⟨ds, hds, rfl⟩ := solve_matrix_some ns prp out hout
  have hloop : out_line.check_failed r ∉ ds.out := by
    unfold deduce_prefix at hds
    refine foldl_preserves
      (fun acc : Option deduce_state => ∀ ds, acc = some ds → out_line.check_failed r ∉ ds.out)
      _ _ _ (fun acc x hx hacc => ?_) ?_ ds hds
    · rw [List.mem_range] at hx
      exact deduce_row_check _ prp _ _ acc x r (h1 x hx) hacc
    · intro d0 h0
      rw [← Option.some_inj.mp h0]
      exact List.not_mem_nil _
  unfold deduce_final
  split
  · exact hloop
  · split
    · rw [List.mem_append, List.mem_singleton]
      rintro (h | h)
      · exact hloop h
      · exact absurd h (by simp)
    · exact hloop

theorem solve_matrix_check_passes_witness :
    is_zero_vec ((solve_sweep ns_small).rows.getD 2 []) ns_small.row_len = true ∧
    is_zero_vec (mat_check ns_small (expm_copy ns_small)
      ((solve_sweep ns_small).history.getD 2 [])) ns_small.row_len = true :=
  ⟨by decide,
   (solve_matrix_check_passes ns_small (by decide) (by decide)).1 2 (by decide) (by decide)⟩

/-- C4: the history matrix starts as the identity; in every state the elimination of
`solve_matrix` goes through (the initial one and the one after each single XOR step) every
exponent row `r` equals the XOR of the original rows selected by the 1-bits of `history[r]`;
the state at the end of the sweep is one of these states. -/
theorem solve_matrix_history_invariant (ns : nsieve_t)
    (hlen : ns.relns.length = ns.rels_needed)
    (hrow : ∀ m ∈ ns.relns, m.row.length = ns.row_len) :
    (∀ i j, i < ns.rels_needed → j < ns.rels_needed →
      get_bit ((solve_init ns).history.getD i []) j = if j = i then 1 else 0) ∧
    (∀ st, sweep_reach ns st → history_inv ns st) ∧
    sweep_reach ns (solve_sweep ns) := by
  refine ⟨fun i j hi _ => ?_, fun st h => (sweep_reach_inv ns hlen hrow st h).2,
    solve_sweep_reach ns⟩
  show get_bit (((List.range ns.rels_needed).map fun i =>
    flip_bit (List.replicate (hmlen ns) 0) i).getD i []) j = _
  have hb := hmlen_bound ns
  rw [getD_range_map _ _ _ _ hi, get_bit_flip_zero _ _ _ (by omega)]

theorem solve_matrix_history_invariant_witness :
    get_bit ((solve_init ns_small).history.getD 1 []) 1 = 1 ∧
    get_bit ((solve_init ns_small).history.getD 1 []) 2 = 0 ∧
    history_inv ns_small (solve_sweep ns_small) :=
  ⟨(solve_matrix_history_invariant ns_small (by decide) (by decide)).1 1 1
      (by decide) (by decide),
   (solve_matrix_history_invariant ns_small (by decide) (by decide)).1 1 2
      (by decide) (by decide),
   (solve_matrix_history_invariant ns_small (by decide) (by decide)).2.1 _
      (solve_matrix_history_invariant ns_small (by decide) (by decide)).2.2⟩

/-! ## Claims about `construct_rhs` and `poly` -/

theorem construct_rhs_loop_flag (table : List Nat) (ns : nsieve_t) :
    ∀ (l : List Nat) (rhs : Int),
      ((construct_rhs_loop table ns l rhs).1 = 0 ∨ (construct_rhs_loop table ns l rhs).1 = 1) ∧
      ((construct_rhs_loop table ns l rhs).1 = 0 ↔ ∃ i ∈ l, table.getD i 0 % 2 ≠ 0)
  | [], rhs => by
    unfold construct_rhs_loop
    simp
  | i :: rest, rhs => by
    unfold construct_rhs_loop
    by_cases hodd : table.getD i 0 % 2 ≠ 0
    · rw [if_pos hodd]
      exact ⟨Or.inl rfl, fun _ => ⟨i, List.mem_cons_self i rest, hodd⟩, fun _ => rfl⟩
    · rw [if_neg hodd]
      have key : ∀ r, ((construct_rhs_loop table ns rest r).1 = 0 ∨
            (construct_rhs_loop table ns rest r).1 = 1) ∧
          ((construct_rhs_loop table ns rest r).1 = 0 ↔
            ∃ j ∈ i :: rest, table.getD j 0 % 2 ≠ 0) := by
        intro r
        obtain ⟨h1, h2⟩ := construct_rhs_loop_flag table ns rest r
        refine ⟨h1, h2.trans ⟨?_, ?_⟩⟩
        · rintro ⟨j, hj, hjo⟩
          exact ⟨j, List.mem_cons_of_mem i hj, hjo⟩
        · rintro ⟨j, hj, hjo⟩
          rcases List.mem_cons.mp hj with rfl | hj
          · exact absurd hjo hodd
          · exact ⟨j, hj, hjo⟩
      split
      · exact key _
      · exact key _

theorem construct_rhs_flag (table : List Nat) (rhs : Int) (ns : nsieve_t) :
    ((construct_rhs table rhs ns).1 = 0 ∨ (construct_rhs table rhs ns).1 = 1) ∧
    ((construct_rhs table rhs ns).1 = 0 ↔ ∃ i, i ≤ ns.fb_len ∧ table.getD i 0 % 2 ≠ 0) := by
  unfold construct_rhs
  by_cases hodd : table.getD 0 0 % 2 ≠ 0
  · rw [if_pos hodd]
    exact ⟨Or.inl rfl, fun _ => ⟨0, Nat.zero_le _, hodd⟩, fun _ => rfl⟩
  · rw [if_neg hodd]
    obtain ⟨h1, h2⟩ := construct_rhs_loop_flag table ns (List.range' 1 ns.fb_len)
      (if table.getD 0 0 / 2 % 2 = 1 then -rhs else rhs)
    refine ⟨h1, h2.trans ⟨?_, ?_⟩⟩
    · rintro ⟨j, hj, hjo⟩
      rw [List.mem_range'_1] at hj
      exact ⟨j, by omega, hjo⟩
    · rintro ⟨j, hj, hjo⟩
      have hj0 : j ≠ 0 := by
        rintro rfl
        exact hodd hjo
      exact ⟨j, by rw [List.mem_range'_1]; omega, hjo⟩

theorem construct_rhs_loop_value (table : List Nat) (ns : nsieve_t) :
    ∀ (l : List Nat) (rhs : Int), (∀ i ∈ l, table.getD i 0 % 2 = 0) →
      (construct_rhs_loop table ns l rhs).2 ≡ rhs *
        (l.map fun i => (((ns.fb.getD (i - 1) 0 : Nat) : Int)) ^ (table.getD i 0 / 2)).prod
        [ZMOD ns.N]
  | [], rhs, _ => by
    unfold construct_rhs_loop
    simp
  | i :: rest, rhs, hev => by
    unfold construct_rhs_loop
    have hi : ¬ table.getD i 0 % 2 ≠ 0 := not_not.mpr (hev i (List.mem_cons_self i rest))
    have hrest : ∀ j ∈ rest, table.getD j 0 % 2 = 0 :=
      fun j hj => hev j (List.mem_cons_of_mem i hj)
    rw [if_neg hi, List.map_cons, List.prod_cons]
    by_cases hpos : table.getD i 0 > 0
    · rw [if_pos hpos]
      have hm : mpz_mod (rhs * ((ns.fb.getD (i - 1) 0 : Nat) : Int) ^ (table.getD i 0 / 2))
          ns.N ≡ rhs * ((ns.fb.getD (i - 1) 0 : Nat) : Int) ^ (table.getD i 0 / 2)
            [ZMOD ns.N] := Int.mod_modEq _ _
      calc (construct_rhs_loop table ns rest _).2 ≡ _ [ZMOD ns.N] :=
            construct_rhs_loop_value table ns rest _ hrest
        _ ≡ rhs * ((ns.fb.getD (i - 1) 0 : Nat) : Int) ^ (table.getD i 0 / 2) *
              (rest.map fun i =>
                (((ns.fb.getD (i - 1) 0 : Nat) : Int)) ^ (table.getD i 0 / 2)).prod
              [ZMOD ns.N] := hm.mul_right _
        _ = _ := by ring
    · rw [if_neg hpos]
      have h0 : table.getD i 0 = 0 := by omega
      rw [h0, Nat.zero_div, pow_zero, one_mul]
      exact construct_rhs_loop_value table ns rest rhs hrest

/-- C13: when every count `T[0], …, T[fb_len]` is even, `construct_rhs` succeeds and leaves
`rhs ≡ rhs_in · (-1)^(T[0]/2) · ∏_{i = 1..fb_len} fb[i-1]^(T[i]/2) (mod N)`, where `rhs_in` is
the value of `rhs` on entry. -/
theorem construct_rhs_value (table : List Nat) (rhs : Int) (ns : nsieve_t)
    (hev : ∀ i, i ≤ ns.fb_len → table.getD i 0 % 2 = 0) :
    (construct_rhs table rhs ns).1 ≠ 0 ∧
    (construct_rhs table rhs ns).2 ≡ rhs * (-1) ^ (table.getD 0 0 / 2) *
      ((List.range' 1 ns.fb_len).map fun i =>
        (((ns.fb.getD (i - 1) 0 : Nat) : Int)) ^ (table.getD i 0 / 2)).prod [ZMOD ns.N] := by
  refine ⟨fun h0 => ?_, ?_⟩
  · obtain ⟨i, hi, hio⟩ := (construct_rhs_flag table rhs ns).2.mp h0
    exact hio (hev i hi)
  · unfold construct_rhs
    rw [if_neg (not_not.mpr (hev 0 (Nat.zero_le _)))]
    have hl : ∀ i ∈ List.range' 1 ns.fb_len, table.getD i 0 % 2 = 0 := by
      intro i hi
      rw [List.mem_range'_1] at hi
      exact hev i (by omega)
    have hs : (if table.getD 0 0 / 2 % 2 = 1 then -rhs else rhs)
        = rhs * (-1) ^ (table.getD 0 0 / 2) := by
      split
      · rename_i h
        rw [Odd.neg_one_pow (Nat.odd_iff.mpr h)]
        ring
      · rename_i h
        rw [Even.neg_one_pow (Nat.even_iff.mpr (by omega))]
        ring
    have := construct_rhs_loop_value table ns (List.range' 1 ns.fb_len)
      (if table.getD 0 0 / 2 % 2 = 1 then -rhs else rhs) hl
    rw [hs] at this ⊢
    exact this

theorem construct_rhs_value_witness :
    (construct_rhs [2, 4, 0, 2, 0] 3 ns_1649).1 ≠ 0 ∧
    (construct_rhs [2, 4, 0, 2, 0] 3 ns_1649).2 ≡ 3 * (-1) ^ (([2, 4, 0, 2, 0] : List Nat).getD 0 0 / 2) *
      ((List.range' 1 ns_1649.fb_len).map fun i =>
        (((ns_1649.fb.getD (i - 1) 0 : Nat) : Int)) ^ (([2, 4, 0, 2, 0] : List Nat).getD i 0 / 2)).prod
        [ZMOD ns_1649.N] :=
  construct_rhs_value [2, 4, 0, 2, 0] 3 ns_1649 (by
    intro i hi
    have : i ≤ 4 := hi
    interval_cases i <;> rfl)

/-- C16: for a polynomial `(A, B, C)` with `A C = B² - N`, every `istart` and every offset,
`poly` returns `Q = A x² + 2 B x + C` at `x = istart + offset`, and `A Q = (A x + B)² - N`. -/
theorem poly_value (p : poly_t) (N : Int) (offset : Nat) (hc : p.a * p.c = p.b ^ 2 - N) :
    poly p offset
      = p.a * (p.istart + (offset : Int)) ^ 2 + 2 * p.b * (p.istart + (offset : Int)) + p.c ∧
    p.a * poly p offset = (p.a * (p.istart + (offset : Int)) + p.b) ^ 2 - N := by
  unfold poly
  constructor
  · ring
  · simp only []
    linear_combination hc

theorem poly_value_witness :
    poly ⟨1, 41, 32, -5, 0⟩ 3
      = 1 * (-5 + ((3 : Nat) : Int)) ^ 2 + 2 * 41 * (-5 + ((3 : Nat) : Int)) + 32 ∧
    1 * poly ⟨1, 41, 32, -5, 0⟩ 3 = (1 * (-5 + ((3 : Nat) : Int)) + 41) ^ 2 - 1649 :=
  poly_value ⟨1, 41, 32, -5, 0⟩ 1649 3 (by decide)

/-! ## Claims about the inverses of `A` -/

theorem ainverses_fold (a : Int) (fb : List Nat) (ai : List Nat) :
    ∀ n, n ≤ ai.length →
      ((List.range n).foldl
        (fun ai i =>
          match mpz_invert a (fb.getD i 0) with
          | some t => ai.set i t.toNat
          | none => ai) ai).length = ai.length ∧
      ∀ i, ((List.range n).foldl
        (fun ai i =>
          match mpz_invert a (fb.getD i 0) with
          | some t => ai.set i t.toNat
          | none => ai) ai).getD i 0 =
        if i < n then
          match mpz_invert a (fb.getD i 0) with
          | some t => t.toNat
          | none => ai.getD i 0
        else ai.getD i 0
  | 0, _ => by simp
  | n + 1, hn => by
    obtain ⟨hlen, hget⟩ := ainverses_fold a fb ai n (by omega)
    rw [List.range_succ, List.foldl_append]
    simp only [List.foldl_cons, List.foldl_nil]
    cases hinv : mpz_invert a (fb.getD n 0) with
    | none =>
      refine ⟨hlen, fun i => ?_⟩
      simp only []
      rw [hget i]
      by_cases h1 : i < n
      · rw [if_pos h1, if_pos (by omega)]
      · rw [if_neg h1]
        by_cases h2 : i = n
        · subst h2
          rw [if_pos (by omega), hinv]
        · rw [if_neg (by omega)]
    | some t =>
      simp only []
      refine ⟨by rw [List.length_set, hlen], fun i => ?_⟩
      rw [getD_set_nat _ _ _ _ (by omega), hget i]
      by_cases h2 : i = n
      · subst h2
        rw [if_pos rfl, if_pos (by omega), hinv]
      · rw [if_neg h2]
        by_cases h1 : i < n
        · rw [if_pos h1, if_pos (by omega)]
        · rw [if_neg h1, if_neg (by omega)]

theorem ainverses_loop_getD (a : Int) (fb : List Nat) (fb_len : Nat) (ai : List Nat)
    (hlen : fb_len ≤ ai.length) (i : Nat) (hi : i < fb_len) :
    (ainverses_loop a fb fb_len ai).getD i 0 =
      match mpz_invert a (fb.getD i 0) with
      | some t => t.toNat
      | none => ai.getD i 0 := by
  have h := (ainverses_fold a fb ai fb_len hlen).2 i
  rw [if_pos hi] at h
  exact h

theorem mpz_invert_none_of_dvd (a : Int) (p : Nat) (hp : Nat.Prime p) (hd : (p : Int) ∣ a) :
    mpz_invert a p = none := by
  cases h : mpz_invert a p with
  | none => rfl
  | some j =>
    exfalso
    obtain ⟨h1, _, _⟩ := mpz_invert_spec h
    have h2 : (p : Int) ∣ a * j := Dvd.dvd.mul_right hd j
    rw [Int.emod_eq_zero_of_dvd h2] at h1
    have h3 : (p : Int) ∣ 1 := Int.dvd_of_emod_eq_zero h1.symm
    have h4 := Int.eq_one_of_dvd_one (by positivity) h3
    have : p = 1 := by exact_mod_cast h4
    exact hp.one_lt.ne' this

theorem generate_polygroup_defined (find_root : Int → Nat → Nat) (N : Int) (k : Nat)
    (fb : List Nat) (fb_len : Nat) (pg : poly_group_t)
    (hk : pg.gvals.length = k)
    (hp : ∀ g ∈ pg.gvals, Nat.Prime g) (hn : pg.gvals.Nodup)
    (hu : ∀ g ∈ pg.gvals, g < 4294967296)
    (ha : pg.a = ((pg.gvals.prod : Nat) : Int))
    (hroot : ∀ g ∈ pg.gvals,
      find_root N g < g ∧ ((find_root N g : Nat) : Int) ^ 2 ≡ N [ZMOD (g : Int)]) :
    ∃ bs : List Int, bs.length = 2 ^ k ∧
      generate_polygroup find_root N k fb fb_len pg = some
        { pg with bvals := bs, ainverses := ainverses_loop pg.a fb fb_len pg.ainverses } := by
  subst hk
  have hspec := crt_bval_spec find_root N pg.gvals hp hn hu hroot
  obtain ⟨bs, hbs, hlen, _⟩ :=
    crt_loop_fold ((pg.gvals.prod : Nat) : Int) pg.gvals
      (polygroup_roots find_root N pg.gvals pg.gvals.length) pg.gvals.length
      (fun z => (hspec z).imp fun _ h => h.1) (1 <<< pg.gvals.length)
  refine ⟨bs, by rw [hlen, Nat.one_shiftLeft], ?_⟩
  unfold generate_polygroup crt_loop
  rw [ha, hbs]

/-- C15: for a group whose `A` is the product of `k` distinct primes (so that
`generate_polygroup` returns), an array `ainverses` of `fb_len` slots and a factor base of
primes: for every index `i < fb_len` with `gcd (A, fb[i]) = 1`, `generate_polygroup` sets
`ainverses[i]` to the unique value in `[0, fb[i])` with `A · ainverses[i] ≡ 1 (mod fb[i])`; when
`fb[i]` divides `A`, the slot `ainverses[i]` keeps the content it had. -/
theorem generate_polygroup_ainverses (find_root : Int → Nat → Nat) (N : Int) (k : Nat)
    (fb : List Nat) (fb_len : Nat) (pg : poly_group_t)
    (hk : pg.gvals.length = k)
    (hp : ∀ g ∈ pg.gvals, Nat.Prime g) (hn : pg.gvals.Nodup)
    (hu : ∀ g ∈ pg.gvals, g < 4294967296)
    (ha : pg.a = ((pg.gvals.prod : Nat) : Int))
    (hroot : ∀ g ∈ pg.gvals,
      find_root N g < g ∧ ((find_root N g : Nat) : Int) ^ 2 ≡ N [ZMOD (g : Int)])
    (hai : pg.ainverses.length = fb_len)
    (hfb : ∀ i, i < fb_len → Nat.Prime (fb.getD i 0)) :
    ∃ pg2, generate_polygroup find_root N k fb fb_len pg = some pg2 ∧
      pg2.ainverses.length = fb_len ∧
      ∀ i, i < fb_len →
        (Int.gcd pg.a (fb.getD i 0 : Nat) = 1 →
          pg2.ainverses.getD i 0 < fb.getD i 0 ∧
          pg.a * (pg2.ainverses.getD i 0 : Nat) ≡ 1 [ZMOD ((fb.getD i 0 : Nat) : Int)] ∧
          ∀ w : Nat, w < fb.getD i 0 → pg.a * (w : Int) ≡ 1 [ZMOD ((fb.getD i 0 : Nat) : Int)] →
            w = pg2.ainverses.getD i 0) ∧
        (((fb.getD i 0 : Nat) : Int) ∣ pg.a →
          pg2.ainverses.getD i 0 = pg.ainverses.getD i 0) := by
  obtain ⟨bs, _, hgen⟩ := generate_polygroup_defined find_root N k fb fb_len pg hk hp hn hu ha hroot
  refine ⟨_, hgen, ?_, ?_⟩
  · show (ainverses_loop pg.a fb fb_len pg.ainverses).length = fb_len
    exact ((ainverses_fold pg.a fb pg.ainverses fb_len (by omega)).1).trans hai
  intro i hi
  show (_ → (ainverses_loop pg.a fb fb_len pg.ainverses).getD i 0 < _ ∧ _ ∧ _) ∧
    (_ → (ainverses_loop pg.a fb fb_len pg.ainverses).getD i 0 = _)
  have hget := ainverses_loop_getD pg.a fb fb_len pg.ainverses (by omega) i hi
  have hpr := hfb i hi
  constructor
  · intro hg
    obtain ⟨j, hj⟩ := mpz_invert_exists pg.a (fb.getD i 0) hpr.pos
      (Int.isCoprime_iff_gcd_eq_one.mpr hg)
    simp only [hj] at hget
    obtain ⟨h1, h2, h3⟩ := mpz_invert_spec hj
    rw [Int.natAbs_ofNat] at h3
    have hjn : ((j.toNat : Nat) : Int) = j := Int.toNat_of_nonneg h2
    have hinv : pg.a * ((j.toNat : Nat) : Int) ≡ 1 [ZMOD ((fb.getD i 0 : Nat) : Int)] := by
      rw [hjn]; exact h1
    rw [hget]
    have hjlt : j.toNat < fb.getD i 0 := by
      have : ((j.toNat : Nat) : Int) < ((fb.getD i 0 : Nat) : Int) := by rw [hjn]; exact h3
      exact_mod_cast this
    refine ⟨hjlt, hinv, fun w hw hwinv => ?_⟩
    have e : (w : Int) ≡ ((j.toNat : Nat) : Int) [ZMOD ((fb.getD i 0 : Nat) : Int)] := by
      calc (w : Int) = (w : Int) * 1 := by ring
        _ ≡ (w : Int) * (pg.a * ((j.toNat : Nat) : Int)) [ZMOD _] := (hinv.symm).mul_left _
        _ = (pg.a * (w : Int)) * ((j.toNat : Nat) : Int) := by ring
        _ ≡ 1 * ((j.toNat : Nat) : Int) [ZMOD _] := hwinv.mul_right _
        _ = ((j.toNat : Nat) : Int) := by ring
    have e2 := Int.ModEq.eq e
    rw [Int.emod_eq_of_lt (by omega) (by omega), Int.emod_eq_of_lt (by omega) (by omega)] at e2
    exact_mod_cast e2
  · intro hd
    simp only [mpz_invert_none_of_dvd pg.a _ hpr hd] at hget
    exact hget

theorem generate_polygroup_ainverses_witness :
    ∃ pg2, generate_polygroup (fun _ g => if g = 7 then 3 else 5) 2 2 [2, 5, 7, 23] 4
        ⟨161, [7, 23], [], [9, 9, 9, 9], none⟩ = some pg2 ∧
      pg2.ainverses.length = 4 ∧
      ∀ i, i < 4 →
        (Int.gcd (161 : Int) (([2, 5, 7, 23] : List Nat).getD i 0 : Nat) = 1 →
          pg2.ainverses.getD i 0 < ([2, 5, 7, 23] : List Nat).getD i 0 ∧
          (161 : Int) * (pg2.ainverses.getD i 0 : Nat)
            ≡ 1 [ZMOD ((([2, 5, 7, 23] : List Nat).getD i 0 : Nat) : Int)] ∧
          ∀ w : Nat, w < ([2, 5, 7, 23] : List Nat).getD i 0 →
            (161 : Int) * (w : Int) ≡ 1 [ZMOD ((([2, 5, 7, 23] : List Nat).getD i 0 : Nat) : Int)] →
            w = pg2.ainverses.getD i 0) ∧
        ((((([2, 5, 7, 23] : List Nat).getD i 0 : Nat) : Int)) ∣ (161 : Int) →
          pg2.ainverses.getD i 0 = ([9, 9, 9, 9] : List Nat).getD i 0) :=
  generate_polygroup_ainverses (fun _ g => if g = 7 then 3 else 5) 2 2 [2, 5, 7, 23] 4
    ⟨161, [7, 23], [], [9, 9, 9, 9], none⟩ rfl
    (by intro g hg; simp at hg; rcases hg with rfl | rfl <;> norm_num)
    (by decide)
    (by intro g hg; simp at hg; rcases hg with rfl | rfl <;> norm_num)
    (by decide)
    (by intro g hg; simp at hg; rcases hg with rfl | rfl <;> decide)
    rfl
    (by intro i hi; interval_cases i <;> norm_num)

/-! ## The two ways a dependency leaves the loop of the factor deduction -/

theorem deduce_row_on_failure (ns : nsieve_t) (prp : Int → Bool) (expm : List (List Nat))
    (ms : mat_state) (ds : deduce_state) (row : Nat) (acc : dep_acc)
    (hfin : ds.finished = false)
    (hz : is_zero_vec (ms.rows.getD row []) ns.row_len = true)
    (hacc : dep_values ns (ms.history.getD row []) = some acc)
    (hfail : (construct_rhs acc.table acc.rhs ns).1 = 0) :
    deduce_row ns prp expm ms (some ds) row = some { ds with out := ds.out ++
      (if is_zero_vec (mat_check ns expm (ms.history.getD row [])) ns.row_len then []
         else [out_line.check_failed row]) ++ acc.diag } := by
  unfold deduce_row
  simp only [hfin, hz, hacc, if_true, Bool.false_eq_true, if_false]
  generalize hcr : construct_rhs acc.table acc.rhs ns = cr at hfail
  obtain ⟨c, r⟩ := cr
  simp only at hfail
  subst hfail
  rfl

theorem deduce_row_on_success (ns : nsieve_t) (prp : Int → Bool) (expm : List (List Nat))
    (ms : mat_state) (ds : deduce_state) (row : Nat) (acc : dep_acc)
    (hfin : ds.finished = false)
    (hz : is_zero_vec (ms.rows.getD row []) ns.row_len = true)
    (hacc : dep_values ns (ms.history.getD row []) = some acc)
    (hok : (construct_rhs acc.table acc.rhs ns).1 ≠ 0) :
    deduce_row ns prp expm ms (some ds) row = some
      (gcd_probe ns prp { ds with out := ds.out ++
        (if is_zero_vec (mat_check ns expm (ms.history.getD row [])) ns.row_len then []
           else [out_line.check_failed row]) ++ acc.diag ++
        (if mpz_mod (mpz_mod acc.lhs ns.N * mpz_mod acc.lhs ns.N) ns.N ≠
            mpz_mod (mpz_mod (construct_rhs acc.table acc.rhs ns).2 ns.N *
              mpz_mod (construct_rhs acc.table acc.rhs ns).2 ns.N) ns.N
          then [out_line.not_congruent] else []) }
        (mpz_mod acc.lhs ns.N) (mpz_mod (construct_rhs acc.table acc.rhs ns).2 ns.N)) := by
  unfold deduce_row
  simp only [hfin, hz, hacc, if_true, Bool.false_eq_true, if_false]

theorem gcd_probe_out_change (ns : nsieve_t) (prp : Int → Bool) (ds : deduce_state)
    (o : List out_line) (lhs rhs : Int) :
    (gcd_probe ns prp { ds with out := o } lhs rhs).ncopy = (gcd_probe ns prp ds lhs rhs).ncopy ∧
    (gcd_probe ns prp { ds with out := o } lhs rhs).finished
      = (gcd_probe ns prp ds lhs rhs).finished ∧
    ∃ fs : List out_line,
      (gcd_probe ns prp { ds with out := o } lhs rhs).out = o ++ fs ∧
      (gcd_probe ns prp ds lhs rhs).out = ds.out ++ fs := by
  unfold gcd_probe
  simp only []
  generalize |((Int.gcd (rhs - lhs) ds.ncopy : Nat) : Int)| = t
  split_ifs
  all_goals first
    | contradiction
    | (refine ⟨rfl, rfl, [], ?_, ?_⟩
       · simp
       · simp)
    | (refine ⟨rfl, rfl, [out_line.factor t true,
          out_line.factor (mpz_divexact ds.ncopy t) true], ?_, ?_⟩
       · simp
       · simp)
    | (refine ⟨rfl, rfl, [out_line.factor t true], ?_, ?_⟩
       · simp
       · simp)

/-! ## Claims about `construct_rhs` and the diagnostics of the factor deduction -/

theorem deduce_row_defect_example :
    deduce_row ns_defect trial_prime (expm_copy ns_defect) (solve_sweep ns_defect)
      (some ⟨15, [], false⟩) 0 = some ⟨15, [], false⟩ ∧
    (construct_rhs [0, 1] 1 ns_defect).1 = 0 := by
  decide

/-- C12: `construct_rhs` returns `0` if and only if one of the counts `T[0], …, T[fb_len]` is
odd, and a nonzero value when all of them are even; when it returns `0` for the dependency of a
zero row, the pass of the loop of `solve_matrix` ends there: the GCD probing is not run, no
factor is printed, and `ncopy` and the loop go on unchanged. -/
theorem construct_rhs_failure (ns : nsieve_t) (table : List Nat) (rhs : Int) :
    ((construct_rhs table rhs ns).1 = 0 ↔ ∃ i, i ≤ ns.fb_len ∧ table.getD i 0 % 2 = 1) ∧
    ((∀ i, i ≤ ns.fb_len → table.getD i 0 % 2 = 0) → (construct_rhs table rhs ns).1 ≠ 0) ∧
    ∀ (prp : Int → Bool) (expm : List (List Nat)) (ms : mat_state) (ds : deduce_state)
      (row : Nat) (acc : dep_acc),
      ds.finished = false → is_zero_vec (ms.rows.getD row []) ns.row_len = true →
      dep_values ns (ms.history.getD row []) = some acc → acc.table = table → acc.rhs = rhs →
      (construct_rhs table rhs ns).1 = 0 →
      ∃ diags, out_factors diags = [] ∧
        deduce_row ns prp expm ms (some ds) row = some { ds with out := ds.out ++ diags } ∧
        ({ ds with out := ds.out ++ diags } : deduce_state).ncopy = ds.ncopy ∧
        out_factors ({ ds with out := ds.out ++ diags } : deduce_state).out
          = out_factors ds.out := by
  have hflag := construct_rhs_flag table rhs ns
  refine ⟨hflag.2.trans ⟨?_, ?_⟩, fun hev h0 => ?_, ?_⟩
  · rintro ⟨i, hi, hio⟩
    exact ⟨i, hi, by omega⟩
  · rintro ⟨i, hi, hio⟩
    exact ⟨i, hi, by omega⟩
  · obtain ⟨i, hi, hio⟩ := hflag.2.mp h0
    exact hio (hev i hi)
  · intro prp expm ms ds row acc hfin hz hacc ht hr hfail
    subst ht hr
    have hd := dep_values_diag ns _ acc hacc
    have hcheck : out_factors
        (if is_zero_vec (mat_check ns expm (ms.history.getD row [])) ns.row_len = true
          then [] else [out_line.check_failed row]) = [] := by
      split <;> rfl
    refine ⟨(if is_zero_vec (mat_check ns expm (ms.history.getD row [])) ns.row_len = true
          then [] else [out_line.check_failed row]) ++ acc.diag, ?_, ?_, rfl, ?_⟩
    · rw [out_factors_append, hd, hcheck]; rfl
    · rw [deduce_row_on_failure ns prp expm ms ds row acc hfin hz hacc hfail,
        List.append_assoc]
    · show out_factors (ds.out ++ _) = _
      rw [out_factors_append, out_factors_append, hd, hcheck]
      simp

/-- C14 as stated fails: on `ns_diag` the only dependency prints both diagnostics (the cofactors
`7` and `11` of the combined partial disagree, and `lhs² = 1` while `rhs² = 49 ≡ 4 (mod 15)`),
and the run goes on to the GCD with the same dependency: it reports `3` and `5`, and `ncopy`
goes from `15` to `1`. -/
theorem diagnostic_dependency_not_skipped :
    deduce_row ns_diag trial_prime (expm_copy ns_diag) (solve_sweep ns_diag)
        (some ⟨15, [], false⟩) 0
      = some ⟨1, [out_line.cofactors_disagree 7 11, out_line.not_congruent,
          out_line.factor 3 true, out_line.factor 5 true], true⟩ ∧
    solve_matrix ns_diag trial_prime
      = some [out_line.cofactors_disagree 7 11, out_line.not_congruent,
          out_line.factor 3 true, out_line.factor 5 true] := by
  decide

/-- C14, amended: for a dependency (a zero row, reached before `return`) that passes
`construct_rhs`, the diagnostics only print: the lines about disagreeing cofactors collected by
the loop over the relations are printed, `Squares are not congruent!!!` is printed when
`lhs² ≢ rhs² (mod N)`, and the dependency is then probed like any other: `ncopy`, the factors
printed and the decision to return are those of the GCD probing of `rhs - lhs` against
`ncopy`, as if no diagnostic had been printed. -/
theorem diagnostic_dependency_probed (ns : nsieve_t) (prp : Int → Bool)
    (expm : List (List Nat)) (ms : mat_state) (ds : deduce_state) (row : Nat) (acc : dep_acc)
    (hfin : ds.finished = false)
    (hz : is_zero_vec (ms.rows.getD row []) ns.row_len = true)
    (hacc : dep_values ns (ms.history.getD row []) = some acc)
    (hok : (construct_rhs acc.table acc.rhs ns).1 ≠ 0) :
    ∃ ds2, deduce_row ns prp expm ms (some ds) row = some ds2 ∧
      (∀ l ∈ acc.diag, l ∈ ds2.out) ∧
      (mpz_mod (mpz_mod acc.lhs ns.N * mpz_mod acc.lhs ns.N) ns.N ≠
          mpz_mod (mpz_mod (construct_rhs acc.table acc.rhs ns).2 ns.N *
            mpz_mod (construct_rhs acc.table acc.rhs ns).2 ns.N) ns.N →
        out_line.not_congruent ∈ ds2.out) ∧
      ds2.ncopy = (gcd_probe ns prp ds (mpz_mod acc.lhs ns.N)
        (mpz_mod (construct_rhs acc.table acc.rhs ns).2 ns.N)).ncopy ∧
      ds2.finished = (gcd_probe ns prp ds (mpz_mod acc.lhs ns.N)
        (mpz_mod (construct_rhs acc.table acc.rhs ns).2 ns.N)).finished ∧
      out_factors ds2.out = out_factors (gcd_probe ns prp ds (mpz_mod acc.lhs ns.N)
        (mpz_mod (construct_rhs acc.table acc.rhs ns).2 ns.N)).out := by
  refine ⟨_, deduce_row_on_success ns prp expm ms ds row acc hfin hz hacc hok, ?_⟩
  have hd := dep_values_diag ns _ acc hacc
  have hcheck : out_factors
      (if is_zero_vec (mat_check ns expm (ms.history.getD row [])) ns.row_len = true
        then [] else [out_line.check_failed row]) = [] := by
    split <;> rfl
  generalize (if is_zero_vec (mat_check ns expm (ms.history.getD row [])) ns.row_len = true
        then [] else [out_line.check_failed row]) = chk at hcheck
  generalize hl : mpz_mod acc.lhs ns.N = lhs
  generalize hr : mpz_mod (construct_rhs acc.table acc.rhs ns).2 ns.N = rhs
  obtain ⟨h1, h2, fs, h3, h4⟩ := gcd_probe_out_change ns prp ds
    (ds.out ++ chk ++ acc.diag ++
      (if mpz_mod (lhs * lhs) ns.N ≠ mpz_mod (rhs * rhs) ns.N then [out_line.not_congruent]
       else [])) lhs rhs
  refine ⟨fun l hl => ?_, fun hne => ?_, h1, h2, ?_⟩
  · rw [h3]
    simp [hl]
  · rw [h3, if_pos hne]
    simp
  · rw [h3, h4]
    have hnc : out_factors
        (if mpz_mod (lhs * lhs) ns.N ≠ mpz_mod (rhs * rhs) ns.N then [out_line.not_congruent]
         else []) = [] := by
      split <;> rfl
    rw [out_factors_append, out_factors_append, out_factors_append, out_factors_append,
      out_factors_append, hd, hcheck, hnc]
    simp

theorem dep_values_ns_diag :
    dep_values ns_diag ((solve_sweep ns_diag).history.getD 0 [])
      = some ⟨1, 7, [0, 0], [out_line.cofactors_disagree 7 11]⟩ := by
  decide

theorem diagnostic_dependency_probed_witness :
    ∃ ds2, deduce_row ns_diag trial_prime (expm_copy ns_diag) (solve_sweep ns_diag)
        (some ⟨15, [], false⟩) 0 = some ds2 ∧
      (∀ l ∈ [out_line.cofactors_disagree 7 11], l ∈ ds2.out) ∧
      (mpz_mod (mpz_mod 1 ns_diag.N * mpz_mod 1 ns_diag.N) ns_diag.N ≠
          mpz_mod (mpz_mod (construct_rhs [0, 0] 7 ns_diag).2 ns_diag.N *
            mpz_mod (construct_rhs [0, 0] 7 ns_diag).2 ns_diag.N) ns_diag.N →
        out_line.not_congruent ∈ ds2.out) ∧
      ds2.ncopy = (gcd_probe ns_diag trial_prime ⟨15, [], false⟩ (mpz_mod 1 ns_diag.N)
        (mpz_mod (construct_rhs [0, 0] 7 ns_diag).2 ns_diag.N)).ncopy ∧
      ds2.finished = (gcd_probe ns_diag trial_prime ⟨15, [], false⟩ (mpz_mod 1 ns_diag.N)
        (mpz_mod (construct_rhs [0, 0] 7 ns_diag).2 ns_diag.N)).finished ∧
      out_factors ds2.out = out_factors (gcd_probe ns_diag trial_prime ⟨15, [], false⟩
        (mpz_mod 1 ns_diag.N) (mpz_mod (construct_rhs [0, 0] 7 ns_diag).2 ns_diag.N)).out :=
  diagnostic_dependency_probed ns_diag trial_prime (expm_copy ns_diag) (solve_sweep ns_diag)
    ⟨15, [], false⟩ 0 ⟨1, 7, [0, 0], [out_line.cofactors_disagree 7 11]⟩ rfl (by decide)
    dep_values_ns_diag (by decide)

/-! ## Claims about the number of B-values and the table `q` -/

/-- C11: the code at every `k ≥ 1`: after `gpool_init` has set `ns->bvals = 1 << (k-1)`,
`polygroup_init` allocates `2^(k-1)` slots for `bvals`, while `generate_polygroup` stores a
value through `pg->bvals[z]` for each of the `2^k` indices `z < 2^k`; the store at
`z = 2^(k-1)` is outside the array. -/
theorem generate_polygroup_bvals_overflow (find_root : Int → Nat → Nat) (N : Int) (k : Nat)
    (fb : List Nat) (fb_len : Nat) (pg : poly_group_t) (ns : nsieve_t)
    (hk1 : 1 ≤ k)
    (hk : pg.gvals.length = k)
    (hp : ∀ g ∈ pg.gvals, Nat.Prime g) (hn : pg.gvals.Nodup)
    (hu : ∀ g ∈ pg.gvals, g < 4294967296)
    (ha : pg.a = ((pg.gvals.prod : Nat) : Int))
    (hroot : ∀ g ∈ pg.gvals,
      find_root N g < g ∧ ((find_root N g : Nat) : Int) ^ 2 ≡ N [ZMOD (g : Int)]) :
    (gpool_set_k ns k).bvals = 2 ^ (k - 1) ∧
    (polygroup_init (gpool_set_k ns k) pg).bvals.length = 2 ^ (k - 1) ∧
    (∃ pg2, generate_polygroup find_root N k fb fb_len pg = some pg2 ∧
      pg2.bvals.length = 2 * 2 ^ (k - 1)) ∧
    2 ^ (k - 1) ∈ bvals_stores k ∧ ¬ 2 ^ (k - 1) < (gpool_set_k ns k).bvals := by
  have e1 : (gpool_set_k ns k).bvals = 2 ^ (k - 1) := Nat.one_shiftLeft _
  have e2 : 2 * 2 ^ (k - 1) = 2 ^ k := by
    rw [← pow_succ']
    congr 1
    omega
  refine ⟨e1, ?_, ?_, ?_, by rw [e1]; exact lt_irrefl _⟩
  · show (List.replicate (gpool_set_k ns k).bvals (0 : Int)).length = _
    rw [List.length_replicate, e1]
  · obtain ⟨bs, hlen, hgen⟩ :=
      generate_polygroup_defined find_root N k fb fb_len pg hk hp hn hu ha hroot
    exact ⟨_, hgen, by rw [e2]; exact hlen⟩
  · unfold bvals_stores
    rw [List.mem_range, Nat.one_shiftLeft, ← e2]
    have : 0 < 2 ^ (k - 1) := Nat.pow_pos (by norm_num)
    omega

theorem generate_polygroup_bvals_overflow_witness :
    (gpool_set_k {} 2).bvals = 2 ^ (2 - 1) ∧
    (polygroup_init (gpool_set_k {} 2) ⟨161, [7, 23], [], [], none⟩).bvals.length
      = 2 ^ (2 - 1) ∧
    (∃ pg2, generate_polygroup (fun _ g => if g = 7 then 3 else 5) 2 2 [] 0
        ⟨161, [7, 23], [], [], none⟩ = some pg2 ∧
      pg2.bvals.length = 2 * 2 ^ (2 - 1)) ∧
    2 ^ (2 - 1) ∈ bvals_stores 2 ∧ ¬ 2 ^ (2 - 1) < (gpool_set_k {} 2).bvals :=
  generate_polygroup_bvals_overflow (fun _ g => if g = 7 then 3 else 5) 2 2 [] 0
    ⟨161, [7, 23], [], [], none⟩ {} (by decide) rfl
    (by intro g hg; simp at hg; rcases hg with rfl | rfl <;> norm_num)
    (by decide)
    (by intro g hg; simp at hg; rcases hg with rfl | rfl <;> norm_num)
    (by decide)
    (by intro g hg; simp at hg; rcases hg with rfl | rfl <;> decide)

theorem choose_eval (n k : Nat) : n.choose k = n.descFactorial k / k.factorial :=
  Nat.choose_eq_descFactorial_div_factorial n k

/-- C17: the table `q` at `k = 2`, `3` and `4`: `C(1414, 2) = 998991`, `C(182, 3) = 988260` and
`C(71, 4) = 971635` are below `10^6`, so these entries are not the smallest `q` with
`C(q, k) ≥ 10^6` (which are `1415`, `183` and `72`); the entries for `k = 1` and for
`k = 5, …, 12` are the smallest such `q`. -/
theorem q_table_entries :
    (q.getD (2 - 1) 0).choose 2 = 998991 ∧ (q.getD (3 - 1) 0).choose 3 = 988260 ∧
    (q.getD (4 - 1) 0).choose 4 = 971635 ∧
    1000000 ≤ (q.getD (2 - 1) 0 + 1).choose 2 ∧ 1000000 ≤ (q.getD (3 - 1) 0 + 1).choose 3 ∧
    1000000 ≤ (q.getD (4 - 1) 0 + 1).choose 4 ∧
    ∀ k ∈ [1, 5, 6, 7, 8, 9, 10, 11, 12],
      1000000 ≤ (q.getD (k - 1) 0).choose k ∧ (q.getD (k - 1) 0 - 1).choose k < 1000000 := by
  refine ⟨?_, ?_, ?_, ?_, ?_, ?_, ?_⟩
  · show Nat.choose 1414 2 = _
    rw [choose_eval]; rfl
  · show Nat.choose 182 3 = _
    rw [choose_eval]; rfl
  · show Nat.choose 71 4 = _
    rw [choose_eval]; rfl
  · show _ ≤ Nat.choose 1415 2
    rw [choose_eval]; decide
  · show _ ≤ Nat.choose 183 3
    rw [choose_eval]; decide
  · show _ ≤ Nat.choose 72 4
    rw [choose_eval]; decide
  · intro k hk
    simp only [List.mem_cons, List.mem_singleton, List.not_mem_nil, or_false] at hk
    rcases hk with rfl | rfl | rfl | rfl | rfl | rfl | rfl | rfl | rfl
    · show _ ≤ Nat.choose 1000000 1 ∧ Nat.choose 999999 1 < _
      rw [Nat.choose_one_right, Nat.choose_one_right]
      exact ⟨le_rfl, by norm_num⟩
    · show _ ≤ Nat.choose 44 5 ∧ Nat.choose 43 5 < _
      rw [choose_eval, choose_eval]; decide
    · show _ ≤ Nat.choose 33 6 ∧ Nat.choose 32 6 < _
      rw [choose_eval, choose_eval]; decide
    · show _ ≤ Nat.choose 28 7 ∧ Nat.choose 27 7 < _
      rw [choose_eval, choose_eval]; decide
    · show _ ≤ Nat.choose 25 8 ∧ Nat.choose 24 8 < _
      rw [choose_eval, choose_eval]; decide
    · show _ ≤ Nat.choose 24 9 ∧ Nat.choose 23 9 < _
      rw [choose_eval, choose_eval]; decide
    · show _ ≤ Nat.choose 23 10 ∧ Nat.choose 22 10 < _
      rw [choose_eval, choose_eval]; decide
    · show _ ≤ Nat.choose 23 11 ∧ Nat.choose 22 11 < _
      rw [choose_eval, choose_eval]; decide
    · show _ ≤ Nat.choose 23 12 ∧ Nat.choose 22 12 < _
      rw [choose_eval, choose_eval]; decide

/-! ## The pool of primes of `gpool_init` -/

theorem pool_count_step (P : Nat → Prop) [DecidablePred P] (g g1 B : Nat)
    (hmin : ∀ p, g < p → P p → g1 ≤ p) :
    ((Finset.Ioo g B).filter P).card ≤ ((Finset.Ioo g1 B).filter P).card + 1 ∧
    (¬ P g1 → ((Finset.Ioo g B).filter P).card ≤ ((Finset.Ioo g1 B).filter P).card) := by
  have hsub : (Finset.Ioo g B).filter P ⊆ insert g1 ((Finset.Ioo g1 B).filter P) := by
    intro p hp
    rw [Finset.mem_filter, Finset.mem_Ioo] at hp
    rw [Finset.mem_insert, Finset.mem_filter, Finset.mem_Ioo]
    have := hmin p hp.1.1 hp.2
    by_cases h : p = g1
    · exact Or.inl h
    · exact Or.inr ⟨⟨by omega, hp.1.2⟩, hp.2⟩
  refine ⟨(Finset.card_le_card hsub).trans (Finset.card_insert_le _ _), fun hn => ?_⟩
  apply Finset.card_le_card
  intro p hp
  rcases Finset.mem_insert.mp (hsub hp) with h | h
  · subst h
    exact absurd (Finset.mem_filter.mp hp).2 hn
  · exact h

theorem get_ui32_of_nat (n : Nat) (h : n < 4294967296) : get_ui32 (n : Int) = n := by
  unfold get_ui32
  rw [Int.natAbs_ofNat, Nat.mod_eq_of_lt h]

theorem get_ui32_lt (g : Int) : get_ui32 g < 4294967296 :=
  Nat.mod_lt _ (by norm_num)

theorem gpool_upper_spec (nextprime : Int → Int) (kron : Int → Int → Int) (N : Int) (ng : Nat)
    (hnext : ∀ g : Int, 0 ≤ g → g < nextprime g ∧ Nat.Prime (nextprime g).toNat ∧
      ∀ p : Nat, g < (p : Int) → p.Prime → nextprime g ≤ (p : Int)) :
    ∀ (fuel gn pos : Nat) (gpool : List Nat), pos ≤ ng → gpool.length = ng →
      ng - pos ≤ ((Finset.Ioo gn 4294967296).filter (pool_prime kron N)).card →
      4294967296 ≤ gn + fuel →
      ∃ gp, gpool_upper nextprime kron N ng fuel (gn : Int) pos gpool = some gp ∧
        gp.length = ng ∧ (∀ i, i < pos → gp.getD i 0 = gpool.getD i 0) ∧
        (∀ i, pos ≤ i → i < ng →
          pool_prime kron N (gp.getD i 0) ∧ gn < gp.getD i 0 ∧ gp.getD i 0 < 4294967296) ∧
        (∀ i j, pos ≤ i → i < j → j < ng → gp.getD i 0 < gp.getD j 0)
  | 0, gn, pos, gpool, hpos, hlen, hcnt, hfuel => by
    have hempty : (Finset.Ioo gn 4294967296).filter (pool_prime kron N) = ∅ := by
      rw [Finset.Ioo_eq_empty (by omega), Finset.filter_empty]
    rw [hempty, Finset.card_empty] at hcnt
    have hp : pos = ng := by omega
    refine ⟨gpool, ?_, hlen, fun _ _ => rfl, fun i h1 h2 => ?_, fun i j h1 h2 h3 => ?_⟩
    · unfold gpool_upper
      rw [if_neg (by omega)]
    · omega
    · omega
  | fuel + 1, gn, pos, gpool, hpos, hlen, hcnt, hfuel => by
    unfold gpool_upper
    by_cases hlt : pos < ng
    swap
    · rw [if_neg hlt]
      exact ⟨gpool, rfl, hlen, fun _ _ => rfl, fun i h1 h2 => by omega,
        fun i j h1 h2 h3 => by omega⟩
    rw [if_pos hlt]
    obtain ⟨hgt, hprime, hleast⟩ := hnext (gn : Int) (Int.ofNat_nonneg gn)
    have hnn : 0 ≤ nextprime (gn : Int) := by omega
    have hcast : (((nextprime (gn : Int)).toNat : Nat) : Int) = nextprime (gn : Int) :=
      Int.toNat_of_nonneg hnn
    generalize hg1 : (nextprime (gn : Int)).toNat = g1 at hcast hprime
    have hgg1 : gn < g1 := by
      have : (gn : Int) < (g1 : Int) := by rw [hcast]; exact hgt
      exact_mod_cast this
    have hmin : ∀ p, gn < p → pool_prime kron N p → g1 ≤ p := by
      intro p hp hP
      have := hleast p (by exact_mod_cast hp) hP.1
      rw [← hcast] at this
      exact_mod_cast this
    obtain ⟨hc1, hc2⟩ := pool_count_step (pool_prime kron N) gn g1 4294967296 hmin
    have hpos1 : 0 < ((Finset.Ioo gn 4294967296).filter (pool_prime kron N)).card := by omega
    obtain ⟨p, hp⟩ := Finset.card_pos.mp hpos1
    rw [Finset.mem_filter, Finset.mem_Ioo] at hp
    have hg1B : g1 < 4294967296 := lt_of_le_of_lt (hmin p hp.1.1 hp.2) hp.1.2
    rw [← hcast]
    by_cases hk : kron N (g1 : Int) = 1
    · rw [if_pos hk, get_ui32_of_nat g1 hg1B]
      obtain ⟨gp, hgp, hl, hlow, hup, hmono⟩ :=
        gpool_upper_spec nextprime kron N ng hnext fuel g1 (pos + 1) (gpool.set pos g1)
          (by omega) (by rw [List.length_set]; exact hlen) (by omega) (by omega)
      have hposv : gp.getD pos 0 = g1 := by
        rw [hlow pos (by omega), getD_set_nat _ _ _ _ (by omega), if_pos rfl]
      refine ⟨gp, hgp, hl, fun i hi => ?_, fun i h1 h2 => ?_, fun i j h1 h2 h3 => ?_⟩
      · rw [hlow i (by omega), getD_set_nat _ _ _ _ (by omega), if_neg (by omega)]
      · by_cases hip : i = pos
        · subst hip
          rw [hposv]
          exact ⟨⟨hprime, hk⟩, hgg1, hg1B⟩
        · obtain ⟨h3, h4, h5⟩ := hup i (by omega) h2
          exact ⟨h3, by omega, h5⟩
      · by_cases hip : i = pos
        · subst hip
          rw [hposv]
          exact (hup j (by omega) h3).2.1
        · exact hmono i j (by omega) h2 h3
    · rw [if_neg hk]
      have hnP : ¬ pool_prime kron N g1 := fun h => hk h.2
      obtain ⟨gp, hgp, hl, hlow, hup, hmono⟩ :=
        gpool_upper_spec nextprime kron N ng hnext fuel g1 pos gpool
          hpos hlen (le_trans hcnt (hc2 hnP)) (by omega)
      refine ⟨gp, hgp, hl, hlow, fun i h1 h2 => ?_, hmono⟩
      obtain ⟨h3, h4, h5⟩ := hup i h1 h2
      exact ⟨h3, by omega, h5⟩

theorem prevprime_loop_spec (prp : Int → Bool)
    (hprp : ∀ n : Int, 2 ≤ n → (prp n = true ↔ Nat.Prime n.toNat)) (p : Nat) (hp : p.Prime) :
    ∀ (fuel m : Nat), p ≤ m → (∀ x, p < x → x ≤ m → ¬ Nat.Prime x) → m - p ≤ fuel →
      prevprime_loop prp fuel (m : Int) = some (p : Int)
  | 0, m, hpm, _, hf => by
    have hm : m = p := by omega
    subst hm
    unfold prevprime_loop
    have h2 := hp.two_le
    rw [if_pos ((hprp (m : Int) (by exact_mod_cast h2)).mpr (by simpa using hp))]
  | fuel + 1, m, hpm, hnone, hf => by
    unfold prevprime_loop
    have h2 := hp.two_le
    by_cases hm : m = p
    · subst hm
      rw [if_pos ((hprp (m : Int) (by exact_mod_cast h2)).mpr (by simpa using hp))]
    · have hnp : ¬ prp (m : Int) = true := by
        rw [hprp (m : Int) (by omega)]
        simpa using hnone m (by omega) le_rfl
      rw [if_neg hnp]
      have hcast : (m : Int) - 1 = ((m - 1 : Nat) : Int) := by omega
      rw [hcast]
      exact prevprime_loop_spec prp hprp p hp fuel (m - 1) (by omega)
        (fun x h1 h2 => hnone x h1 (by omega)) (by omega)

theorem pool_count_down (P : Nat → Prop) [DecidablePred P] (g p : Nat)
    (hmax : ∀ x, x < g → P x → x ≤ p) :
    ((Finset.range g).filter P).card ≤ ((Finset.range p).filter P).card + 1 ∧
    (¬ P p → ((Finset.range g).filter P).card ≤ ((Finset.range p).filter P).card) := by
  have hsub : (Finset.range g).filter P ⊆ insert p ((Finset.range p).filter P) := by
    intro x hx
    rw [Finset.mem_filter, Finset.mem_range] at hx
    rw [Finset.mem_insert, Finset.mem_filter, Finset.mem_range]
    have := hmax x hx.1 hx.2
    by_cases h : x = p
    · exact Or.inl h
    · exact Or.inr ⟨by omega, hx.2⟩
  refine ⟨(Finset.card_le_card hsub).trans (Finset.card_insert_le _ _), fun hn => ?_⟩
  apply Finset.card_le_card
  intro x hx
  rcases Finset.mem_insert.mp (hsub hx) with h | h
  · subst h
    exact absurd (Finset.mem_filter.mp hx).2 hn
  · exact h

theorem gpool_lower_spec (prp : Int → Bool) (kron : Int → Int → Int) (N : Int) (ng : Nat)
    (hprp : ∀ n : Int, 2 ≤ n → (prp n = true ↔ Nat.Prime n.toNat)) (inner : Nat) :
    ∀ (fuel gn r : Nat) (gpool : List Nat), r ≤ ng → gpool.length = ng →
      r ≤ ((Finset.range gn).filter (pool_prime kron N)).card →
      gn ≤ fuel → gn ≤ inner → gn ≤ 4294967296 →
      ∃ gp, gpool_lower prp kron N inner fuel (gn : Int) ((r : Int) - 1) gpool = some gp ∧
        gp.length = ng ∧ (∀ i, r ≤ i → gp.getD i 0 = gpool.getD i 0) ∧
        (∀ i, i < r → pool_prime kron N (gp.getD i 0) ∧ gp.getD i 0 < gn) ∧
        (∀ i j, i < j → j < r → gp.getD i 0 < gp.getD j 0)
  | 0, gn, r, gpool, hr, hlen, hcnt, hfuel, _, _ => by
    have hg : gn = 0 := by omega
    subst hg
    rw [Finset.range_zero, Finset.filter_empty, Finset.card_empty] at hcnt
    have hr0 : r = 0 := by omega
    subst hr0
    refine ⟨gpool, ?_, hlen, fun _ _ => rfl, fun i h => by omega, fun i j _ h => by omega⟩
    unfold gpool_lower
    rw [if_neg (by omega)]
  | fuel + 1, gn, r, gpool, hr, hlen, hcnt, hfuel, hinner, hB => by
    unfold gpool_lower
    by_cases hr0 : r = 0
    · subst hr0
      rw [if_neg (by omega)]
      exact ⟨gpool, rfl, hlen, fun _ _ => rfl, fun i h => by omega, fun i j _ h => by omega⟩
    rw [if_pos (by omega)]
    have hpos1 : 0 < ((Finset.range gn).filter (pool_prime kron N)).card := by omega
    obtain ⟨x0, hx0⟩ := Finset.card_pos.mp hpos1
    rw [Finset.mem_filter, Finset.mem_range] at hx0
    have hpP : Nat.Prime (Nat.findGreatest Nat.Prime (gn - 1)) :=
      Nat.findGreatest_spec (show x0 ≤ gn - 1 by omega) hx0.2.1
    have hple : Nat.findGreatest Nat.Prime (gn - 1) ≤ gn - 1 := Nat.findGreatest_le _
    have hgreat : ∀ x, Nat.findGreatest Nat.Prime (gn - 1) < x → x ≤ gn - 1 → ¬ Nat.Prime x :=
      fun x h1 h2 => Nat.findGreatest_is_greatest h1 h2
    generalize Nat.findGreatest Nat.Prime (gn - 1) = p at hpP hple hgreat
    have hprev : mpz_prevprime prp inner (gn : Int) = some (p : Int) := by
      unfold mpz_prevprime
      have hcast : (gn : Int) - 1 = ((gn - 1 : Nat) : Int) := by omega
      rw [hcast]
      exact prevprime_loop_spec prp hprp p hpP inner (gn - 1) hple hgreat (by omega)
    rw [hprev]
    simp only []
    have hmax : ∀ x, x < gn → pool_prime kron N x → x ≤ p := by
      intro x hx hP
      by_contra hlt
      exact hgreat x (by omega) (by omega) hP.1
    obtain ⟨hc1, hc2⟩ := pool_count_down (pool_prime kron N) gn p hmax
    have hpg : p < gn := by omega
    by_cases hk : kron N (p : Int) = 1
    · rw [if_pos hk, get_ui32_of_nat p (by omega)]
      have hidx : ((r : Int) - 1).toNat = r - 1 := by omega
      have hnext : (r : Int) - 1 - 1 = ((r - 1 : Nat) : Int) - 1 := by omega
      rw [hidx, hnext]
      obtain ⟨gp, hgp, hl, hhigh, hlowp, hmono⟩ :=
        gpool_lower_spec prp kron N ng hprp inner fuel p (r - 1) (gpool.set (r - 1) p)
          (by omega) (by rw [List.length_set]; exact hlen) (by omega) (by omega) (by omega)
          (by omega)
      have hposv : gp.getD (r - 1) 0 = p := by
        rw [hhigh (r - 1) le_rfl, getD_set_nat _ _ _ _ (by omega), if_pos rfl]
      refine ⟨gp, hgp, hl, fun i hi => ?_, fun i hi => ?_, fun i j h1 h2 => ?_⟩
      · rw [hhigh i (by omega), getD_set_nat _ _ _ _ (by omega), if_neg (by omega)]
      · by_cases hir : i = r - 1
        · subst hir
          rw [hposv]
          exact ⟨⟨hpP, hk⟩, hpg⟩
        · obtain ⟨h3, h4⟩ := hlowp i (by omega)
          exact ⟨h3, by omega⟩
      · by_cases hjr : j = r - 1
        · subst hjr
          rw [hposv]
          exact (hlowp i h1).2
        · exact hmono i j h1 (by omega)
    · rw [if_neg hk]
      have hnP : ¬ pool_prime kron N p := fun h => hk h.2
      obtain ⟨gp, hgp, hl, hhigh, hlowp, hmono⟩ :=
        gpool_lower_spec prp kron N ng hprp inner fuel p r gpool
          hr hlen (le_trans hcnt (hc2 hnP)) (by omega) (by omega) (by omega)
      refine ⟨gp, hgp, hl, hhigh, fun i hi => ?_, hmono⟩
      obtain ⟨h3, h4⟩ := hlowp i hi
      exact ⟨h3, by omega⟩

theorem mpz_root_eq (n r k : Nat) (hk : 0 < k) (h1 : r ^ k ≤ n) (h2 : n < (r + 1) ^ k) :
    mpz_root (n : Int) k = (r : Int) := by
  unfold mpz_root
  rw [Int.toNat_ofNat, Nat.cast_inj, Nat.findGreatest_eq_iff]
  refine ⟨le_trans (Nat.le_self_pow hk.ne' r) h1, fun _ => h1, fun m hm _ hle => ?_⟩
  have : (r + 1) ^ k ≤ m ^ k := Nat.pow_le_pow_left hm k
  omega

theorem mpz_root_pow (r k : Nat) (hk : 0 < k) : mpz_root ((r ^ k : Nat) : Int) k = (r : Int) :=
  mpz_root_eq (r ^ k) r k hk le_rfl (Nat.pow_lt_pow_left (Nat.lt_succ_self r) hk.ne')

theorem gpool_aopt_two_pow (ns : nsieve_t) (e m : Nat) (he : 1 ≤ e) (hm : m ≤ e)
    (hN : ns.N = 2 ^ (2 * e - 1)) (hM : ns.M = 2 ^ m) :
    gpool_aopt ns = ((2 ^ (e - m) : Nat) : Int) := by
  unfold gpool_aopt
  have h1 : ns.N * 2 = (((2 ^ e) ^ 2 : Nat) : Int) := by
    rw [hN, ← pow_succ]
    push_cast
    rw [← pow_mul]
    congr 1
    omega
  have h2 : Int.sqrt (ns.N * 2) = ((2 ^ e : Nat) : Int) := by
    rw [h1]
    unfold Int.sqrt
    rw [Int.toNat_ofNat, Nat.sqrt_eq']
  rw [h2, hM]
  have h3 : (2 ^ e : Nat) = 2 ^ (e - m) * 2 ^ m := by
    rw [← pow_add]
    congr 1
    omega
  rw [h3, Int.tdiv_eq_ediv (by positivity) (by positivity)]
  push_cast
  exact Int.mul_ediv_cancel _ (by positivity)

theorem ns_wide_center : mpz_root (gpool_aopt ns_wide) 12 = ((2 ^ 32 : Nat) : Int) := by
  rw [gpool_aopt_two_pow ns_wide 400 16 (by norm_num) (by norm_num) rfl rfl]
  have : (2 ^ (400 - 16) : Nat) = (2 ^ 32) ^ 12 := by
    rw [← pow_mul]
  rw [this]
  exact mpz_root_pow (2 ^ 32) 12 (by norm_num)

theorem getD_set_cases (l : List Nat) (j i v : Nat) :
    (l.set j v).getD i 0 = v ∨ (l.set j v).getD i 0 = l.getD i 0 := by
  by_cases hj : j < l.length
  · rw [getD_set_nat _ _ _ _ hj]
    by_cases h : i = j
    · exact Or.inl (if_pos h)
    · exact Or.inr (if_neg h)
  · rw [List.set_eq_of_length_le (by omega)]
    exact Or.inr rfl

theorem gpool_upper_bound (nextprime : Int → Int) (kron : Int → Int → Int) (N : Int) (ng : Nat) :
    ∀ (fuel : Nat) (g : Int) (pos : Nat) (gpool gp : List Nat),
      (∀ i, gpool.getD i 0 < 4294967296) →
      gpool_upper nextprime kron N ng fuel g pos gpool = some gp →
      ∀ i, gp.getD i 0 < 4294967296
  | 0, g, pos, gpool, gp, hb, h => by
    unfold gpool_upper at h
    split at h
    · exact absurd h (by simp)
    · rw [← Option.some_inj.mp h]
      exact hb
  | fuel + 1, g, pos, gpool, gp, hb, h => by
    unfold gpool_upper at h
    split at h
    · split at h
      · refine gpool_upper_bound nextprime kron N ng fuel _ _ _ gp (fun i => ?_) h
        rcases getD_set_cases gpool pos i (get_ui32 (nextprime g)) with e | e
        · rw [e]; exact get_ui32_lt _
        · rw [e]; exact hb i
      · exact gpool_upper_bound nextprime kron N ng fuel _ _ _ gp hb h
    · rw [← Option.some_inj.mp h]
      exact hb

theorem gpool_lower_bound (prp : Int → Bool) (kron : Int → Int → Int) (N : Int) (inner : Nat) :
    ∀ (fuel : Nat) (g pos : Int) (gpool gp : List Nat),
      (∀ i, gpool.getD i 0 < 4294967296) →
      gpool_lower prp kron N inner fuel g pos gpool = some gp →
      ∀ i, gp.getD i 0 < 4294967296
  | 0, g, pos, gpool, gp, hb, h => by
    unfold gpool_lower at h
    split at h
    · exact absurd h (by simp)
    · rw [← Option.some_inj.mp h]
      exact hb
  | fuel + 1, g, pos, gpool, gp, hb, h => by
    unfold gpool_lower at h
    split at h
    · split at h
      · exact absurd h (by simp)
      · rename_i g1 _
        split at h
        · refine gpool_lower_bound prp kron N inner fuel _ _ _ gp (fun i => ?_) h
          rcases getD_set_cases gpool pos.toNat i (get_ui32 g1) with e | e
          · rw [e]; exact get_ui32_lt _
          · rw [e]; exact hb i
        · exact gpool_lower_bound prp kron N inner fuel _ _ _ gp hb h
    · rw [← Option.some_inj.mp h]
      exact hb

theorem gpool_fill_bound (nextprime : Int → Int) (prp : Int → Bool) (kron : Int → Int → Int)
    (N temp : Int) (ng fuel : Nat) (gp : List Nat)
    (h : gpool_fill nextprime prp kron N temp ng fuel = some gp) (i : Nat) :
    gp.getD i 0 < 4294967296 := by
  unfold gpool_fill at h
  split at h
  · exact absurd h (by simp)
  · rename_i gp1 h1
    exact gpool_lower_bound prp kron N fuel fuel _ _ gp1 gp
      (gpool_upper_bound nextprime kron N ng fuel _ _ _ gp1
        (fun i => by rw [getD_replicate_zero]; norm_num) h1) h i

theorem gpool_fill_spec (nextprime : Int → Int) (prp : Int → Bool) (kron : Int → Int → Int)
    (N : Int) (ng c fuel : Nat)
    (hnext : ∀ g : Int, 0 ≤ g → g < nextprime g ∧ Nat.Prime (nextprime g).toNat ∧
      ∀ p : Nat, g < (p : Int) → p.Prime → nextprime g ≤ (p : Int))
    (hprp : ∀ n : Int, 2 ≤ n → (prp n = true ↔ Nat.Prime n.toNat))
    (hng : 0 < ng)
    (hlow : ng / 2 ≤ ((Finset.range c).filter (pool_prime kron N)).card)
    (hup : ng - ng / 2 ≤ ((Finset.Ioo c 4294967296).filter (pool_prime kron N)).card)
    (hfuel : 4294967296 ≤ fuel) :
    ∃ gp, gpool_fill nextprime prp kron N (c : Int) ng fuel = some gp ∧ gp.length = ng ∧
      (∀ i, i < ng → pool_prime kron N (gp.getD i 0)) ∧
      (∀ i j, i < j → j < ng → gp.getD i 0 < gp.getD j 0) ∧
      (∀ i, i < ng / 2 → gp.getD i 0 < c) ∧
      (∀ i, ng / 2 ≤ i → i < ng → c < gp.getD i 0) := by
  have hc : c < 4294967296 := by
    have hpos1 : 0 < ((Finset.Ioo c 4294967296).filter (pool_prime kron N)).card := by omega
    obtain ⟨p, hp⟩ := Finset.card_pos.mp hpos1
    rw [Finset.mem_filter, Finset.mem_Ioo] at hp
    omega
  obtain ⟨gp1, hgp1, hl1, _, hup1, hmono1⟩ :=
    gpool_upper_spec nextprime kron N ng hnext fuel c (ng / 2) (List.replicate ng 0)
      (by omega) (List.length_replicate _ _) hup (by omega)
  obtain ⟨gp2, hgp2, hl2, hhigh2, hlow2, hmono2⟩ :=
    gpool_lower_spec prp kron N ng hprp fuel fuel c (ng / 2) gp1
      (by omega) hl1 hlow (by omega) (by omega) (by omega)
  refine ⟨gp2, ?_, hl2, fun i hi => ?_, fun i j hij hj => ?_, fun i hi => (hlow2 i hi).2,
    fun i h1 h2 => ?_⟩
  · unfold gpool_fill
    rw [hgp1]
    exact hgp2
  · by_cases h : i < ng / 2
    · exact (hlow2 i h).1
    · rw [hhigh2 i (by omega)]
      exact (hup1 i (by omega) hi).1
  · by_cases h1 : j < ng / 2
    · exact hmono2 i j hij h1
    · rw [hhigh2 j (by omega)]
      by_cases h2 : i < ng / 2
      · have := (hlow2 i h2).2
        have := (hup1 j (by omega) hj).2.1
        omega
      · rw [hhigh2 i (by omega)]
        exact hmono1 i j (by omega) hij hj
  · rw [hhigh2 i h1]
    exact (hup1 i h1 h2).2.1

theorem q_entry_pos (k : Nat) (hk : 1 ≤ k) (hk12 : k ≤ 12) : 0 < q.getD (k - 1) 0 := by
  interval_cases k <;> decide

/-- C18, amended: after `gpool_init` has chosen `k` (between `1` and `12`), provided at least
`⌊q[k-1]/2⌋` primes `g` with `(N / g) = 1` exist below the centre `⌊aopt^(1/k)⌋` and at least
`q[k-1] - ⌊q[k-1]/2⌋` such primes exist above the centre and below `2^32` (the range of the
`uint32_t` entries of the pool), the two loops terminate and the pool holds exactly `q[k-1]`
values, each a prime `g` with `(N / g) = 1`, in strictly increasing order; the `⌊q[k-1]/2⌋`
entries at the low indices lie below the centre and the other entries lie above it.
`mpz_nextprime` returns the least prime above its argument and `mpz_probab_prime_p` is exact on
the numbers from `2` on. -/
theorem gpool_init_pool (nextprime : Int → Int) (prp : Int → Bool) (kron : Int → Int → Int)
    (ns : nsieve_t) (k fuel : Nat) (hk : 1 ≤ k) (hk12 : k ≤ 12)
    (hnext : ∀ g : Int, 0 ≤ g → g < nextprime g ∧ Nat.Prime (nextprime g).toNat ∧
      ∀ p : Nat, g < (p : Int) → p.Prime → nextprime g ≤ (p : Int))
    (hprp : ∀ n : Int, 2 ≤ n → (prp n = true ↔ Nat.Prime n.toNat))
    (hlow : q.getD (k - 1) 0 / 2 ≤
      ((Finset.range (mpz_root (gpool_aopt ns) k).toNat).filter (pool_prime kron ns.N)).card)
    (hup : q.getD (k - 1) 0 - q.getD (k - 1) 0 / 2 ≤
      ((Finset.Ioo (mpz_root (gpool_aopt ns) k).toNat 4294967296).filter
        (pool_prime kron ns.N)).card)
    (hfuel : 4294967296 ≤ fuel) :
    ∃ gp ns1, gpool_init nextprime prp kron ns k fuel = some (gp, ns1) ∧
      gp.ng = q.getD (k - 1) 0 ∧ gp.gpool.length = q.getD (k - 1) 0 ∧
      (∀ i, i < gp.ng →
        Nat.Prime (gp.gpool.getD i 0) ∧ kron ns.N ((gp.gpool.getD i 0 : Nat) : Int) = 1) ∧
      (∀ i j, i < j → j < gp.ng → gp.gpool.getD i 0 < gp.gpool.getD j 0) ∧
      (∀ i, i < gp.ng / 2 → ((gp.gpool.getD i 0 : Nat) : Int) < mpz_root (gpool_aopt ns) k) ∧
      (∀ i, gp.ng / 2 ≤ i → i < gp.ng →
        mpz_root (gpool_aopt ns) k < ((gp.gpool.getD i 0 : Nat) : Int)) := by
  have hcast : (((mpz_root (gpool_aopt ns) k).toNat : Nat) : Int) = mpz_root (gpool_aopt ns) k :=
    Int.toNat_of_nonneg (by unfold mpz_root; exact Int.ofNat_nonneg _)
  generalize (mpz_root (gpool_aopt ns) k).toNat = c at hcast hlow hup
  obtain ⟨gp, hgp, hl, hP, hmono, hbelow, habove⟩ :=
    gpool_fill_spec nextprime prp kron ns.N (q.getD (k - 1) 0) c fuel hnext hprp
      (q_entry_pos k hk hk12) hlow hup hfuel
  refine ⟨{ gpool := gp, ng := q.getD (k - 1) 0,
            center := get_ui32 (mpz_root (gpool_aopt ns) k), frogs := List.range k },
    gpool_set_k ns k, ?_, rfl, hl, hP, hmono, fun i hi => ?_, fun i h1 h2 => ?_⟩
  · unfold gpool_init
    rw [if_neg (by omega)]
    simp only []
    rw [← hcast, hgp]
  · rw [← hcast]
    exact_mod_cast hbelow i hi
  · rw [← hcast]
    exact_mod_cast habove i h1 h2

theorem next_prime_spec (g : Int) (_ : 0 ≤ g) :
    g < next_prime g ∧ Nat.Prime (next_prime g).toNat ∧
      ∀ p : Nat, g < (p : Int) → p.Prime → next_prime g ≤ (p : Int) := by
  unfold next_prime
  have hs := Nat.find_spec (Nat.exists_infinite_primes (g.toNat + 1))
  refine ⟨by omega, by rw [Int.toNat_ofNat]; exact hs.2, fun p hp hpp => ?_⟩
  have := Nat.find_min' (Nat.exists_infinite_primes (g.toNat + 1))
    (show g.toNat + 1 ≤ p ∧ p.Prime from ⟨by omega, hpp⟩)
  exact_mod_cast this

theorem exact_prime_spec (n : Int) (hn : 2 ≤ n) :
    exact_prime n = true ↔ Nat.Prime n.toNat := by
  unfold exact_prime
  rw [decide_eq_true_iff]
  have : n.natAbs = n.toNat := by omega
  rw [this]

theorem kron_jacobi_two_pow (e p : Nat) (h : jacobiSym 2 p = 1) :
    kron_jacobi (2 ^ e) (p : Int) = 1 := by
  unfold kron_jacobi
  rw [Int.natAbs_ofNat, jacobiSym.pow_left, h, one_pow]

theorem kron_jacobi_two_pow_even (e p : Nat) (h : Int.gcd 2 p = 1) :
    kron_jacobi (2 ^ (2 * e)) (p : Int) = 1 := by
  unfold kron_jacobi
  rw [Int.natAbs_ofNat, jacobiSym.pow_left, pow_mul, jacobiSym.sq_one h, one_pow]

theorem ns_wide_low_primes :
    11 ≤ ((Finset.range 4294967296).filter (pool_prime kron_jacobi (2 ^ 799))).card := by
  have hsub : ({7, 17, 23, 31, 41, 47, 71, 73, 79, 89, 97} : Finset Nat) ⊆
      (Finset.range 4294967296).filter (pool_prime kron_jacobi (2 ^ 799)) := by
    intro x hx
    rw [Finset.mem_filter, Finset.mem_range]
    simp only [Finset.mem_insert, Finset.mem_singleton] at hx
    rcases hx with rfl | rfl | rfl | rfl | rfl | rfl | rfl | rfl | rfl | rfl | rfl <;>
      exact ⟨by norm_num, by norm_num, kron_jacobi_two_pow 799 _ (by norm_num)⟩
  exact le_trans (by decide) (Finset.card_le_card hsub)

/-- C18 as stated fails: for `N = 2^799` and `M = 65536` the centre of the pool for `k = 12` is
`2^32`; there are 11 primes `g < 2^32` with `(N / g) = 1` (`7, 17, 23, …, 97`), so the claim's
condition holds, but every pool entry is a `uint32_t` value and hence below `2^32`: whenever
`gpool_init` returns, the entry at index `11`, the first of the upper half of the `23` entries,
does not lie above the centre. -/
theorem gpool_init_upper_half_truncated :
    q.getD (12 - 1) 0 / 2 ≤
      ((Finset.range (mpz_root (gpool_aopt ns_wide) 12).toNat).filter
        (pool_prime kron_jacobi ns_wide.N)).card ∧
    ∀ fuel gp ns1,
      gpool_init next_prime exact_prime kron_jacobi ns_wide 12 fuel = some (gp, ns1) →
      gp.ng / 2 ≤ 11 ∧ 11 < gp.ng ∧
      ¬ mpz_root (gpool_aopt ns_wide) 12 < ((gp.gpool.getD 11 0 : Nat) : Int) := by
  have hc : mpz_root (gpool_aopt ns_wide) 12 = ((4294967296 : Nat) : Int) := by
    rw [ns_wide_center]
    norm_num
  refine ⟨?_, fun fuel gp ns1 h => ?_⟩
  · rw [hc, Int.toNat_ofNat]
    exact ns_wide_low_primes
  · unfold gpool_init at h
    rw [if_neg (by norm_num)] at h
    simp only [] at h
    split at h
    · exact absurd h (by simp)
    · rename_i gpl hfill
      rw [Option.some_inj, Prod.mk.injEq] at h
      rw [← h.1, hc]
      have hb := gpool_fill_bound _ _ _ _ _ _ _ gpl hfill 11
      refine ⟨(by decide : q.getD (12 - 1) 0 / 2 ≤ 11), (by decide : 11 < q.getD (12 - 1) 0),
        ?_⟩
      show ¬ ((4294967296 : Nat) : Int) < ((gpl.getD 11 0 : Nat) : Int)
      omega

theorem ns_pool_center : mpz_root (gpool_aopt ns_pool) 10 = ((40 : Nat) : Int) := by
  have h1 : gpool_aopt ns_pool = ((12738103345051545 : Nat) : Int) := by
    unfold gpool_aopt
    show Int.tdiv (Int.sqrt (2 ^ 106 * 2)) ((1 : Nat) : Int) = _
    have h2 : (2 ^ 106 * 2 : Int) = ((162259276829213363391578010288128 : Nat) : Int) := by
      norm_num
    rw [h2]
    unfold Int.sqrt
    rw [Int.toNat_ofNat]
    have h3 : Nat.sqrt 162259276829213363391578010288128 = 12738103345051545 := by norm_num
    rw [h3, Int.tdiv_eq_ediv (by positivity) (by positivity)]
    norm_num
  rw [h1]
  exact mpz_root_eq 12738103345051545 40 10 (by norm_num) (by norm_num) (by norm_num)

theorem ns_pool_low_primes :
    11 ≤ ((Finset.range 40).filter (pool_prime kron_jacobi (2 ^ 106))).card := by
  have hsub : ({3, 5, 7, 11, 13, 17, 19, 23, 29, 31, 37} : Finset Nat) ⊆
      (Finset.range 40).filter (pool_prime kron_jacobi (2 ^ 106)) := by
    intro x hx
    rw [Finset.mem_filter, Finset.mem_range]
    simp only [Finset.mem_insert, Finset.mem_singleton] at hx
    rcases hx with rfl | rfl | rfl | rfl | rfl | rfl | rfl | rfl | rfl | rfl | rfl <;>
      exact ⟨by norm_num, by norm_num, kron_jacobi_two_pow_even 53 _ (by decide)⟩
  exact le_trans (by decide) (Finset.card_le_card hsub)

theorem ns_pool_high_primes :
    12 ≤ ((Finset.Ioo 40 4294967296).filter (pool_prime kron_jacobi (2 ^ 106))).card := by
  have hsub : ({41, 43, 47, 53, 59, 61, 67, 71, 73, 79, 83, 89} : Finset Nat) ⊆
      (Finset.Ioo 40 4294967296).filter (pool_prime kron_jacobi (2 ^ 106)) := by
    intro x hx
    rw [Finset.mem_filter, Finset.mem_Ioo]
    simp only [Finset.mem_insert, Finset.mem_singleton] at hx
    rcases hx with rfl | rfl | rfl | rfl | rfl | rfl | rfl | rfl | rfl | rfl | rfl | rfl <;>
      exact ⟨by norm_num, by norm_num, kron_jacobi_two_pow_even 53 _ (by decide)⟩
  exact le_trans (by decide) (Finset.card_le_card hsub)

theorem gpool_init_pool_witness :
    ∃ gp ns1, gpool_init next_prime exact_prime kron_jacobi ns_pool 10 4294967296
        = some (gp, ns1) ∧
      gp.ng = q.getD (10 - 1) 0 ∧ gp.gpool.length = q.getD (10 - 1) 0 ∧
      (∀ i, i < gp.ng → Nat.Prime (gp.gpool.getD i 0) ∧
        kron_jacobi ns_pool.N ((gp.gpool.getD i 0 : Nat) : Int) = 1) ∧
      (∀ i j, i < j → j < gp.ng → gp.gpool.getD i 0 < gp.gpool.getD j 0) ∧
      (∀ i, i < gp.ng / 2 →
        ((gp.gpool.getD i 0 : Nat) : Int) < mpz_root (gpool_aopt ns_pool) 10) ∧
      (∀ i, gp.ng / 2 ≤ i → i < gp.ng →
        mpz_root (gpool_aopt ns_pool) 10 < ((gp.gpool.getD i 0 : Nat) : Int)) :=
  gpool_init_pool next_prime exact_prime kron_jacobi ns_pool 10 4294967296 (by decide)
    (by decide) next_prime_spec exact_prime_spec
    (by rw [ns_pool_center, Int.toNat_ofNat]; exact ns_pool_low_primes)
    (by rw [ns_pool_center, Int.toNat_ofNat]; exact ns_pool_high_primes)
    le_rfl

/-! ## Claims about the parameters -/

theorem u32_of_double_le (x : Rat) (b : Nat) (h0 : 0 ≤ x) (hb : x ≤ (b : Rat))
    (hlt : b < 4294967296) : u32_of_double x ≤ b := by
  unfold u32_of_double
  have h1 : Int.floor x ≤ (b : Int) := by
    have : ((Int.floor x : Int) : Rat) ≤ (b : Rat) := le_trans (Int.floor_le x) hb
    exact_mod_cast this
  have h2 : 0 ≤ Int.floor x := Int.floor_nonneg.mpr h0
  have h3 : (Int.floor x).toNat ≤ b := by omega
  rw [Nat.mod_eq_of_lt (by omega)]
  exact h3

theorem set_params_fields (fp : float_ops) (ns : nsieve_t) (p1 p2 : Nat) (fac : Rat)
    (hfb : u32_of_double (fp.interp (param p1 1) fac (param p2 1)) ≠ 4294967295) :
    (ns.lp_bound = 0 →
      (set_params fp ns p1 p2 fac).lp_bound = (set_params fp ns p1 p2 fac).fb_bound) ∧
    (ns.fb_bound ≠ 4294967295 → (set_params fp ns p1 p2 fac).fb_bound = ns.fb_bound) ∧
    (ns.lp_bound ≠ 0 → ns.lp_bound ≠ 4294967295 →
      (set_params fp ns p1 p2 fac).lp_bound = ns.lp_bound) ∧
    (ns.M ≠ 4294967295 → (set_params fp ns p1 p2 fac).M = ns.M) ∧
    (ns.T ≠ -1 → (set_params fp ns p1 p2 fac).T = ns.T) := by
  unfold set_params
  generalize u32_of_double (fp.interp (param p1 1) fac (param p2 1)) = v1 at hfb
  generalize u32_of_double (fp.interp (param p1 2) fac (param p2 2)) = v2
  generalize u32_of_double (fp.interp (param p1 3) fac (param p2 3)) = v3
  generalize fp.to_float (fp.interp (param p1 4) fac (param p2 4)) = v4
  by_cases c1 : ns.fb_bound = 4294967295 <;> by_cases c2 : ns.lp_bound = 0 <;>
    by_cases c3 : ns.lp_bound = 4294967295 <;> by_cases c4 : ns.M = 4294967295 <;>
    by_cases c5 : ns.T = -1 <;>
    simp [c1, c2, c3, c4, c5, hfb]

theorem param_col0 : param 0 0 = 100 ∧ param 1 0 = 120 ∧ param 2 0 = 140 ∧ param 3 0 = 160 := by
  norm_num [param, params]

theorem param_fb_bounds (i : Nat) : 0 ≤ param i 1 ∧ param i 1 ≤ 55000 := by
  rcases i with _ | _ | _ | _ | i <;> norm_num [param, params]

theorem params_level_eq (bits : Nat) (h1 : 100 < bits) (h2 : bits < 160) :
    (bits ≤ 120 → params_level bits 4 0 = 1) ∧
    (120 < bits → bits ≤ 140 → params_level bits 4 0 = 2) ∧
    (140 < bits → params_level bits 4 0 = 3) := by
  obtain ⟨e0, e1, e2, e3⟩ := param_col0
  have c0 : (100 : Rat) < (bits : Rat) := by exact_mod_cast h1
  refine ⟨fun h => ?_, fun h3 h4 => ?_, fun h => ?_⟩
  · have c1 : ¬ (120 : Rat) < (bits : Rat) := by
      rw [not_lt]; exact_mod_cast h
    simp [params_level, e0, e1, c0, c1]
  · have c1 : (120 : Rat) < (bits : Rat) := by exact_mod_cast h3
    have c2 : ¬ (140 : Rat) < (bits : Rat) := by
      rw [not_lt]; exact_mod_cast h4
    simp [params_level, e0, e1, e2, c0, c1, c2]
  · have c1 : (120 : Rat) < (bits : Rat) := by
      have : 120 < bits := by omega
      exact_mod_cast this
    have c2 : (140 : Rat) < (bits : Rat) := by exact_mod_cast h
    have c3 : ¬ (160 : Rat) < (bits : Rat) := by
      rw [not_lt]
      have : bits ≤ 160 := by omega
      exact_mod_cast this
    simp [params_level, e0, e1, e2, e3, c0, c1, c2, c3]

theorem select_parameters_call (fp : float_ops) (ns : nsieve_t)
    (hdiv : ∀ x y : Rat, 0 ≤ x → x ≤ y → 0 < y → 0 ≤ fp.div x y ∧ fp.div x y ≤ 1) :
    ∃ p1 p2 fac, select_parameters fp ns = set_params fp ns p1 p2 fac ∧ 0 ≤ fac ∧ fac ≤ 1 := by
  obtain ⟨e0, e1, e2, e3⟩ := param_col0
  unfold select_parameters
  simp only []
  split_ifs with h1 h2
  · exact ⟨0, 0, 0, rfl, le_rfl, zero_le_one⟩
  · exact ⟨4 - 1, 4 - 1, 0, rfl, le_rfl, zero_le_one⟩
  · refine ⟨_, _, _, rfl, ?_⟩
    rw [e0, not_le] at h1
    rw [show (4 - 1 : Nat) = 3 from rfl, e3, ge_iff_le, not_le] at h2
    generalize mpz_sizeinbase2 ns.N = bits at h1 h2
    have hb1 : 100 < bits := by exact_mod_cast h1
    have hb2 : bits < 160 := by exact_mod_cast h2
    obtain ⟨l1, l2, l3⟩ := params_level_eq bits hb1 hb2
    by_cases c1 : bits ≤ 120
    · rw [l1 c1, show (1 - 1 : Nat) = 0 from rfl, e0, e1]
      have : (bits : Rat) ≤ 120 := by exact_mod_cast c1
      exact hdiv _ _ (by linarith) (by linarith) (by norm_num)
    · by_cases c2 : bits ≤ 140
      · rw [l2 (by omega) c2, show (2 - 1 : Nat) = 1 from rfl, e1, e2]
        have : (bits : Rat) ≤ 140 := by exact_mod_cast c2
        have : (120 : Rat) < bits := by
          have : 120 < bits := by omega
          exact_mod_cast this
        exact hdiv _ _ (by linarith) (by linarith) (by norm_num)
      · rw [l3 (by omega), show (3 - 1 : Nat) = 2 from rfl, e2, e3]
        have : (140 : Rat) < bits := by
          have : 140 < bits := by omega
          exact_mod_cast this
        exact hdiv _ _ (by linarith) (by linarith) (by norm_num)

/-- C20: whatever `N` is, if `lp_bound` is `0` when `select_parameters` calls `set_params`, then
afterwards `lp_bound` equals the final `fb_bound`, whether that was given by the user or filled
from the table; and a parameter that is not at its sentinel (for `lp_bound`: neither `0` nor
the sentinel) is left unchanged.  The floating-point operations only have to keep a quotient
`x / y` with `0 ≤ x ≤ y` in `[0, 1]` and the interpolated value in `[0, a + b]`. -/
theorem select_parameters_lp_bound (fp : float_ops) (ns : nsieve_t)
    (hdiv : ∀ x y : Rat, 0 ≤ x → x ≤ y → 0 < y → 0 ≤ fp.div x y ∧ fp.div x y ≤ 1)
    (hint : ∀ a fac b : Rat, 0 ≤ a → 0 ≤ b → 0 ≤ fac → fac ≤ 1 →
      0 ≤ fp.interp a fac b ∧ fp.interp a fac b ≤ a + b) :
    (ns.lp_bound = 0 →
      (select_parameters fp ns).lp_bound = (select_parameters fp ns).fb_bound) ∧
    (ns.fb_bound ≠ 4294967295 → (select_parameters fp ns).fb_bound = ns.fb_bound) ∧
    (ns.lp_bound ≠ 0 → ns.lp_bound ≠ 4294967295 →
      (select_parameters fp ns).lp_bound = ns.lp_bound) ∧
    (ns.M ≠ 4294967295 → (select_parameters fp ns).M = ns.M) ∧
    (ns.T ≠ -1 → (select_parameters fp ns).T = ns.T) := by
  obtain ⟨p1, p2, fac, hcall, hf0, hf1⟩ := select_parameters_call fp ns hdiv
  rw [hcall]
  apply set_params_fields
  obtain ⟨ha0, ha1⟩ := param_fb_bounds p1
  obtain ⟨hb0, hb1⟩ := param_fb_bounds p2
  obtain ⟨hi0, hi1⟩ := hint (param p1 1) fac (param p2 1) ha0 hb0 hf0 hf1
  have := u32_of_double_le (fp.interp (param p1 1) fac (param p2 1)) 110000 hi0
    (by push_cast; linarith) (by norm_num)
  omega

theorem select_parameters_lp_bound_witness :
    (ns_np.lp_bound = 0 →
      (select_parameters fp_exact ns_np).lp_bound = (select_parameters fp_exact ns_np).fb_bound) ∧
    (ns_np.fb_bound ≠ 4294967295 → (select_parameters fp_exact ns_np).fb_bound = ns_np.fb_bound) ∧
    (ns_np.lp_bound ≠ 0 → ns_np.lp_bound ≠ 4294967295 →
      (select_parameters fp_exact ns_np).lp_bound = ns_np.lp_bound) ∧
    (ns_np.M ≠ 4294967295 → (select_parameters fp_exact ns_np).M = ns_np.M) ∧
    (ns_np.T ≠ -1 → (select_parameters fp_exact ns_np).T = ns_np.T) :=
  select_parameters_lp_bound fp_exact ns_np
    (fun x y hx hxy hy => ⟨div_nonneg hx hy.le, (div_le_one hy).mpr hxy⟩)
    (fun a fac b ha hb hf0 hf1 => by
      show 0 ≤ a * fac + b * (1 - fac) ∧ a * fac + b * (1 - fac) ≤ a + b
      constructor
      · have := mul_nonneg ha hf0
        have := mul_nonneg hb (sub_nonneg.mpr hf1)
        linarith
      · have := mul_nonneg ha (sub_nonneg.mpr hf1)
        have := mul_nonneg hb hf0
        linarith)

/-! ## Claims about `nsieve_init` and the shape of the history matrix -/

theorem nsieve_init_fields (fp : float_ops) (kron : Int → Nat → Int)
    (find_root : Int → Nat → Nat) (fast_log : Nat → Nat) (ns : nsieve_t) (n : Int) :
    (nsieve_init fp kron find_root fast_log ns n).row_len
      = (nsieve_init fp kron find_root fast_log ns n).fb_len / 64 + 1 ∧
    (nsieve_init fp kron find_root fast_log ns n).rels_needed
      = (nsieve_init fp kron find_root fast_log ns n).fb_len + 48 :=
  ⟨rfl, rfl⟩

/-- C21: for every input, `nsieve_init` sets `row_len = ⌈(L + 1) / 64⌉` with `L = fb_len`, so
every column index `0, …, L` is below `64 * row_len`. -/
theorem nsieve_init_row_len (fp : float_ops) (kron : Int → Nat → Int)
    (find_root : Int → Nat → Nat) (fast_log : Nat → Nat) (ns : nsieve_t) (n : Int) :
    (nsieve_init fp kron find_root fast_log ns n).row_len
      = Nat.ceil ((((nsieve_init fp kron find_root fast_log ns n).fb_len : Rat) + 1) / 64) ∧
    ∀ c, c ≤ (nsieve_init fp kron find_root fast_log ns n).fb_len →
      c < 64 * (nsieve_init fp kron find_root fast_log ns n).row_len := by
  obtain ⟨h1, _⟩ := nsieve_init_fields fp kron find_root fast_log ns n
  generalize (nsieve_init fp kron find_root fast_log ns n).fb_len = L at h1
  generalize (nsieve_init fp kron find_root fast_log ns n).row_len = rl at h1
  subst h1
  refine ⟨?_, fun c hc => by omega⟩
  symm
  rw [Nat.ceil_eq_iff (by omega)]
  have e : L / 64 + 1 - 1 = L / 64 := by omega
  rw [e]
  constructor
  · rw [lt_div_iff₀ (by norm_num)]
    have : L / 64 * 64 < L + 1 := by omega
    exact_mod_cast this
  · rw [div_le_iff₀ (by norm_num)]
    have : L + 1 ≤ (L / 64 + 1) * 64 := by omega
    exact_mod_cast this

theorem get_bit_cases (row : List Nat) (i : Nat) : get_bit row i = 0 ∨ get_bit row i = 1 := by
  unfold get_bit
  split
  · exact Or.inr rfl
  · exact Or.inl rfl

theorem get_bit_of_length_le (row : List Nat) (i : Nat) (h : row.length ≤ i / 64) :
    get_bit row i = 0 := by
  unfold get_bit
  rw [List.getD_eq_default _ _ h]
  simp

theorem get_bit_xor_zero (h1 h2 : List Nat) (n i : Nat) (hn : n = h1.length)
    (a1 : get_bit h1 i = 0) (a2 : get_bit h2 i = 0) : get_bit (xor_row h1 h2 n) i = 0 := by
  by_cases hi : i / 64 < n
  · rcases get_bit_cases (xor_row h1 h2 n) i with h | h
    · exact h
    · rw [get_bit_xor_row h1 h2 n i (le_of_eq hn) hi, a1, a2] at h
      simp at h
  · exact get_bit_of_length_le _ _ (by rw [xor_row_length _ _ _ (le_of_eq hn)]; omega)

theorem solve_init_history (ns : nsieve_t) :
    history_wf ns (solve_init ns) ∧ history_lower ns (solve_init ns) := by
  have hb := hmlen_bound ns
  refine ⟨⟨by simp [solve_init], fun r hr => ?_⟩, fun r hr => ?_⟩
  · show (((List.range ns.rels_needed).map fun i =>
      flip_bit (List.replicate (hmlen ns) 0) i).getD r []).length = hmlen ns
    rw [getD_range_map _ _ _ _ hr]
    simp [flip_bit]
  · show get_bit (((List.range ns.rels_needed).map fun i =>
        flip_bit (List.replicate (hmlen ns) 0) i).getD r []) r = 1 ∧
      ∀ c, r < c → get_bit (((List.range ns.rels_needed).map fun i =>
        flip_bit (List.replicate (hmlen ns) 0) i).getD r []) c = 0
    rw [getD_range_map _ _ _ _ hr]
    refine ⟨?_, fun c hc => ?_⟩
    · rw [get_bit_flip_zero _ _ _ (by omega), if_pos rfl]
    · rw [get_bit_flip_zero _ _ _ (by omega), if_neg (by omega)]

theorem yolanda_step_history (ns : nsieve_t) (col pivot yolanda : Nat) (st : mat_state)
    (hwf : history_wf ns st) (hlow : history_lower ns st) (hp : pivot < yolanda)
    (hy : yolanda < ns.rels_needed) :
    history_wf ns (yolanda_step ns col pivot st yolanda) ∧
    history_lower ns (yolanda_step ns col pivot st yolanda) := by
  unfold yolanda_step
  split
  · obtain ⟨hh, hhl⟩ := hwf
    have hyl : (st.history.getD yolanda []).length = hmlen ns := hhl _ hy
    have hb := hmlen_bound ns
    refine ⟨⟨by simp [hh], fun r hrR => ?_⟩, fun r hrR => ?_⟩
    · show ((st.history.set yolanda _).getD r []).length = hmlen ns
      rw [getD_set_eq _ _ _ _ _ (by omega)]
      split
      · rw [xor_row_length _ _ _ (le_of_eq hyl.symm), hyl]
      · exact hhl r hrR
    · show get_bit ((st.history.set yolanda _).getD r []) r = 1 ∧
        ∀ c, r < c → get_bit ((st.history.set yolanda _).getD r []) c = 0
      rw [getD_set_eq _ _ _ _ _ (by omega)]
      by_cases hry : r = yolanda
      · subst hry
        rw [if_pos rfl]
        obtain ⟨hy1, hy0⟩ := hlow r hrR
        obtain ⟨_, hp0⟩ := hlow pivot (by omega)
        refine ⟨?_, fun c hc => ?_⟩
        · rw [get_bit_xor_row _ _ _ _ (le_of_eq hyl.symm) (by omega), hy1, hp0 r hp]
          simp
        · exact get_bit_xor_zero _ _ _ _ hyl.symm (hy0 c hc) (hp0 c (by omega))
      · rw [if_neg hry]
        exact hlow r hrR
  · exact ⟨hwf, hlow⟩

theorem sweep_reach_history (ns : nsieve_t) (st : mat_state) (h : sweep_reach ns st) :
    history_wf ns st ∧ history_lower ns st := by
  induction h with
  | start => exact solve_init_history ns
  | xor_step st col pivot yolanda _ hp hy ih =>
    exact yolanda_step_history ns col pivot yolanda st ih.1 ih.2 hp hy

/-- C25: in every state the elimination of `solve_matrix` goes through, and so at its end, the
history matrix is unit lower-triangular: bit `r` of `history[r]` is set and no bit with a larger
index is; hence the dependency of a row `r` contains relation `r` itself, and two distinct rows
select distinct sets of relations (they differ at the larger of the two row numbers). -/
theorem history_unit_lower_triangular (ns : nsieve_t) :
    (∀ st, sweep_reach ns st → history_lower ns st) ∧
    sweep_reach ns (solve_sweep ns) ∧
    (∀ r, r < ns.rels_needed → get_bit ((solve_sweep ns).history.getD r []) r = 1) ∧
    (∀ st, sweep_reach ns st → ∀ r r', r < ns.rels_needed → r' < ns.rels_needed → r ≠ r' →
      ∃ i, i < ns.rels_needed ∧
        get_bit (st.history.getD r []) i ≠ get_bit (st.history.getD r' []) i) := by
  refine ⟨fun st h => (sweep_reach_history ns st h).2, solve_sweep_reach ns,
    fun r hr => ((sweep_reach_history ns _ (solve_sweep_reach ns)).2 r hr).1,
    fun st h r r' hr hr' hne => ?_⟩
  have hlow := (sweep_reach_history ns st h).2
  rcases Nat.lt_or_gt_of_ne hne with hlt | hgt
  · refine ⟨r', hr', ?_⟩
    rw [(hlow r hr).2 r' hlt, (hlow r' hr').1]
    decide
  · refine ⟨r, hr, ?_⟩
    rw [(hlow r hr).1, (hlow r' hr').2 r hgt]
    decide

/-! ## Claims about the pairs of B-values -/

theorem and_shift_eq_zero (z i : Nat) : z &&& (1 <<< i) = 0 ↔ z.testBit i = false := by
  rw [Nat.one_shiftLeft, Nat.and_two_pow]
  have hpos : 0 < 2 ^ i := Nat.pow_pos (by norm_num)
  cases z.testBit i
  · simp
  · simp [hpos.ne']

theorem bit_complement (k z i : Nat) (hz : z < 2 ^ k) (hi : i < k) :
    (2 ^ k - 1 - z) &&& (1 <<< i) = 0 ↔ ¬ (z &&& (1 <<< i) = 0) := by
  rw [and_shift_eq_zero, and_shift_eq_zero]
  have e : 2 ^ k - 1 - z = 2 ^ k - (z + 1) := by omega
  rw [e, Nat.testBit_two_pow_sub_succ hz]
  cases z.testBit i <;> simp [hi]

theorem root_sel_complement (find_root : Int → Nat → Nat) (N : Int) (l : List Nat)
    (hu : ∀ g ∈ l, g < 4294967296) (hroot : ∀ g ∈ l, find_root N g < g)
    (z : Nat) (hz : z < 2 ^ l.length) {i : Nat} (hi : i < l.length) :
    ((root_sel find_root N l z i : Nat) : Int)
      + ((root_sel find_root N l (2 ^ l.length - 1 - z) i : Nat) : Int)
      = ((l.getD i 0 : Nat) : Int) := by
  have hg := getD_mem hi
  have hlt := hroot _ hg
  have hsub := sub_u32_eq hlt.le (hu _ hg)
  unfold root_sel
  by_cases hb : z &&& (1 <<< i) = 0
  · rw [if_pos hb, if_neg (by rw [bit_complement _ _ _ hz hi]; exact not_not.mpr hb), hsub]
    omega
  · rw [if_neg hb, if_pos ((bit_complement _ _ _ hz hi).mpr hb), hsub]
    omega

theorem crt_bval_cong (find_root : Int → Nat → Nat) (N : Int) (l : List Nat)
    (hp : ∀ g ∈ l, Nat.Prime g) (hn : l.Nodup) (z : Nat) :
    ∃ b, crt_bval ((l.prod : Nat) : Int) l (polygroup_roots find_root N l l.length) l.length z
        = some b ∧
      ∀ i, i < l.length → b ≡ (root_sel find_root N l z i : Int) [ZMOD (l.getD i 0 : Int)] := by
  obtain ⟨s, hs, hcong⟩ := crt_fold find_root N l hp hn z l.length le_rfl
  refine ⟨mpz_mod s ((l.prod : Nat) : Int), by unfold crt_bval; rw [hs]; rfl, fun i hi => ?_⟩
  have h1 := hcong i hi
  rw [if_pos hi] at h1
  have h2 : mpz_mod s ((l.prod : Nat) : Int) ≡ s [ZMOD (l.getD i 0 : Int)] := by
    unfold mpz_mod
    apply Int.ModEq.of_mul_left (((l.erase (l.getD i 0)).prod : Nat) : Int)
    have : (((l.erase (l.getD i 0)).prod : Nat) : Int) * (l.getD i 0 : Int)
        = ((l.prod : Nat) : Int) := by
      rw [← List.prod_erase (getD_mem hi)]; push_cast; ring
    rw [this]
    exact Int.mod_modEq _ _
  exact h2.trans h1

theorem generate_polygroup_bvals (find_root : Int → Nat → Nat) (N : Int) (k : Nat)
    (fb : List Nat) (fb_len : Nat) (pg : poly_group_t)
    (hk : pg.gvals.length = k)
    (hp : ∀ g ∈ pg.gvals, Nat.Prime g) (hn : pg.gvals.Nodup)
    (ha : pg.a = ((pg.gvals.prod : Nat) : Int)) :
    ∃ bs : List Int, bs.length = 2 ^ k ∧
      generate_polygroup find_root N k fb fb_len pg = some
        { pg with bvals := bs, ainverses := ainverses_loop pg.a fb fb_len pg.ainverses } ∧
      ∀ z, z < 2 ^ k →
        crt_bval pg.a pg.gvals (polygroup_roots find_root N pg.gvals k) k z
          = some (bs.getD z 0) := by
  subst hk
  obtain ⟨bs, hbs, hlen, hall⟩ :=
    crt_loop_fold ((pg.gvals.prod : Nat) : Int) pg.gvals
      (polygroup_roots find_root N pg.gvals pg.gvals.length) pg.gvals.length
      (fun z => (crt_bval_cong find_root N pg.gvals hp hn z).imp fun _ h => h.1)
      (1 <<< pg.gvals.length)
  rw [Nat.one_shiftLeft] at hlen hall
  refine ⟨bs, hlen, ?_, fun z hz => ?_⟩
  · unfold generate_polygroup crt_loop
    rw [ha, hbs]
  · rw [ha]
    exact hall z hz

/-- C24: for a group that meets the contract of `find_root` (`A` the product of `k ≥ 1` distinct
primes), and every `z < 2^k`: the CRT values that `generate_polygroup` computes for `z` and for
the `k`-bit complement `2^k - 1 - z` (they are the entries `z` and `2^k - 1 - z` of what it
stores) add up to `0` modulo `A`; and exactly one of the two indices `z`, `2^k - 1 - z` is below
`2^(k-1)`. -/
theorem crt_complement_negation (find_root : Int → Nat → Nat) (N : Int) (k : Nat)
    (fb : List Nat) (fb_len : Nat) (pg : poly_group_t) (z : Nat)
    (hk1 : 1 ≤ k) (hz : z < 2 ^ k)
    (hk : pg.gvals.length = k)
    (hp : ∀ g ∈ pg.gvals, Nat.Prime g) (hn : pg.gvals.Nodup)
    (hu : ∀ g ∈ pg.gvals, g < 4294967296)
    (ha : pg.a = ((pg.gvals.prod : Nat) : Int))
    (hroot : ∀ g ∈ pg.gvals,
      find_root N g < g ∧ ((find_root N g : Nat) : Int) ^ 2 ≡ N [ZMOD (g : Int)]) :
    ∃ b1 b2,
      crt_bval pg.a pg.gvals (polygroup_roots find_root N pg.gvals k) k z = some b1 ∧
      crt_bval pg.a pg.gvals (polygroup_roots find_root N pg.gvals k) k (2 ^ k - 1 - z)
        = some b2 ∧
      b1 + b2 ≡ 0 [ZMOD pg.a] ∧
      (∃ pg2, generate_polygroup find_root N k fb fb_len pg = some pg2 ∧
        pg2.bvals.getD z 0 = b1 ∧ pg2.bvals.getD (2 ^ k - 1 - z) 0 = b2) ∧
      (z < 2 ^ (k - 1) ↔ ¬ 2 ^ k - 1 - z < 2 ^ (k - 1)) := by
  obtain ⟨bs, _, hgen, hall⟩ := generate_polygroup_bvals find_root N k fb fb_len pg hk hp hn ha
  have hz' : 2 ^ k - 1 - z < 2 ^ k := by
    have : 0 < 2 ^ k := Nat.pow_pos (by norm_num)
    omega
  refine ⟨bs.getD z 0, bs.getD (2 ^ k - 1 - z) 0, hall z hz, hall _ hz', ?_,
    ⟨_, hgen, rfl, rfl⟩, ?_⟩
  · subst hk
    obtain ⟨b1, hb1, hc1⟩ := crt_bval_cong find_root N pg.gvals hp hn z
    obtain ⟨b2, hb2, hc2⟩ :=
      crt_bval_cong find_root N pg.gvals hp hn (2 ^ pg.gvals.length - 1 - z)
    have e1 := hall z hz
    have e2 := hall _ hz'
    rw [ha, hb1, Option.some_inj] at e1
    rw [ha, hb2, Option.some_inj] at e2
    rw [← e1, ← e2, ha, Int.modEq_zero_iff_dvd]
    apply prod_dvd_of_forall_dvd _ hp hn
    intro g hg
    obtain ⟨i, hi, rfl⟩ := List.getElem_of_mem hg
    have hgi : pg.gvals[i] = pg.gvals.getD i 0 := (List.getD_eq_getElem _ _ hi).symm
    rw [hgi, ← Int.modEq_zero_iff_dvd]
    have hsum := (hc1 i hi).add (hc2 i hi)
    rw [root_sel_complement find_root N pg.gvals hu (fun g hg => (hroot g hg).1) z hz hi]
      at hsum
    exact hsum.trans (Int.modEq_zero_iff_dvd.mpr dvd_rfl)
  · have e : 2 ^ k = 2 * 2 ^ (k - 1) := by
      rw [← pow_succ']
      congr 1
      omega
    omega

theorem crt_complement_negation_witness :
    ∃ b1 b2,
      crt_bval 161 [7, 23] (polygroup_roots (fun _ g => if g = 7 then 3 else 5) 2 [7, 23] 2) 2 1
        = some b1 ∧
      crt_bval 161 [7, 23] (polygroup_roots (fun _ g => if g = 7 then 3 else 5) 2 [7, 23] 2) 2
        (2 ^ 2 - 1 - 1) = some b2 ∧
      b1 + b2 ≡ 0 [ZMOD 161] ∧
      (∃ pg2, generate_polygroup (fun _ g => if g = 7 then 3 else 5) 2 2 [] 0
          ⟨161, [7, 23], [], [], none⟩ = some pg2 ∧
        pg2.bvals.getD 1 0 = b1 ∧ pg2.bvals.getD (2 ^ 2 - 1 - 1) 0 = b2) ∧
      (1 < 2 ^ (2 - 1) ↔ ¬ 2 ^ 2 - 1 - 1 < 2 ^ (2 - 1)) :=
  crt_complement_negation (fun _ g => if g = 7 then 3 else 5) 2 2 [] 0
    ⟨161, [7, 23], [], [], none⟩ 1 (by decide) (by decide) rfl
    (by intro g hg; simp at hg; rcases hg with rfl | rfl <;> norm_num)
    (by decide)
    (by intro g hg; simp at hg; rcases hg with rfl | rfl <;> norm_num)
    (by decide)
    (by intro g hg; simp at hg; rcases hg with rfl | rfl <;> decide)

/-! ## The cached rightmost 1 during the elimination -/

theorem rightmost_1_spec (row : List Nat) :
    ∀ L : Nat, -1 ≤ rightmost_1 row L ∧ rightmost_1 row L ≤ (L : Int) ∧
      (0 ≤ rightmost_1 row L → get_bit row (rightmost_1 row L).toNat = 1) ∧
      ∀ c : Nat, rightmost_1 row L < (c : Int) → c ≤ L → get_bit row c = 0
  | 0 => by
    unfold rightmost_1
    by_cases h : get_bit row 0 = 1
    · rw [if_pos h]
      exact ⟨by norm_num, by norm_num, fun _ => h, fun c h1 h2 => by omega⟩
    · rw [if_neg h]
      refine ⟨le_rfl, by norm_num, fun h0 => absurd h0 (by norm_num), fun c _ h2 => ?_⟩
      have : c = 0 := by omega
      subst this
      rcases get_bit_cases row 0 with h' | h'
      · exact h'
      · exact absurd h' h
  | L + 1 => by
    unfold rightmost_1
    obtain ⟨h1, h2, h3, h4⟩ := rightmost_1_spec row L
    by_cases h : get_bit row (L + 1) = 1
    · rw [if_pos h]
      refine ⟨by omega, le_rfl, fun _ => ?_, fun c hc1 hc2 => by omega⟩
      rw [Int.toNat_ofNat]
      exact h
    · rw [if_neg h]
      refine ⟨h1, by push_cast; omega, h3, fun c hc1 hc2 => ?_⟩
      by_cases hc : c = L + 1
      · subst hc
        rcases get_bit_cases row (L + 1) with h' | h'
        · exact h'
        · exact absurd h' h
      · exact h4 c hc1 (by omega)

theorem rightmost_1_lt (row : List Nat) (col : Nat) :
    ∀ L : Nat, (∀ c, col ≤ c → c ≤ L → get_bit row c = 0) → rightmost_1 row L < (col : Int)
  | 0, h => by
    unfold rightmost_1
    by_cases hc : col = 0
    · subst hc
      rw [if_neg (by rw [h 0 le_rfl le_rfl]; decide)]
      norm_num
    · split
      · omega
      · omega
  | L + 1, h => by
    unfold rightmost_1
    by_cases hc : col ≤ L + 1
    · rw [if_neg (by rw [h (L + 1) hc le_rfl]; decide)]
      exact rightmost_1_lt row col L (fun c h1 h2 => h c h1 (by omega))
    · have := (rightmost_1_spec row L).2.1
      split
      · push_cast; omega
      · omega

theorem rightmost_1_is_rightmost (row : List Nat) (L : Nat)
    (hno : ∀ c, L < c → get_bit row c = 0) : is_rightmost row (rightmost_1 row L) := by
  obtain ⟨h1, h2, h3, h4⟩ := rightmost_1_spec row L
  by_cases hneg : rightmost_1 row L = -1
  · refine Or.inl ⟨hneg, fun c => ?_⟩
    by_cases hc : c ≤ L
    · exact h4 c (by omega) hc
    · exact hno c (by omega)
  · refine Or.inr ⟨by omega, h3 (by omega), fun c hc => ?_⟩
    by_cases hcL : c ≤ L
    · exact h4 c hc hcL
    · exact hno c (by omega)

theorem u32_of_int_eq_iff (v : Int) (col L : Nat) (h1 : -1 ≤ v) (h2 : v ≤ (L : Int))
    (hL : L < 2147483648) (hcol : col ≤ L) : u32_of_int v = col ↔ v = (col : Int) := by
  unfold u32_of_int
  by_cases hv : v = -1
  · subst hv
    constructor
    · intro h
      have : ((-1 : Int) % 4294967296).toNat = 4294967295 := by decide
      omega
    · intro h
      omega
  · have h0 : 0 ≤ v := by omega
    rw [Int.emod_eq_of_lt h0 (by omega)]
    omega

theorem getD_set_ne {α : Type} (l : List α) (j i : Nat) (v d : α) (h : i ≠ j) :
    (l.set j v).getD i d = l.getD i d := by
  simp only [List.getD_eq_getElem?_getD, List.getElem?_set]
  rw [if_neg (fun h2 => h h2.symm)]

theorem solve_init_rows (ns : nsieve_t) (hin : matrix_input_ok ns) :
    rows_ok ns (solve_init ns) ∧ rmos_ok ns (solve_init ns) := by
  obtain ⟨hlen, hrow, _, _⟩ := hin
  refine ⟨⟨by simp [solve_init, hlen], fun i hi => ?_⟩, ⟨by simp [solve_init], fun i hi => ?_⟩⟩
  · show ((ns.relns.map fun m => m.row).getD i []).length = ns.row_len ∧
      (∀ j, ((ns.relns.map fun m => m.row).getD i []).getD j 0 < 2 ^ 64) ∧
      ∀ c, ns.fb_len < c → get_bit ((ns.relns.map fun m => m.row).getD i []) c = 0
    rw [getD_map_row _ _ (by omega)]
    exact hrow _ (List.getElem_mem _)
  · show ((List.range ns.rels_needed).map fun i =>
        u32_of_int (rightmost_1 ((ns.relns.map fun m => m.row).getD i []) ns.fb_len)).getD i 0
      = u32_of_int (rightmost_1 ((ns.relns.map fun m => m.row).getD i []) ns.fb_len)
    rw [getD_range_map _ _ _ _ hi]

theorem xor_row_word_lt (a b : List Nat) (n : Nat) (hn : n ≤ a.length)
    (ha : ∀ j, a.getD j 0 < 2 ^ 64) (hb : ∀ j, b.getD j 0 < 2 ^ 64) (j : Nat) :
    (xor_row a b n).getD j 0 < 2 ^ 64 := by
  rw [xor_row_getD _ _ _ hn]
  split
  · exact Nat.xor_lt_two_pow (ha j) (hb j)
  · exact ha j

theorem yolanda_step_rows (ns : nsieve_t) (col pivot yolanda : Nat) (st : mat_state)
    (hrows : rows_ok ns st) (hrmos : rmos_ok ns st) (hp : pivot < ns.rels_needed)
    (hy : yolanda < ns.rels_needed) :
    rows_ok ns (yolanda_step ns col pivot st yolanda) ∧
    rmos_ok ns (yolanda_step ns col pivot st yolanda) := by
  unfold yolanda_step
  split
  · obtain ⟨hl, hr⟩ := hrows
    obtain ⟨hml, hm⟩ := hrmos
    obtain ⟨hyl, hyw, hyb⟩ := hr yolanda hy
    obtain ⟨hpl, hpw, hpb⟩ := hr pivot hp
    refine ⟨⟨by simp [hl], fun i hi => ?_⟩, ⟨by simp [hml], fun i hi => ?_⟩⟩
    · show ((st.rows.set yolanda _).getD i []).length = ns.row_len ∧
        (∀ j, ((st.rows.set yolanda _).getD i []).getD j 0 < 2 ^ 64) ∧
        ∀ c, ns.fb_len < c → get_bit ((st.rows.set yolanda _).getD i []) c = 0
      rw [getD_set_eq _ _ _ _ _ (by omega)]
      by_cases hiy : i = yolanda
      · rw [if_pos hiy]
        exact ⟨by rw [xor_row_length _ _ _ (le_of_eq hyl.symm), hyl],
          xor_row_word_lt _ _ _ (le_of_eq hyl.symm) hyw hpw,
          fun c hc => get_bit_xor_zero _ _ _ _ hyl.symm (hyb c hc) (hpb c hc)⟩
      · rw [if_neg hiy]
        exact hr i hi
    · show (st.rmos.set yolanda _).getD i 0
        = u32_of_int (rightmost_1 ((st.rows.set yolanda _).getD i []) ns.fb_len)
      rw [getD_set_nat _ _ _ _ (by omega), getD_set_eq _ _ _ _ _ (by omega)]
      by_cases hiy : i = yolanda
      · rw [if_pos hiy, if_pos hiy]
        rfl
      · rw [if_neg hiy, if_neg hiy]
        exact hm i hi
  · exact ⟨hrows, hrmos⟩

theorem sweep_trace_rows (ns : nsieve_t) (hin : matrix_input_ok ns) (st : mat_state)
    (h : sweep_trace ns st) : rows_ok ns st ∧ rmos_ok ns st := by
  induction h with
  | start => exact solve_init_rows ns hin
  | xor_step st col pivot yolanda _ _ hp hy _ _ ih =>
    exact yolanda_step_rows ns col pivot yolanda st ih.1 ih.2 (by omega) hy

theorem rmos_value (ns : nsieve_t) (hin : matrix_input_ok ns) (st : mat_state)
    (hrmos : rmos_ok ns st) (i col : Nat) (hi : i < ns.rels_needed) (hcol : col ≤ ns.fb_len) :
    st.rmos.getD i 0 = col ↔ rightmost_1 (st.rows.getD i []) ns.fb_len = (col : Int) := by
  obtain ⟨h1, h2, _, _⟩ := rightmost_1_spec (st.rows.getD i []) ns.fb_len
  rw [hrmos.2 i hi]
  exact u32_of_int_eq_iff _ col ns.fb_len h1 h2 hin.2.2.2 hcol

theorem xor_rightmost_lt (ns : nsieve_t) (hin : matrix_input_ok ns) (a b : List Nat) (col : Nat)
    (hcol : col ≤ ns.fb_len) (hal : a.length = ns.row_len)
    (ha : rightmost_1 a ns.fb_len = (col : Int)) (hb : rightmost_1 b ns.fb_len = (col : Int)) :
    rightmost_1 (xor_row a b ns.row_len) ns.fb_len < (col : Int) := by
  apply rightmost_1_lt
  intro c hc1 hc2
  obtain ⟨_, _, a3, a4⟩ := rightmost_1_spec a ns.fb_len
  obtain ⟨_, _, b3, b4⟩ := rightmost_1_spec b ns.fb_len
  rw [ha] at a3 a4
  rw [hb] at b3 b4
  have hw : c / 64 < ns.row_len := by
    have := hin.2.2.1
    omega
  rcases get_bit_cases (xor_row a b ns.row_len) c with h | h
  · exact h
  · exfalso
    rw [get_bit_xor_row a b _ c (le_of_eq hal.symm) hw] at h
    by_cases hcc : c = col
    · subst hcc
      have e1 := a3 (by omega)
      have e2 := b3 (by omega)
      rw [Int.toNat_ofNat] at e1 e2
      exact h (by rw [e1, e2])
    · have e1 := a4 c (by omega) hc2
      have e2 := b4 c (by omega) hc2
      exact h (by rw [e1, e2])

theorem yolanda_step_rmos (ns : nsieve_t) (hin : matrix_input_ok ns) (col pivot yolanda : Nat)
    (st : mat_state) (hrows : rows_ok ns st) (hrmos : rmos_ok ns st)
    (hcol : col ≤ ns.fb_len) (hp : pivot < ns.rels_needed) (hy : yolanda < ns.rels_needed)
    (hpv : st.rmos.getD pivot 0 = col) :
    (∀ i, i ≠ yolanda →
      (yolanda_step ns col pivot st yolanda).rmos.getD i 0 = st.rmos.getD i 0) ∧
    (yolanda_step ns col pivot st yolanda).rmos.getD yolanda 0 ≠ col ∧
    (∀ c, col < c → c ≤ ns.fb_len →
      (yolanda_step ns col pivot st yolanda).rmos.getD yolanda 0 = c →
      st.rmos.getD yolanda 0 = c) ∧
    (st.rmos.getD yolanda 0 = col →
      rightmost_1 ((yolanda_step ns col pivot st yolanda).rows.getD yolanda []) ns.fb_len
        < (col : Int)) := by
  have hnew := (yolanda_step_rows ns col pivot yolanda st hrows hrmos hp hy).2
  unfold yolanda_step at hnew ⊢
  by_cases hyc : st.rmos.getD yolanda 0 = col
  · rw [if_pos hyc] at hnew ⊢
    have hlt : rightmost_1 (xor_row (st.rows.getD yolanda []) (st.rows.getD pivot [])
        ns.row_len) ns.fb_len < (col : Int) :=
      xor_rightmost_lt ns hin _ _ col hcol (hrows.2 yolanda hy).1
        ((rmos_value ns hin st hrmos yolanda col hy hcol).mp hyc)
        ((rmos_value ns hin st hrmos pivot col hp hcol).mp hpv)
    have hval : ∀ c, col ≤ c → c ≤ ns.fb_len →
        (st.rmos.set yolanda (u32_of_int (rightmost_1 (xor_row (st.rows.getD yolanda [])
          (st.rows.getD pivot []) ns.row_len) (expm_cols ns - 1)))).getD yolanda 0 ≠ c := by
      intro c hc1 hc2 heq
      rw [getD_set_nat _ _ _ _ (by rw [hrmos.1]; exact hy), if_pos rfl] at heq
      have hspec := rightmost_1_spec (xor_row (st.rows.getD yolanda []) (st.rows.getD pivot [])
        ns.row_len) ns.fb_len
      have he : expm_cols ns - 1 = ns.fb_len := by unfold expm_cols; omega
      rw [he] at heq
      have := (u32_of_int_eq_iff _ c ns.fb_len hspec.1 hspec.2.1 hin.2.2.2 hc2).mp heq
      omega
    refine ⟨fun i hi => ?_, hval col le_rfl hcol, fun c hc1 hc2 h => ?_, fun _ => ?_⟩
    · exact getD_set_ne _ _ _ _ _ hi
    · exact absurd h (hval c (by omega) hc2)
    · show rightmost_1 ((st.rows.set yolanda _).getD yolanda []) ns.fb_len < _
      rw [getD_set_eq _ _ _ _ _ (by rw [hrows.1]; exact hy), if_pos rfl]
      exact hlt
  · rw [if_neg hyc]
    exact ⟨fun _ _ => rfl, hyc, fun _ _ _ h => h, fun h => absurd h hyc⟩

theorem yolanda_step_column (ns : nsieve_t) (hin : matrix_input_ok ns) (col p y : Nat)
    (st : mat_state) (hcol : col < expm_cols ns) (hpy : p < y) (hy : y < ns.rels_needed)
    (h : column_inv ns col p st y) :
    column_inv ns col p (yolanda_step ns col p st y) (y + 1) := by
  obtain ⟨htr, hpv, hbelow, hbetween, huniq⟩ := h
  obtain ⟨hrows, hrmos⟩ := sweep_trace_rows ns hin st htr
  have hcl : col ≤ ns.fb_len := by unfold expm_cols at hcol; omega
  obtain ⟨hother, hself, hup, _⟩ :=
    yolanda_step_rmos ns hin col p y st hrows hrmos hcl (by omega) hy hpv
  refine ⟨sweep_trace.xor_step st col p y htr hcol hpy hy hpv hbelow, ?_, ?_, ?_, ?_⟩
  · rw [hother p (by omega)]
    exact hpv
  · intro j hj
    rw [hother j (by omega)]
    exact hbelow j hj
  · intro j hj1 hj2
    by_cases hjy : j = y
    · subst hjy
      exact hself
    · rw [hother j hjy]
      exact hbetween j hj1 (by omega)
  · intro c hc1 hc2 i j hi hj hic hjc
    have hcL : c ≤ ns.fb_len := by unfold expm_cols at hc2; omega
    have key : ∀ x, x < ns.rels_needed →
        (yolanda_step ns col p st y).rmos.getD x 0 = c → st.rmos.getD x 0 = c := by
      intro x _ hx
      by_cases hxy : x = y
      · subst hxy
        exact hup c hc1 hcL hx
      · rw [hother x hxy] at hx
        exact hx
    exact huniq c hc1 hc2 i j hi hj (key i hi hic) (key j hj hjc)

theorem yolanda_fold_column (ns : nsieve_t) (hin : matrix_input_ok ns) (col p : Nat)
    (hcol : col < expm_cols ns) :
    ∀ (n s : Nat) (st : mat_state), p < s → s + n ≤ ns.rels_needed →
      column_inv ns col p st s →
      column_inv ns col p ((List.range' s n).foldl (yolanda_step ns col p) st) (s + n)
  | 0, s, st, _, _, h => h
  | n + 1, s, st, hps, hs, h => by
    rw [List.range'_succ, List.foldl_cons]
    have := yolanda_fold_column ns hin col p hcol n (s + 1) _ (by omega) (by omega)
      (yolanda_step_column ns hin col p s st hcol hps (by omega) h)
    have he : s + 1 + n = s + (n + 1) := by omega
    rw [he] at this
    exact this

theorem find_pivot_lowest (rmos : List Nat) (col R : Nat) :
    find_pivot rmos col R R 0 ≤ R ∧
    (find_pivot rmos col R R 0 < R → rmos.getD (find_pivot rmos col R R 0) 0 = col) ∧
    ∀ j, j < find_pivot rmos col R R 0 → rmos.getD j 0 ≠ col := by
  obtain ⟨_, h2, h3⟩ := find_pivot_exit rmos col R R 0 (by omega)
  refine ⟨?_, fun hlt => ?_, fun j hj => (h3 j (Nat.zero_le j) hj).2⟩
  · by_contra hgt
    have := (h3 R (Nat.zero_le R) (by omega)).1
    omega
  · by_contra hne
    exact h2 ⟨hlt, hne⟩

theorem column_step_inv (ns : nsieve_t) (hin : matrix_input_ok ns) (st : mat_state) (m : Nat)
    (hm : m < expm_cols ns) (h : sweep_inv ns st (m + 1)) :
    sweep_inv ns (column_step ns st m) m := by
  obtain ⟨htr, huniq⟩ := h
  obtain ⟨hle, hpv, hbelow⟩ := find_pivot_lowest st.rmos m ns.rels_needed
  unfold column_step
  simp only []
  generalize find_pivot st.rmos m ns.rels_needed ns.rels_needed 0 = p at hle hpv hbelow
  by_cases hp : p < ns.rels_needed
  · have hJ := yolanda_fold_column ns hin m p hm (ns.rels_needed - (p + 1)) (p + 1) st
      (by omega) (by omega)
      ⟨htr, hpv hp, hbelow, fun j h1 h2 => by omega,
        fun c hc1 hc2 => huniq c (by omega) hc2⟩
    have he : p + 1 + (ns.rels_needed - (p + 1)) = ns.rels_needed := by omega
    rw [he] at hJ
    obtain ⟨htr2, hpv2, hbelow2, hbetween2, huniq2⟩ := hJ
    refine ⟨htr2, fun c hc1 hc2 => ?_⟩
    by_cases hcm : c = m
    · subst hcm
      intro i j hi hj hic hjc
      have hi2 : i = p := by
        by_contra hne
        rcases Nat.lt_or_gt_of_ne hne with h1 | h1
        · exact hbelow2 i h1 hic
        · exact hbetween2 i h1 hi hic
      have hj2 : j = p := by
        by_contra hne
        rcases Nat.lt_or_gt_of_ne hne with h1 | h1
        · exact hbelow2 j h1 hjc
        · exact hbetween2 j h1 hj hjc
      rw [hi2, hj2]
    · exact huniq2 c (by omega) hc2
  · have he : ns.rels_needed - (p + 1) = 0 := by omega
    rw [he, List.range'_zero, List.foldl_nil]
    refine ⟨htr, fun c hc1 hc2 => ?_⟩
    by_cases hcm : c = m
    · subst hcm
      intro i j hi _ hic _
      exact absurd hic (hbelow i (by omega))
    · exact huniq c (by omega) hc2

theorem sweep_fold_inv (ns : nsieve_t) (hin : matrix_input_ok ns) :
    ∀ (m : Nat) (st : mat_state), m ≤ expm_cols ns → sweep_inv ns st m →
      sweep_inv ns ((List.range m).reverse.foldl (column_step ns) st) 0
  | 0, st, _, h => by
    simpa using h
  | m + 1, st, hm, h => by
    rw [List.range_succ, List.reverse_append, List.reverse_singleton, List.singleton_append,
      List.foldl_cons]
    exact sweep_fold_inv ns hin m _ (by omega) (column_step_inv ns hin st m (by omega) h)

theorem solve_sweep_inv (ns : nsieve_t) (hin : matrix_input_ok ns) :
    sweep_inv ns (solve_sweep ns) 0 := by
  unfold solve_sweep
  exact sweep_fold_inv ns hin (expm_cols ns) (solve_init ns) le_rfl
    ⟨sweep_trace.start, fun c h1 h2 => by omega⟩

theorem sweep_cols_succ (ns : nsieve_t) (m : Nat) (hm : m < expm_cols ns) :
    sweep_cols ns (m + 1) = column_step ns (sweep_cols ns m) (expm_cols ns - 1 - m) := by
  unfold sweep_cols
  have hget : (List.range (expm_cols ns)).reverse[m]? = some (expm_cols ns - 1 - m) := by
    rw [List.getElem?_reverse (by simpa using hm), List.length_range,
      List.getElem?_range (by omega)]
  rw [List.take_succ, hget, List.foldl_append]
  rfl

theorem sweep_cols_all (ns : nsieve_t) : sweep_cols ns (expm_cols ns) = solve_sweep ns := by
  unfold sweep_cols solve_sweep
  rw [List.take_of_length_le (by simp)]

theorem sweep_inner_all (ns : nsieve_t) (m : Nat) (hm : m < expm_cols ns) :
    sweep_inner ns m (ns.rels_needed - (sweep_pivot ns m + 1)) = sweep_cols ns (m + 1) := by
  rw [sweep_cols_succ ns m hm]
  rfl

theorem sweep_cols_inv (ns : nsieve_t) (hin : matrix_input_ok ns) :
    ∀ m, m ≤ expm_cols ns → sweep_inv ns (sweep_cols ns m) (expm_cols ns - m)
  | 0, _ => ⟨sweep_trace.start, fun c h1 h2 => by omega⟩
  | m + 1, hm => by
    have ih := sweep_cols_inv ns hin m (by omega)
    have he : expm_cols ns - m = expm_cols ns - 1 - m + 1 := by omega
    rw [he] at ih
    have := column_step_inv ns hin _ _ (by omega) ih
    rw [← sweep_cols_succ ns m (by omega)] at this
    have he2 : expm_cols ns - (m + 1) = expm_cols ns - 1 - m := by omega
    rw [he2]
    exact this

theorem sweep_inner_trace (ns : nsieve_t) (hin : matrix_input_ok ns) (m n : Nat)
    (hm : m < expm_cols ns) (hn : sweep_pivot ns m + 1 + n ≤ ns.rels_needed) :
    sweep_trace ns (sweep_inner ns m n) := by
  obtain ⟨htr, huniq⟩ := sweep_cols_inv ns hin m (by omega)
  obtain ⟨_, hpv, hbelow⟩ := find_pivot_lowest (sweep_cols ns m).rmos (expm_cols ns - 1 - m)
    ns.rels_needed
  exact (yolanda_fold_column ns hin (expm_cols ns - 1 - m) (sweep_pivot ns m) (by omega) n
    (sweep_pivot ns m + 1) (sweep_cols ns m) (by omega) hn
    ⟨htr, hpv (by unfold sweep_pivot at hn; omega), hbelow, fun j h1 h2 => by omega,
      fun c hc1 hc2 => huniq c (by omega) hc2⟩).1

theorem word_eq_zero (row : List Nat) (j : Nat) (hw : row.getD j 0 < 2 ^ 64)
    (hb : ∀ c, get_bit row c = 0) : row.getD j 0 = 0 := by
  apply Nat.zero_of_testBit_eq_false
  intro b
  by_cases hb64 : b < 64
  · have h := hb (64 * j + b)
    unfold get_bit at h
    have h1 : (64 * j + b) / 64 = j := by omega
    have h2 : (64 * j + b) % 64 = b := by omega
    rw [h1, h2] at h
    by_contra hne
    rw [if_pos (by simpa using hne)] at h
    exact absurd h (by decide)
  · exact Nat.testBit_lt_two_pow
      (lt_of_lt_of_le hw (Nat.pow_le_pow_right (by decide) (by omega)))

theorem is_zero_vec_iff (ns : nsieve_t) (st : mat_state) (hrows : rows_ok ns st) (i : Nat)
    (hi : i < ns.rels_needed) :
    is_zero_vec (st.rows.getD i []) ns.row_len = true ↔
      rightmost_1 (st.rows.getD i []) ns.fb_len = -1 := by
  obtain ⟨hlen, hword, hbeyond⟩ := hrows.2 i hi
  obtain ⟨h1, h2, h3, h4⟩ := rightmost_1_spec (st.rows.getD i []) ns.fb_len
  unfold is_zero_vec
  rw [List.all_eq_true]
  constructor
  · intro hz
    have hall : ∀ c, get_bit (st.rows.getD i []) c = 0 := by
      intro c
      unfold get_bit
      have : (st.rows.getD i []).getD (c / 64) 0 = 0 := by
        by_cases hc : c / 64 < ns.row_len
        · simpa using hz (c / 64) (List.mem_range.mpr hc)
        · exact List.getD_eq_default _ _ (by omega)
      rw [this]
      simp
    by_contra hne
    have h0 : 0 ≤ rightmost_1 (st.rows.getD i []) ns.fb_len := by omega
    have := h3 h0
    rw [hall] at this
    exact absurd this (by decide)
  · intro hr j _
    have hall : ∀ c, get_bit (st.rows.getD i []) c = 0 := by
      intro c
      by_cases hc : c ≤ ns.fb_len
      · exact h4 c (by rw [hr]; omega) hc
      · exact hbeyond c (by omega)
    simpa using word_eq_zero _ j (hword j) hall

theorem solve_sweep_distinct (ns : nsieve_t) (hin : matrix_input_ok ns) (i j : Nat)
    (hi : i < ns.rels_needed) (hj : j < ns.rels_needed)
    (hni : is_zero_vec ((solve_sweep ns).rows.getD i []) ns.row_len = false)
    (heq : rightmost_1 ((solve_sweep ns).rows.getD i []) ns.fb_len =
      rightmost_1 ((solve_sweep ns).rows.getD j []) ns.fb_len) : i = j := by
  obtain ⟨htr, huniq⟩ := solve_sweep_inv ns hin
  obtain ⟨hrows, hrmos⟩ := sweep_trace_rows ns hin _ htr
  obtain ⟨h1, h2, _, _⟩ := rightmost_1_spec ((solve_sweep ns).rows.getD i []) ns.fb_len
  have hne : rightmost_1 ((solve_sweep ns).rows.getD i []) ns.fb_len ≠ -1 := by
    intro h
    rw [(is_zero_vec_iff ns _ hrows i hi).mpr h] at hni
    exact absurd hni (by decide)
  obtain ⟨c, hc⟩ := Int.eq_ofNat_of_zero_le
    (show 0 ≤ rightmost_1 ((solve_sweep ns).rows.getD i []) ns.fb_len by omega)
  have hcL : c ≤ ns.fb_len := by omega
  exact huniq c (Nat.zero_le c) (by unfold expm_cols; omega) i j hi hj
    ((rmos_value ns hin _ hrmos i c hi hcL).mpr hc)
    ((rmos_value ns hin _ hrmos j c hj hcL).mpr (heq ▸ hc))

theorem solve_sweep_zero_count (ns : nsieve_t) (hin : matrix_input_ok ns) :
    ns.rels_needed ≤ ns.fb_len + 1 + ((Finset.range ns.rels_needed).filter fun r =>
      is_zero_vec ((solve_sweep ns).rows.getD r []) ns.row_len = true).card := by
  obtain ⟨htr, _⟩ := solve_sweep_inv ns hin
  obtain ⟨hrows, _⟩ := sweep_trace_rows ns hin _ htr
  have hsplit := Finset.filter_card_add_filter_neg_card_eq_card
    (s := Finset.range ns.rels_needed)
    (fun r => is_zero_vec ((solve_sweep ns).rows.getD r []) ns.row_len = true)
  rw [Finset.card_range] at hsplit
  have hinj : ((Finset.range ns.rels_needed).filter fun r =>
      ¬ is_zero_vec ((solve_sweep ns).rows.getD r []) ns.row_len = true).card ≤
      (Finset.range (ns.fb_len + 1)).card := by
    apply Finset.card_le_card_of_injOn
      (fun r => (rightmost_1 ((solve_sweep ns).rows.getD r []) ns.fb_len).toNat)
    · intro r hr
      obtain ⟨_, h2, _, _⟩ := rightmost_1_spec ((solve_sweep ns).rows.getD r []) ns.fb_len
      show _ ∈ (Finset.range (ns.fb_len + 1) : Set Nat)
      rw [Finset.coe_range, Set.mem_Iio]
      omega
    · intro a ha b hb hab
      simp only [Finset.coe_filter, Finset.mem_range, Set.mem_setOf_eq, Bool.not_eq_true]
        at ha hb
      have hza : rightmost_1 ((solve_sweep ns).rows.getD a []) ns.fb_len ≠ -1 := by
        intro h
        rw [(is_zero_vec_iff ns _ hrows a ha.1).mpr h] at ha
        exact absurd ha.2 (by decide)
      have hzb : rightmost_1 ((solve_sweep ns).rows.getD b []) ns.fb_len ≠ -1 := by
        intro h
        rw [(is_zero_vec_iff ns _ hrows b hb.1).mpr h] at hb
        exact absurd hb.2 (by decide)
      have ha1 := (rightmost_1_spec ((solve_sweep ns).rows.getD a []) ns.fb_len).1
      have hb1 := (rightmost_1_spec ((solve_sweep ns).rows.getD b []) ns.fb_len).1
      have hab2 : (rightmost_1 ((solve_sweep ns).rows.getD a []) ns.fb_len).toNat =
          (rightmost_1 ((solve_sweep ns).rows.getD b []) ns.fb_len).toNat := hab
      exact solve_sweep_distinct ns hin a b ha.1 hb.1 ha.2 (by omega)
  rw [Finset.card_range] at hinj
  omega

theorem matrix_input_ok_of_words (ns : nsieve_t) (h1 : ns.relns.length = ns.rels_needed)
    (h2 : ns.row_len = 1) (h3 : ns.fb_len < 64)
    (h4 : ∀ m ∈ ns.relns, m.row.length = 1 ∧ m.row.getD 0 0 < 2 ^ (ns.fb_len + 1)) :
    matrix_input_ok ns := by
  refine ⟨h1, fun m hm => ?_, by omega, by omega⟩
  obtain ⟨hl, hw⟩ := h4 m hm
  have hout : ∀ j, 0 < j → m.row.getD j 0 = 0 := fun j hj =>
    List.getD_eq_default _ _ (by omega)
  refine ⟨by rw [hl, h2], fun j => ?_, fun c hc => ?_⟩
  · by_cases hj : j = 0
    · subst hj
      exact lt_of_lt_of_le hw (Nat.pow_le_pow_right (by decide) (by omega))
    · rw [hout j (by omega)]
      exact Nat.pow_pos (by decide)
  · unfold get_bit
    by_cases hc64 : c < 64
    · have e1 : c / 64 = 0 := by omega
      have e2 : c % 64 = c := by omega
      rw [e1, e2, Nat.testBit_lt_two_pow
        (lt_of_lt_of_le hw (Nat.pow_le_pow_right (by decide) (by omega)))]
      simp
    · rw [hout (c / 64) (by omega)]
      simp

/-! ## Claims about the cached rightmost 1 and the zero rows after the elimination -/

/-- C23: for input rows of `row_len` 64-bit words with no bit set beyond column `fb_len`
(and `fb_len < 64 * row_len`, `fb_len < 2^31`), every state of the elimination — after any
number of passes of the column loop and, inside a pass, after any number of passes of the
inner loop — is a state of the trace; in every state of the trace the cached `rmos[i]` is
the rightmost 1 of the current exponent row `i` (restricted to the columns `0..fb_len`, which
is the rightmost 1 of the whole row), so `rmos[i] = col` iff the rightmost 1 of row `i` is in
column `col`; the pivot search returns the lowest-index row whose rightmost 1 is in `col`
(or `rels_needed` if there is none); and when the pivot is XORed into a row `y > pivot`, the
recomputed rightmost 1 of `y` is below `col`, possibly the sentinel `-1`. -/
theorem rmos_cache_invariant (ns : nsieve_t) (hin : matrix_input_ok ns) :
    (sweep_cols ns 0 = solve_init ns ∧ sweep_cols ns (expm_cols ns) = solve_sweep ns ∧
      ∀ m, m < expm_cols ns →
        sweep_inner ns m 0 = sweep_cols ns m ∧
        sweep_inner ns m (ns.rels_needed - (sweep_pivot ns m + 1)) = sweep_cols ns (m + 1)) ∧
    (∀ m, m ≤ expm_cols ns → sweep_trace ns (sweep_cols ns m)) ∧
    (∀ m n, m < expm_cols ns → sweep_pivot ns m + 1 + n ≤ ns.rels_needed →
      sweep_trace ns (sweep_inner ns m n)) ∧
    (∀ st, sweep_trace ns st → ∀ i, i < ns.rels_needed →
      st.rmos.getD i 0 = u32_of_int (rightmost_1 (st.rows.getD i []) ns.fb_len) ∧
      is_rightmost (st.rows.getD i []) (rightmost_1 (st.rows.getD i []) ns.fb_len) ∧
      ∀ col, col ≤ ns.fb_len →
        (st.rmos.getD i 0 = col ↔
          rightmost_1 (st.rows.getD i []) ns.fb_len = (col : Int))) ∧
    (∀ st col, sweep_trace ns st → col ≤ ns.fb_len →
      find_pivot st.rmos col ns.rels_needed ns.rels_needed 0 ≤ ns.rels_needed ∧
      (find_pivot st.rmos col ns.rels_needed ns.rels_needed 0 < ns.rels_needed →
        rightmost_1 (st.rows.getD (find_pivot st.rmos col ns.rels_needed ns.rels_needed 0) [])
          ns.fb_len = (col : Int)) ∧
      ∀ j, j < find_pivot st.rmos col ns.rels_needed ns.rels_needed 0 →
        rightmost_1 (st.rows.getD j []) ns.fb_len ≠ (col : Int)) ∧
    (∀ st col pivot y, sweep_trace ns st → col ≤ ns.fb_len → pivot < y →
      y < ns.rels_needed → st.rmos.getD pivot 0 = col → st.rmos.getD y 0 = col →
      (yolanda_step ns col pivot st y).rows.getD y [] =
        xor_row (st.rows.getD y []) (st.rows.getD pivot []) ns.row_len ∧
      -1 ≤ rightmost_1 ((yolanda_step ns col pivot st y).rows.getD y []) ns.fb_len ∧
      rightmost_1 ((yolanda_step ns col pivot st y).rows.getD y []) ns.fb_len < (col : Int) ∧
      (yolanda_step ns col pivot st y).rmos.getD y 0 =
        u32_of_int (rightmost_1 ((yolanda_step ns col pivot st y).rows.getD y [])
          ns.fb_len)) := by
  refine ⟨⟨rfl, sweep_cols_all ns, fun m hm => ⟨rfl, sweep_inner_all ns m hm⟩⟩,
    fun m hm => (sweep_cols_inv ns hin m hm).1,
    fun m n hm hn => sweep_inner_trace ns hin m n hm hn,
    fun st htr i hi => ?_, fun st col htr hcol => ?_, fun st col pivot y htr hcol hpy hy hp hyc => ?_⟩
  · obtain ⟨hrows, hrmos⟩ := sweep_trace_rows ns hin st htr
    exact ⟨hrmos.2 i hi, rightmost_1_is_rightmost _ _ (hrows.2 i hi).2.2,
      fun col hcol => rmos_value ns hin st hrmos i col hi hcol⟩
  · obtain ⟨hrows, hrmos⟩ := sweep_trace_rows ns hin st htr
    obtain ⟨hle, hpv, hbelow⟩ := find_pivot_lowest st.rmos col ns.rels_needed
    refine ⟨hle, fun hlt => (rmos_value ns hin st hrmos _ col hlt hcol).mp (hpv hlt),
      fun j hj hr => ?_⟩
    exact hbelow j hj ((rmos_value ns hin st hrmos j col (by omega) hcol).mpr hr)
  · obtain ⟨hrows, hrmos⟩ := sweep_trace_rows ns hin st htr
    have hlt := (yolanda_step_rmos ns hin col pivot y st hrows hrmos hcol (by omega) hy hp).2.2.2
      hyc
    have hnew := (yolanda_step_rows ns col pivot y st hrows hrmos (by omega) hy).2
    refine ⟨?_, (rightmost_1_spec _ _).1, hlt, hnew.2 y hy⟩
    unfold yolanda_step
    rw [if_pos hyc]
    show (st.rows.set y _).getD y [] = _
    rw [getD_set_eq _ _ _ _ _ (by rw [hrows.1]; exact hy), if_pos rfl]

theorem rmos_cache_invariant_witness :
    matrix_input_ok ns_small ∧
    sweep_trace ns_small (solve_sweep ns_small) ∧
    (solve_sweep ns_small).rmos.getD 1 0 =
      u32_of_int (rightmost_1 ((solve_sweep ns_small).rows.getD 1 []) ns_small.fb_len) :=
  ⟨matrix_input_ok_of_words ns_small (by decide) (by decide) (by decide) (by decide),
   (rmos_cache_invariant ns_small
      (matrix_input_ok_of_words ns_small (by decide) (by decide) (by decide) (by decide))).1.2.1
      ▸ (rmos_cache_invariant ns_small
      (matrix_input_ok_of_words ns_small (by decide) (by decide) (by decide)
        (by decide))).2.1 (expm_cols ns_small) le_rfl,
   ((rmos_cache_invariant ns_small
      (matrix_input_ok_of_words ns_small (by decide) (by decide) (by decide)
        (by decide))).2.2.2.1 _
      ((rmos_cache_invariant ns_small
        (matrix_input_ok_of_words ns_small (by decide) (by decide) (by decide) (by decide))).1.2.1
        ▸ (rmos_cache_invariant ns_small
        (matrix_input_ok_of_words ns_small (by decide) (by decide) (by decide)
          (by decide))).2.1 (expm_cols ns_small) le_rfl) 1 (by decide)).1⟩

/-- C22: with `rels_needed = fb_len + 48` rows of `row_len` 64-bit words and `fb_len + 1`
columns, no bit set beyond column `fb_len` in any input row (and `fb_len < 64 * row_len`,
`fb_len < 2^31`), after the elimination no two distinct nonzero exponent rows have their
rightmost 1 in the same column, so at least `rels_needed - (fb_len + 1) = 47` of the
`rels_needed` exponent rows are zero, and in particular some row is. -/
theorem solve_sweep_zero_rows (ns : nsieve_t) (hin : matrix_input_ok ns)
    (hR : ns.rels_needed = ns.fb_len + 48) :
    (∀ i j, i < ns.rels_needed → j < ns.rels_needed → i ≠ j →
      is_zero_vec ((solve_sweep ns).rows.getD i []) ns.row_len = false →
      is_zero_vec ((solve_sweep ns).rows.getD j []) ns.row_len = false →
      rightmost_1 ((solve_sweep ns).rows.getD i []) ns.fb_len ≠
        rightmost_1 ((solve_sweep ns).rows.getD j []) ns.fb_len) ∧
    (∀ i, i < ns.rels_needed →
      is_zero_vec ((solve_sweep ns).rows.getD i []) ns.row_len = false →
      0 ≤ rightmost_1 ((solve_sweep ns).rows.getD i []) ns.fb_len ∧
      is_rightmost ((solve_sweep ns).rows.getD i [])
        (rightmost_1 ((solve_sweep ns).rows.getD i []) ns.fb_len)) ∧
    ns.rels_needed - (ns.fb_len + 1) = 47 ∧
    47 ≤ ((Finset.range ns.rels_needed).filter fun r =>
      is_zero_vec ((solve_sweep ns).rows.getD r []) ns.row_len = true).card ∧
    ∃ r, r < ns.rels_needed ∧
      is_zero_vec ((solve_sweep ns).rows.getD r []) ns.row_len = true := by
  have hcount := solve_sweep_zero_count ns hin
  obtain ⟨hrows, _⟩ := sweep_trace_rows ns hin _ (solve_sweep_inv ns hin).1
  refine ⟨fun i j hi hj hne hzi _ heq => hne (solve_sweep_distinct ns hin i j hi hj hzi heq),
    fun i hi hzi => ?_, by omega, by omega, ?_⟩
  · refine ⟨?_, rightmost_1_is_rightmost _ _ (hrows.2 i hi).2.2⟩
    have h1 := (rightmost_1_spec ((solve_sweep ns).rows.getD i []) ns.fb_len).1
    have hne : rightmost_1 ((solve_sweep ns).rows.getD i []) ns.fb_len ≠ -1 := by
      intro h
      rw [(is_zero_vec_iff ns _ hrows i hi).mpr h] at hzi
      exact absurd hzi (by decide)
    omega
  · have hpos : 0 < ((Finset.range ns.rels_needed).filter fun r =>
        is_zero_vec ((solve_sweep ns).rows.getD r []) ns.row_len = true).card := by omega
    obtain ⟨r, hr⟩ := Finset.card_pos.mp hpos
    rw [Finset.mem_filter, Finset.mem_range] at hr
    exact ⟨r, hr.1, hr.2⟩

set_option maxRecDepth 100000 in
theorem solve_sweep_zero_rows_witness :
    matrix_input_ok ns_fifty ∧ ns_fifty.rels_needed = ns_fifty.fb_len + 48 ∧
    47 ≤ ((Finset.range ns_fifty.rels_needed).filter fun r =>
      is_zero_vec ((solve_sweep ns_fifty).rows.getD r []) ns_fifty.row_len = true).card :=
  ⟨matrix_input_ok_of_words ns_fifty (by decide) (by decide) (by decide) (by decide),
   by decide,
   (solve_sweep_zero_rows ns_fifty
      (matrix_input_ok_of_words ns_fifty (by decide) (by decide) (by decide) (by decide))
      (by decide)).2.2.2.1⟩

/-! ## Claims about the parameter table -/

theorem set_params_sentinel (fp : float_ops) (ns : nsieve_t) (p1 p2 : Nat) (fac : Rat)
    (hfb : ns.fb_bound = 4294967295) (hlp : ns.lp_bound = 4294967295)
    (hM : ns.M = 4294967295) (hT : ns.T = -1) :
    (set_params fp ns p1 p2 fac).fb_bound
      = u32_of_double (fp.interp (param p1 1) fac (param p2 1)) ∧
    (set_params fp ns p1 p2 fac).lp_bound
      = u32_of_double (fp.interp (param p1 2) fac (param p2 2)) ∧
    (set_params fp ns p1 p2 fac).M
      = u32_of_double (fp.interp (param p1 3) fac (param p2 3)) ∧
    (set_params fp ns p1 p2 fac).T
      = fp.to_float (fp.interp (param p1 4) fac (param p2 4)) := by
  unfold set_params
  simp [hfb, hlp, hM, hT]

theorem u32_of_double_nat_div (m d : Nat) (h : m / d < 4294967296) :
    u32_of_double ((m : Rat) / (d : Rat)) = m / d := by
  unfold u32_of_double
  have : Int.floor ((m : Rat) / (d : Rat)) = ((m / d : Nat) : Int) := by
    have := Rat.floor_intCast_div_natCast (m : Int) d
    simpa using this
  rw [this, Int.toNat_ofNat, Nat.mod_eq_of_lt h]

theorem u32_of_double_nat (m : Nat) (h : m < 4294967296) : u32_of_double (m : Rat) = m := by
  have := u32_of_double_nat_div m 1 (by simpa using h)
  simpa using this

theorem interp_exact (a b k d : Nat) (hk : k ≤ d) (hd : 0 < d) :
    fp_exact.interp (a : Rat) (fp_exact.div (k : Rat) (d : Rat)) (b : Rat)
      = ((a * k + b * (d - k) : Nat) : Rat) / (d : Rat) := by
  show (a : Rat) * ((k : Rat) / (d : Rat)) + (b : Rat) * (1 - (k : Rat) / (d : Rat)) = _
  have hd0 : (d : Rat) ≠ 0 := by exact_mod_cast hd.ne.symm
  push_cast [Nat.cast_sub hk]
  field_simp

theorem param_rows :
    (param 0 1 = ((5000 : Nat) : Rat) ∧ param 0 2 = ((5000 : Nat) : Rat) ∧
      param 0 3 = ((32768 : Nat) : Rat)) ∧
    (param 1 1 = ((11000 : Nat) : Rat) ∧ param 1 2 = ((11000 : Nat) : Rat) ∧
      param 1 3 = ((65536 : Nat) : Rat)) ∧
    (param 2 1 = ((25000 : Nat) : Rat) ∧ param 2 2 = ((25000 : Nat) : Rat) ∧
      param 2 3 = ((65536 : Nat) : Rat)) ∧
    (param 3 1 = ((55000 : Nat) : Rat) ∧ param 3 2 = ((55000 : Nat) : Rat) ∧
      param 3 3 = ((65536 : Nat) : Rat)) := by
  norm_num [param, params]

theorem param_col4 (i : Nat) (hi : i ≤ 3) :
    param i 4 = 5854679515581645 / 4503599627370496 := by
  rcases i with _ | _ | _ | _ | i
  · norm_num [param, params]
  · norm_num [param, params]
  · norm_num [param, params]
  · norm_num [param, params]
  · omega

theorem select_parameters_low (fp : float_ops) (ns : nsieve_t)
    (h : mpz_sizeinbase2 ns.N ≤ 100) : select_parameters fp ns = set_params fp ns 0 0 0 := by
  unfold select_parameters
  simp only []
  have : ((mpz_sizeinbase2 ns.N : Nat) : Rat) ≤ param 0 0 := by
    rw [param_col0.1]
    exact_mod_cast h
  rw [if_pos this]

theorem select_parameters_high (fp : float_ops) (ns : nsieve_t)
    (h : 160 ≤ mpz_sizeinbase2 ns.N) : select_parameters fp ns = set_params fp ns 3 3 0 := by
  unfold select_parameters
  simp only []
  have h1 : ¬ ((mpz_sizeinbase2 ns.N : Nat) : Rat) ≤ param 0 0 := by
    rw [param_col0.1, not_le]
    have : 100 < mpz_sizeinbase2 ns.N := by omega
    exact_mod_cast this
  have h2 : ((mpz_sizeinbase2 ns.N : Nat) : Rat) ≥ param (4 - 1) 0 := by
    rw [show (4 - 1 : Nat) = 3 from rfl, param_col0.2.2.2]
    exact_mod_cast h
  rw [if_neg h1, if_pos h2]

theorem select_parameters_mid (fp : float_ops) (ns : nsieve_t) (i : Nat) (hi1 : 1 ≤ i)
    (hi3 : i ≤ 3) (hlo : param (i - 1) 0 < (mpz_sizeinbase2 ns.N : Rat))
    (hhi : (mpz_sizeinbase2 ns.N : Rat) ≤ param i 0) (h160 : mpz_sizeinbase2 ns.N < 160) :
    select_parameters fp ns = set_params fp ns i (i - 1)
      (fp.div ((mpz_sizeinbase2 ns.N : Rat) - param (i - 1) 0)
        (param i 0 - param (i - 1) 0)) := by
  obtain ⟨e0, e1, e2, e3⟩ := param_col0
  unfold select_parameters
  simp only []
  generalize mpz_sizeinbase2 ns.N = bits at hlo hhi h160
  have hb : 100 < bits := by
    rcases i with _ | _ | _ | _ | i
    · omega
    · rw [show (0 + 1 - 1 : Nat) = 0 from rfl, e0] at hlo
      exact_mod_cast hlo
    · rw [show (0 + 1 + 1 - 1 : Nat) = 1 from rfl, e1] at hlo
      have : 120 < bits := by exact_mod_cast hlo
      omega
    · rw [show (0 + 1 + 1 + 1 - 1 : Nat) = 2 from rfl, e2] at hlo
      have : 140 < bits := by exact_mod_cast hlo
      omega
    · omega
  have h1 : ¬ (bits : Rat) ≤ param 0 0 := by
    rw [e0, not_le]
    exact_mod_cast hb
  have h2 : ¬ (bits : Rat) ≥ param (4 - 1) 0 := by
    rw [show (4 - 1 : Nat) = 3 from rfl, e3, ge_iff_le, not_le]
    exact_mod_cast h160
  rw [if_neg h1, if_neg h2]
  obtain ⟨l1, l2, l3⟩ := params_level_eq bits hb h160
  have hlev : params_level bits 4 0 = i := by
    rcases i with _ | _ | _ | _ | i
    · omega
    · rw [show (0 + 1 : Nat) = 1 from rfl, e1] at hhi
      exact l1 (by exact_mod_cast hhi)
    · rw [show (0 + 1 + 1 - 1 : Nat) = 1 from rfl, e1] at hlo
      rw [show (0 + 1 + 1 : Nat) = 2 from rfl, e2] at hhi
      exact l2 (by exact_mod_cast hlo) (by exact_mod_cast hhi)
    · rw [show (0 + 1 + 1 + 1 - 1 : Nat) = 2 from rfl, e2] at hlo
      exact l3 (by exact_mod_cast hlo)
    · omega
  rw [hlev]

theorem select_parameters_exact_mid (ns : nsieve_t)
    (hfb : ns.fb_bound = 4294967295) (hlp : ns.lp_bound = 4294967295)
    (hM : ns.M = 4294967295) (hT : ns.T = -1) (i b0 k v1 v2 v3 w1 w2 w3 : Nat)
    (hi1 : 1 ≤ i) (hi3 : i ≤ 3)
    (e0 : param (i - 1) 0 = ((b0 : Nat) : Rat)) (e1 : param i 0 = ((b0 + 20 : Nat) : Rat))
    (p1 : param i 1 = (v1 : Rat)) (p2 : param i 2 = (v2 : Rat)) (p3 : param i 3 = (v3 : Rat))
    (q1 : param (i - 1) 1 = (w1 : Rat)) (q2 : param (i - 1) 2 = (w2 : Rat))
    (q3 : param (i - 1) 3 = (w3 : Rat))
    (hk0 : 0 < k) (hk : k ≤ 20) (hbits : mpz_sizeinbase2 ns.N = b0 + k) (h160 : b0 + k < 160)
    (c1 : (v1 * k + w1 * (20 - k)) / 20 < 4294967296)
    (c2 : (v2 * k + w2 * (20 - k)) / 20 < 4294967296)
    (c3 : (v3 * k + w3 * (20 - k)) / 20 < 4294967296) :
    (select_parameters fp_exact ns).fb_bound = (v1 * k + w1 * (20 - k)) / 20 ∧
    (select_parameters fp_exact ns).lp_bound = (v2 * k + w2 * (20 - k)) / 20 ∧
    (select_parameters fp_exact ns).M = (v3 * k + w3 * (20 - k)) / 20 ∧
    (select_parameters fp_exact ns).T = 5854679515581645 / 4503599627370496 := by
  have hlo : param (i - 1) 0 < (mpz_sizeinbase2 ns.N : Rat) := by
    rw [e0, hbits]
    exact_mod_cast (by omega : b0 < b0 + k)
  have hhi : (mpz_sizeinbase2 ns.N : Rat) ≤ param i 0 := by
    rw [e1, hbits]
    exact_mod_cast (by omega : b0 + k ≤ b0 + 20)
  rw [select_parameters_mid fp_exact ns i hi1 hi3 hlo hhi (by omega)]
  have hnum : ((mpz_sizeinbase2 ns.N : Rat) - param (i - 1) 0) = ((k : Nat) : Rat) := by
    rw [e0, hbits]
    push_cast
    ring
  have hden : param i 0 - param (i - 1) 0 = ((20 : Nat) : Rat) := by
    rw [e0, e1]
    push_cast
    ring
  rw [hnum, hden]
  obtain ⟨f1, f2, f3, f4⟩ := set_params_sentinel fp_exact ns i (i - 1)
    (fp_exact.div ((k : Nat) : Rat) ((20 : Nat) : Rat)) hfb hlp hM hT
  rw [p1, q1, interp_exact v1 w1 k 20 hk (by decide), u32_of_double_nat_div _ _ c1] at f1
  rw [p2, q2, interp_exact v2 w2 k 20 hk (by decide), u32_of_double_nat_div _ _ c2] at f2
  rw [p3, q3, interp_exact v3 w3 k 20 hk (by decide), u32_of_double_nat_div _ _ c3] at f3
  refine ⟨f1, f2, f3, ?_⟩
  rw [f4, param_col4 i hi3, param_col4 (i - 1) (by omega)]
  show (5854679515581645 / 4503599627370496 : Rat) * _ + _ * (1 - _) = _
  ring

theorem select_parameters_rows (fp : float_ops) (ns : nsieve_t)
    (hfb : ns.fb_bound = 4294967295) (hlp : ns.lp_bound = 4294967295)
    (hM : ns.M = 4294967295) (hT : ns.T = -1)
    (hzero : ∀ a b : Rat, fp.interp a 0 b = b) :
    (mpz_sizeinbase2 ns.N ≤ 100 →
      (select_parameters fp ns).fb_bound = 5000 ∧ (select_parameters fp ns).lp_bound = 5000 ∧
      (select_parameters fp ns).M = 32768 ∧
      (select_parameters fp ns).T = fp.to_float (param 0 4)) ∧
    (160 ≤ mpz_sizeinbase2 ns.N →
      (select_parameters fp ns).fb_bound = 55000 ∧ (select_parameters fp ns).lp_bound = 55000 ∧
      (select_parameters fp ns).M = 65536 ∧
      (select_parameters fp ns).T = fp.to_float (param 3 4)) := by
  obtain ⟨⟨a1, a2, a3⟩, _, _, ⟨d1, d2, d3⟩⟩ := param_rows
  constructor
  · intro h
    rw [select_parameters_low fp ns h]
    obtain ⟨f1, f2, f3, f4⟩ := set_params_sentinel fp ns 0 0 0 hfb hlp hM hT
    rw [hzero] at f1 f2 f3 f4
    rw [a1, u32_of_double_nat _ (by decide)] at f1
    rw [a2, u32_of_double_nat _ (by decide)] at f2
    rw [a3, u32_of_double_nat _ (by decide)] at f3
    exact ⟨f1, f2, f3, f4⟩
  · intro h
    rw [select_parameters_high fp ns h]
    obtain ⟨f1, f2, f3, f4⟩ := set_params_sentinel fp ns 3 3 0 hfb hlp hM hT
    rw [hzero] at f1 f2 f3 f4
    rw [d1, u32_of_double_nat _ (by decide)] at f1
    rw [d2, u32_of_double_nat _ (by decide)] at f2
    rw [d3, u32_of_double_nat _ (by decide)] at f3
    exact ⟨f1, f2, f3, f4⟩

theorem select_parameters_at_row (fp : float_ops) (ns : nsieve_t)
    (hfb : ns.fb_bound = 4294967295) (hlp : ns.lp_bound = 4294967295)
    (hM : ns.M = 4294967295) (hT : ns.T = -1)
    (hone : ∀ a b : Rat, fp.interp a 1 b = a) (hdiv : ∀ x : Rat, 0 < x → fp.div x x = 1) :
    (mpz_sizeinbase2 ns.N = 120 →
      (select_parameters fp ns).fb_bound = 11000 ∧ (select_parameters fp ns).lp_bound = 11000 ∧
      (select_parameters fp ns).M = 65536 ∧
      (select_parameters fp ns).T = fp.to_float (param 1 4)) ∧
    (mpz_sizeinbase2 ns.N = 140 →
      (select_parameters fp ns).fb_bound = 25000 ∧ (select_parameters fp ns).lp_bound = 25000 ∧
      (select_parameters fp ns).M = 65536 ∧
      (select_parameters fp ns).T = fp.to_float (param 2 4)) := by
  obtain ⟨_, ⟨b1, b2, b3⟩, ⟨c1, c2, c3⟩, _⟩ := param_rows
  obtain ⟨e0, e1, e2, e3⟩ := param_col0
  constructor
  · intro h
    have hmid := select_parameters_mid fp ns 1 le_rfl (by decide)
      (by rw [show (1 - 1 : Nat) = 0 from rfl, e0, h]; norm_num)
      (by rw [e1, h]; norm_num) (by omega)
    rw [hmid]
    have hfac : fp.div ((mpz_sizeinbase2 ns.N : Rat) - param (1 - 1) 0)
        (param 1 0 - param (1 - 1) 0) = 1 := by
      rw [show (1 - 1 : Nat) = 0 from rfl, e0, e1, h]
      norm_num
      exact hdiv 20 (by norm_num)
    rw [hfac]
    obtain ⟨f1, f2, f3, f4⟩ := set_params_sentinel fp ns 1 (1 - 1) 1 hfb hlp hM hT
    rw [hone] at f1 f2 f3 f4
    rw [b1, u32_of_double_nat _ (by decide)] at f1
    rw [b2, u32_of_double_nat _ (by decide)] at f2
    rw [b3, u32_of_double_nat _ (by decide)] at f3
    exact ⟨f1, f2, f3, f4⟩
  · intro h
    have hmid := select_parameters_mid fp ns 2 (by decide) (by decide)
      (by rw [show (2 - 1 : Nat) = 1 from rfl, e1, h]; norm_num)
      (by rw [e2, h]; norm_num) (by omega)
    rw [hmid]
    have hfac : fp.div ((mpz_sizeinbase2 ns.N : Rat) - param (2 - 1) 0)
        (param 2 0 - param (2 - 1) 0) = 1 := by
      rw [show (2 - 1 : Nat) = 1 from rfl, e1, e2, h]
      norm_num
      exact hdiv 20 (by norm_num)
    rw [hfac]
    obtain ⟨f1, f2, f3, f4⟩ := set_params_sentinel fp ns 2 (2 - 1) 1 hfb hlp hM hT
    rw [hone] at f1 f2 f3 f4
    rw [c1, u32_of_double_nat _ (by decide)] at f1
    rw [c2, u32_of_double_nat _ (by decide)] at f2
    rw [c3, u32_of_double_nat _ (by decide)] at f3
    exact ⟨f1, f2, f3, f4⟩

theorem fp_exact_contract :
    (∀ a b : Rat, fp_exact.interp a 0 b = b) ∧ (∀ a b : Rat, fp_exact.interp a 1 b = a) ∧
    (∀ x : Rat, 0 < x → fp_exact.div x x = 1) := by
  refine ⟨fun a b => ?_, fun a b => ?_, fun x hx => ?_⟩
  · show a * 0 + b * (1 - 0) = b
    ring
  · show a * 1 + b * (1 - 1) = a
    ring
  · show x / x = 1
    exact div_self hx.ne.symm

theorem select_parameters_exact (ns : nsieve_t)
    (hfb : ns.fb_bound = 4294967295) (hlp : ns.lp_bound = 4294967295)
    (hM : ns.M = 4294967295) (hT : ns.T = -1) (k : Nat) (hk : k ≤ 20) :
    (mpz_sizeinbase2 ns.N = 100 + k →
      (select_parameters fp_exact ns).fb_bound = 5000 + 300 * k ∧
      (select_parameters fp_exact ns).lp_bound = 5000 + 300 * k ∧
      (select_parameters fp_exact ns).M = 32768 + 8192 * k / 5 ∧
      (select_parameters fp_exact ns).T = 5854679515581645 / 4503599627370496) ∧
    (mpz_sizeinbase2 ns.N = 120 + k →
      (select_parameters fp_exact ns).fb_bound = 11000 + 700 * k ∧
      (select_parameters fp_exact ns).lp_bound = 11000 + 700 * k ∧
      (select_parameters fp_exact ns).M = 65536 ∧
      (select_parameters fp_exact ns).T = 5854679515581645 / 4503599627370496) ∧
    (mpz_sizeinbase2 ns.N = 140 + k →
      (select_parameters fp_exact ns).fb_bound = 25000 + 1500 * k ∧
      (select_parameters fp_exact ns).lp_bound = 25000 + 1500 * k ∧
      (select_parameters fp_exact ns).M = 65536 ∧
      (select_parameters fp_exact ns).T = 5854679515581645 / 4503599627370496) := by
  obtain ⟨⟨a1, a2, a3⟩, ⟨b1, b2, b3⟩, ⟨c1, c2, c3⟩, ⟨d1, d2, d3⟩⟩ := param_rows
  obtain ⟨e0, e1, e2, e3⟩ := param_col0
  obtain ⟨hzero, hone, hdiv⟩ := fp_exact_contract
  obtain ⟨hrow0, hrow3⟩ := select_parameters_rows fp_exact ns hfb hlp hM hT hzero
  obtain ⟨hrow1, hrow2⟩ := select_parameters_at_row fp_exact ns hfb hlp hM hT hone hdiv
  refine ⟨fun h => ?_, fun h => ?_, fun h => ?_⟩
  · by_cases hk0 : k = 0
    · subst hk0
      obtain ⟨f1, f2, f3, f4⟩ := hrow0 (by omega)
      exact ⟨f1, f2, f3, f4.trans (param_col4 0 (by decide))⟩
    · obtain ⟨f1, f2, f3, f4⟩ := select_parameters_exact_mid ns hfb hlp hM hT 1 100 k
        11000 11000 65536 5000 5000 32768 le_rfl (by decide)
        (by rw [show (1 - 1 : Nat) = 0 from rfl, e0]; norm_num) (by rw [e1]; norm_num)
        b1 b2 b3 a1 a2 a3 (by omega) hk h (by omega) (by omega) (by omega) (by omega)
      rw [f1, f2, f3, f4]
      refine ⟨by omega, by omega, by omega, rfl⟩
  · by_cases hk0 : k = 0
    · subst hk0
      obtain ⟨f1, f2, f3, f4⟩ := hrow1 (by omega)
      exact ⟨f1, f2, f3, f4.trans (param_col4 1 (by decide))⟩
    · obtain ⟨f1, f2, f3, f4⟩ := select_parameters_exact_mid ns hfb hlp hM hT 2 120 k
        25000 25000 65536 11000 11000 65536 (by decide) (by decide)
        (by rw [show (2 - 1 : Nat) = 1 from rfl, e1]; norm_num) (by rw [e2]; norm_num)
        c1 c2 c3 b1 b2 b3 (by omega) hk h (by omega) (by omega) (by omega) (by omega)
      rw [f1, f2, f3, f4]
      refine ⟨by omega, by omega, by omega, rfl⟩
  · by_cases hk0 : k = 0
    · subst hk0
      obtain ⟨f1, f2, f3, f4⟩ := hrow2 (by omega)
      exact ⟨f1, f2, f3, f4.trans (param_col4 2 (by decide))⟩
    · by_cases hk20 : k = 20
      · subst hk20
        obtain ⟨f1, f2, f3, f4⟩ := hrow3 (by omega)
        exact ⟨f1, f2, f3, f4.trans (param_col4 3 (by decide))⟩
      · obtain ⟨f1, f2, f3, f4⟩ := select_parameters_exact_mid ns hfb hlp hM hT 3 140 k
          55000 55000 65536 25000 25000 65536 (by decide) le_rfl
          (by rw [show (3 - 1 : Nat) = 2 from rfl, e2]; norm_num) (by rw [e3]; norm_num)
          d1 d2 d3 c1 c2 c3 (by omega) hk h (by omega) (by omega) (by omega) (by omega)
        rw [f1, f2, f3, f4]
        refine ⟨by omega, by omega, by omega, rfl⟩

theorem ns_auto_bits : mpz_sizeinbase2 ns_auto.N = 120 + 6 := by
  show mpz_sizeinbase2 (2 ^ 125) = 126
  unfold mpz_sizeinbase2
  rw [if_neg (by positivity)]
  have : ((2 : Int) ^ 125).natAbs = 2 ^ 125 := by
    rw [Int.natAbs_pow]
    rfl
  rw [this, Nat.size_pow]

/-- C19: with no user overrides (`fb_bound`, `lp_bound` and `M` at the sentinel `-1`, which is
`4294967295` in the 32-bit fields, and `T` at `-1`), `select_parameters` yields row 0 of the
table (`5000`, `5000`, `32768`, and for `T` the `float` of the table's `1.3`) for every `N` of
at most 100 bits and the last row (`55000`, `55000`, `65536`) for every `N` of at least 160
bits; for a bit length strictly between, with rows `i - 1` and `i` bracketing it, every field is
the truncated value of the interpolation `params[i][j] * fac + params[i-1][j] * (1 - fac)`,
`fac = (bits - params[i-1][0]) / (params[i][0] - params[i-1][0])`, as the floating-point
operations evaluate it; at 120 and 140 bits this is the table row itself; and in exact
arithmetic the values are `5000 + 300 k`, `11000 + 700 k`, `25000 + 1500 k` for the bounds and
`⌊32768 + 8192 k / 5⌋`, `65536`, `65536` for `M`, at `k` bits above 100, 120, 140.  The
floating-point operations only have to be exact at `fac = 0`, at `fac = 1` and for `x / x`. -/
theorem select_parameters_table (fp : float_ops) (ns : nsieve_t)
    (hfb : ns.fb_bound = 4294967295) (hlp : ns.lp_bound = 4294967295)
    (hM : ns.M = 4294967295) (hT : ns.T = -1)
    (hzero : ∀ a b : Rat, fp.interp a 0 b = b) (hone : ∀ a b : Rat, fp.interp a 1 b = a)
    (hdiv : ∀ x : Rat, 0 < x → fp.div x x = 1) :
    (mpz_sizeinbase2 ns.N ≤ 100 →
      (select_parameters fp ns).fb_bound = 5000 ∧ (select_parameters fp ns).lp_bound = 5000 ∧
      (select_parameters fp ns).M = 32768 ∧
      (select_parameters fp ns).T = fp.to_float (param 0 4)) ∧
    (160 ≤ mpz_sizeinbase2 ns.N →
      (select_parameters fp ns).fb_bound = 55000 ∧ (select_parameters fp ns).lp_bound = 55000 ∧
      (select_parameters fp ns).M = 65536 ∧
      (select_parameters fp ns).T = fp.to_float (param 3 4)) ∧
    (∀ i, 1 ≤ i → i ≤ 3 → param (i - 1) 0 < (mpz_sizeinbase2 ns.N : Rat) →
      (mpz_sizeinbase2 ns.N : Rat) ≤ param i 0 → mpz_sizeinbase2 ns.N < 160 →
      (select_parameters fp ns).fb_bound = u32_of_double (fp.interp (param i 1)
        (fp.div ((mpz_sizeinbase2 ns.N : Rat) - param (i - 1) 0) (param i 0 - param (i - 1) 0))
        (param (i - 1) 1)) ∧
      (select_parameters fp ns).lp_bound = u32_of_double (fp.interp (param i 2)
        (fp.div ((mpz_sizeinbase2 ns.N : Rat) - param (i - 1) 0) (param i 0 - param (i - 1) 0))
        (param (i - 1) 2)) ∧
      (select_parameters fp ns).M = u32_of_double (fp.interp (param i 3)
        (fp.div ((mpz_sizeinbase2 ns.N : Rat) - param (i - 1) 0) (param i 0 - param (i - 1) 0))
        (param (i - 1) 3)) ∧
      (select_parameters fp ns).T = fp.to_float (fp.interp (param i 4)
        (fp.div ((mpz_sizeinbase2 ns.N : Rat) - param (i - 1) 0) (param i 0 - param (i - 1) 0))
        (param (i - 1) 4))) ∧
    (mpz_sizeinbase2 ns.N = 120 →
      (select_parameters fp ns).fb_bound = 11000 ∧ (select_parameters fp ns).lp_bound = 11000 ∧
      (select_parameters fp ns).M = 65536 ∧
      (select_parameters fp ns).T = fp.to_float (param 1 4)) ∧
    (mpz_sizeinbase2 ns.N = 140 →
      (select_parameters fp ns).fb_bound = 25000 ∧ (select_parameters fp ns).lp_bound = 25000 ∧
      (select_parameters fp ns).M = 65536 ∧
      (select_parameters fp ns).T = fp.to_float (param 2 4)) ∧
    (∀ i, i ≤ 3 → param i 4 = 5854679515581645 / 4503599627370496) ∧
    (∀ k, k ≤ 20 →
      (mpz_sizeinbase2 ns.N = 100 + k →
        (select_parameters fp_exact ns).fb_bound = 5000 + 300 * k ∧
        (select_parameters fp_exact ns).lp_bound = 5000 + 300 * k ∧
        (select_parameters fp_exact ns).M = 32768 + 8192 * k / 5 ∧
        (select_parameters fp_exact ns).T = 5854679515581645 / 4503599627370496) ∧
      (mpz_sizeinbase2 ns.N = 120 + k →
        (select_parameters fp_exact ns).fb_bound = 11000 + 700 * k ∧
        (select_parameters fp_exact ns).lp_bound = 11000 + 700 * k ∧
        (select_parameters fp_exact ns).M = 65536 ∧
        (select_parameters fp_exact ns).T = 5854679515581645 / 4503599627370496) ∧
      (mpz_sizeinbase2 ns.N = 140 + k →
        (select_parameters fp_exact ns).fb_bound = 25000 + 1500 * k ∧
        (select_parameters fp_exact ns).lp_bound = 25000 + 1500 * k ∧
        (select_parameters fp_exact ns).M = 65536 ∧
        (select_parameters fp_exact ns).T = 5854679515581645 / 4503599627370496)) := by
  obtain ⟨hrow0, hrow3⟩ := select_parameters_rows fp ns hfb hlp hM hT hzero
  obtain ⟨hrow1, hrow2⟩ := select_parameters_at_row fp ns hfb hlp hM hT hone hdiv
  refine ⟨hrow0, hrow3, fun i hi1 hi3 hlo hhi h160 => ?_, hrow1, hrow2, param_col4,
    fun k hk => select_parameters_exact ns hfb hlp hM hT k hk⟩
  rw [select_parameters_mid fp ns i hi1 hi3 hlo hhi h160]
  exact set_params_sentinel fp ns i (i - 1) _ hfb hlp hM hT

theorem select_parameters_table_witness :
    ns_auto.fb_bound = 4294967295 ∧ ns_auto.lp_bound = 4294967295 ∧ ns_auto.M = 4294967295 ∧
    ns_auto.T = -1 ∧ mpz_sizeinbase2 ns_auto.N = 126 ∧
    (select_parameters fp_exact ns_auto).fb_bound = 15200 ∧
    (select_parameters fp_exact ns_auto).lp_bound = 15200 ∧
    (select_parameters fp_exact ns_auto).M = 65536 ∧
    (select_parameters fp_exact ns_auto).T = 5854679515581645 / 4503599627370496 :=
  ⟨rfl, rfl, rfl, rfl, ns_auto_bits,
   ((select_parameters_table fp_exact ns_auto rfl rfl rfl rfl fp_exact_contract.1
      fp_exact_contract.2.1 fp_exact_contract.2.2).2.2.2.2.2.2 6 (by decide)).2.1 ns_auto_bits⟩

end NSieve
